import Mathlib

/-!
# NMEA line assembler and sentence parser (`src/main.c`)

A shallow embedding of the GPS receive path of `src/main.c`:

* `gps_uart_cb` / `rx_loop` / `rx_byte`: the byte-at-a-time line buffer,
* `parse_nmea`: the GGA / RMC field extraction into `current_gps`,
* `nmea_to_degrees`: the coordinate conversion, over an explicit arithmetic of `float`,
* the C library routines the parser calls (`strstr`, `strtok_r`, `strncpy`,
  `strlen`, `atoi`, `atof`, `snprintf` with the fixed time format),
* the binary floating point of `double` and `float`: rounding, conversion and the four
  operations.

Conventions.  A `char` is a natural number (its byte value).  A `char[N]` is a
list of `N` bytes.  A C string argument is a list of bytes that is read up to
its first NUL (`cstr`).  An `int` is an integer in the range of 32 bits in two's
complement.  A `float` or `double` is a value of `FloatVal`: a finite binary number, an
infinity or a NaN; `roundFloat` rounds a number to binary32 or binary64 as IEEE 754
prescribes, and `float32` is the arithmetic of `float` built on it.  The conversion
`nmea_to_degrees` takes the arithmetic of `float` as a parameter (`FloatOps`).
-/

namespace Nmea

/-! ## Bytes and C strings -/

/-- The byte values of a text literal, used to write sentences and identifiers. -/
def bytes (s : String) : List Nat := s.toList.map Char.toNat

/-- The C string stored at the start of a byte array: everything before the first NUL. -/
def cstr (a : List Nat) : List Nat := a.takeWhile (fun b => b != 0)

/-- C `strlen`. -/
def strlen (a : List Nat) : Nat := (cstr a).length

/-- C `strstr(hay, needle)` on C strings: the offset of the first occurrence of `needle`
in `hay`, or `none` for a NULL result. -/
def strstrFrom (needle : List Nat) : List Nat → Option Nat
  | [] => if needle.isPrefixOf [] then some 0 else none
  | h :: t =>
      if needle.isPrefixOf (h :: t) then some 0
      else (strstrFrom needle t).map (fun i => i + 1)

/-- C `strstr` applied to arrays holding C strings. -/
def strstr (hay needle : List Nat) : Option Nat := strstrFrom (cstr needle) (cstr hay)

/-- C `strncpy(dest, src, n)`: the first `n` bytes of `dest` become the C string `src`
cut to `n` bytes and padded with NUL up to `n` bytes; no NUL is added when `src` has
`n` or more characters.  Bytes of `dest` from index `n` on are kept. -/
def strncpy (dest src : List Nat) (n : Nat) : List Nat :=
  ((cstr src).take n ++ List.replicate (n - (cstr src).length) 0) ++ dest.drop n

/-- C `strtok_r(str, delim, &saveptr)`: skips leading delimiters; at the end of the string
the token is NULL (`none`); otherwise the token runs up to the next delimiter, which is
overwritten by NUL, and the save pointer is set behind it.  The argument is the string
scanned (`str` on the first call, the save pointer on a call with `str == NULL`); the
result is the token and the new save pointer. -/
def strtok_r (s delim : List Nat) : Option (List Nat) × List Nat :=
  match s.dropWhile (fun c => delim.contains c) with
  | [] => (none, [])
  | c :: r =>
      (some ((c :: r).takeWhile (fun b => !(delim.contains b))),
        ((c :: r).dropWhile (fun b => !(delim.contains b))).drop 1)

/-- C `isspace` in the "C" locale. -/
def isspace (c : Nat) : Bool := c == 32 || (9 ≤ c && c ≤ 13)

/-- C `isdigit`. -/
def isdigit (c : Nat) : Bool := 48 ≤ c && c ≤ 57

/-- The value of a run of decimal digit characters. -/
def digitsVal (ds : List Nat) : Nat := ds.foldl (fun acc d => 10 * acc + (d - 48)) 0

/-- Removes an optional sign character; the flag is true for `-`. -/
def takeSign : List Nat → Bool × List Nat
  | 45 :: r => (true, r)
  | 43 :: r => (false, r)
  | s => (false, s)

/-- The integer `n` or `-n`, as the flag tells. -/
def signed (neg : Bool) (n : Nat) : Int := if neg then -(n : Int) else (n : Int)

/-- The conversion of an integer to `int`: its low 32 bits, read in two's complement. -/
def wrapInt (v : Int) : Int := (v + 2147483648) % 4294967296 - 2147483648

/-- C `strtol(s, NULL, 10)` with a 64-bit `long`: leading white space, an optional sign, then
the longest run of decimal digits; 0 when there is no digit, and the nearest limit of `long`
when the value lies outside of it. -/
def strtol (a : List Nat) : Int :=
  let s := (cstr a).dropWhile isspace
  let v := signed (takeSign s).1 (digitsVal ((takeSign s).2.takeWhile isdigit))
  if v < -9223372036854775808 then -9223372036854775808
  else if 9223372036854775807 < v then 9223372036854775807
  else v

/-- C `atoi`, which is `(int) strtol(s, NULL, 10)`: the value read when it fits an `int`.
Outside of `int` the C standard leaves the result open; the value given here is the one of
the conversion from `long` to `int` that keeps the low 32 bits, so `2147483648` gives
`-2147483648` and `99999999999` gives `1215752191`. -/
def atoi (a : List Nat) : Int := wrapInt (strtol a)

/-! ## Binary floating point -/

/-- A value of a binary floating-point type: the finite number `± sig * 2 ^ exp`, an infinity,
or a NaN.  A finite value is kept with an odd `sig`, or as `± 0 * 2 ^ 0`, so that equal
numbers of equal sign are equal values; the two zeros differ.  The sign and the payload of a
NaN are not told apart. -/
inductive FloatVal where
  | finite (neg : Bool) (sig : Nat) (exp : Int)
  | inf (neg : Bool)
  | nan
  deriving DecidableEq

/-- A binary interchange format: `prec` significand bits and the largest exponent `emax`;
the smallest exponent of a normal number is `1 - emax`. -/
structure FloatFormat where
  prec : Nat
  emax : Int

/-- The format of C `float`. -/
def binary32 : FloatFormat := { prec := 24, emax := 127 }

/-- The format of C `double`. -/
def binary64 : FloatFormat := { prec := 53, emax := 1023 }

/-- The position of the highest set bit of `n`, with `fuel` halvings at most. -/
def log2Fuel : Nat → Nat → Nat
  | 0, _ => 0
  | fuel + 1, n => if n < 2 then 0 else log2Fuel fuel (n / 2) + 1

/-- The position of the highest set bit of `n`: the largest `k` with `2 ^ k ≤ n`, and 0 for
`n = 0`. -/
def ilog2 (n : Nat) : Nat := log2Fuel n n

/-- Moves the factors 2 of `s` into the exponent, `fuel` of them at most. -/
def stripTwos : Nat → Nat → Int → Nat × Int
  | 0, s, e => (s, e)
  | fuel + 1, s, e => if s % 2 = 0 ∧ s ≠ 0 then stripTwos fuel (s / 2) (e + 1) else (s, e)

/-- The finite value `± sig * 2 ^ exp` in the form in which `FloatVal` keeps it. -/
def mkFinite (neg : Bool) (sig : Nat) (exp : Int) : FloatVal :=
  if sig = 0 then .finite neg 0 0
  else .finite neg (stripTwos (ilog2 sig + 1) sig exp).1 (stripTwos (ilog2 sig + 1) sig exp).2

/-- The exponent of the binade of `num / den`: the integer `e` with
`2 ^ e ≤ num / den < 2 ^ (e + 1)`, for positive `num` and `den`. -/
def floorLog2 (num den : Nat) : Int :=
  let e0 : Int := (ilog2 num : Int) - (ilog2 den : Int)
  if (if 0 ≤ e0 then den * 2 ^ e0.toNat ≤ num else den ≤ num * 2 ^ (-e0).toNat) then e0
  else e0 - 1

/-- The integer nearest to `n / d`, the even one of two that are equally near. -/
def nearestInt (n d : Nat) : Nat :=
  if d < 2 * (n % d) ∨ (2 * (n % d) = d ∧ (n / d) % 2 = 1) then n / d + 1 else n / d

/-- The exponent of the last place that the format keeps of the number `num / den`: the
exponent of its binade, or the least exponent of a normal number if that is larger, less the
`prec - 1` places behind the first. -/
def quantum (fmt : FloatFormat) (num den : Nat) : Int :=
  max (floorLog2 num den) (1 - fmt.emax) - ((fmt.prec : Int) - 1)

/-- The number `num / den` in units of its last place, rounded to the nearest integer. -/
def significand (fmt : FloatFormat) (num den : Nat) : Nat :=
  if 0 ≤ quantum fmt num den then nearestInt num (den * 2 ^ (quantum fmt num den).toNat)
  else nearestInt (num * 2 ^ (-quantum fmt num den).toNat) den

/-- The number `± num / den` rounded to the format, to nearest with ties to the even
significand (the rounding of IEEE 754 that C uses by default): a result of `2 ^ (emax + 1)`
or more is an infinity, a result below the least normal number is rounded on the grid of the
subnormal numbers, and a zero result keeps the sign. -/
def roundFloat (fmt : FloatFormat) (neg : Bool) (num den : Nat) : FloatVal :=
  if num = 0 ∨ den = 0 then .finite neg 0 0
  else if fmt.emax - ((fmt.prec : Int) - 1) < quantum fmt num den ∨
      (quantum fmt num den = fmt.emax - ((fmt.prec : Int) - 1) ∧
        2 ^ fmt.prec ≤ significand fmt num den) then .inf neg
  else mkFinite neg (significand fmt num den) (quantum fmt num den)

/-- The number `± m * 2 ^ e` rounded to the format. -/
def roundScaled (fmt : FloatFormat) (neg : Bool) (m : Nat) (e : Int) : FloatVal :=
  if 0 ≤ e then roundFloat fmt neg (m * 2 ^ e.toNat) 1 else roundFloat fmt neg m (2 ^ (-e).toNat)

/-- The conversion of a `double` to `float`, as in the assignment of the result of `atof` to a
`float` object. -/
def toFloat : FloatVal → FloatVal
  | .finite neg sig exp => roundScaled binary32 neg sig exp
  | x => x

/-- The value with the other sign. -/
def fneg : FloatVal → FloatVal
  | .finite neg sig exp => .finite (!neg) sig exp
  | .inf neg => .inf (!neg)
  | .nan => .nan

/-- The sum of two values, rounded to the format.  An exact sum of zero is `+0`, or `-0` when
both terms are negative. -/
def fadd (fmt : FloatFormat) : FloatVal → FloatVal → FloatVal
  | .nan, _ => .nan
  | _, .nan => .nan
  | .inf a, .inf b => if a = b then .inf a else .nan
  | .inf a, .finite _ _ _ => .inf a
  | .finite _ _ _, .inf b => .inf b
  | .finite na sa ea, .finite nb sb eb =>
      let e := min ea eb
      let x := signed na (sa * 2 ^ (ea - e).toNat) + signed nb (sb * 2 ^ (eb - e).toNat)
      if x = 0 then .finite (na && nb) 0 0
      else roundScaled fmt (decide (x < 0)) x.natAbs e

/-- The difference of two values, rounded to the format. -/
def fsub (fmt : FloatFormat) (a b : FloatVal) : FloatVal := fadd fmt a (fneg b)

/-- The product of two values, rounded to the format. -/
def fmul (fmt : FloatFormat) : FloatVal → FloatVal → FloatVal
  | .nan, _ => .nan
  | _, .nan => .nan
  | .inf a, .inf b => .inf (xor a b)
  | .inf a, .finite nb sb _ => if sb = 0 then .nan else .inf (xor a nb)
  | .finite na sa _, .inf b => if sa = 0 then .nan else .inf (xor na b)
  | .finite na sa ea, .finite nb sb eb => roundScaled fmt (xor na nb) (sa * sb) (ea + eb)

/-- The quotient of two values, rounded to the format. -/
def fdiv (fmt : FloatFormat) : FloatVal → FloatVal → FloatVal
  | .nan, _ => .nan
  | _, .nan => .nan
  | .inf _, .inf _ => .nan
  | .inf a, .finite nb _ _ => .inf (xor a nb)
  | .finite na _ _, .inf b => .finite (xor na b) 0 0
  | .finite na sa ea, .finite nb sb eb =>
      if sb = 0 then (if sa = 0 then .nan else .inf (xor na nb))
      else roundFloat fmt (xor na nb) (sa * 2 ^ (ea - eb).toNat) (sb * 2 ^ (eb - ea).toNat)

/-- The conversion of an integer to the format. -/
def ofInt (fmt : FloatFormat) (n : Int) : FloatVal := roundScaled fmt (decide (n < 0)) n.natAbs 0

/-- The cast `(int)` of a `float`: the value without its fraction when that lies in `int`.
For every other value, an infinity or a NaN the C standard leaves the result open; the value
given here is `INT_MIN`, the result of the conversion instruction of x86-64. -/
def toInt : FloatVal → Int
  | .finite neg sig exp =>
      let v := signed neg (if 0 ≤ exp then sig * 2 ^ exp.toNat else sig / 2 ^ (-exp).toNat)
      if -2147483648 ≤ v ∧ v ≤ 2147483647 then v else -2147483648
  | _ => -2147483648

/-- The `float` constant of an integral value, as in `100.0f`; it lets the `float` slots of a
record be written as numbers. -/
instance (n : Nat) : OfNat FloatVal n := ⟨ofInt binary32 (n : Int)⟩

/-- The addition of `float`. -/
instance : Add FloatVal := ⟨fadd binary32⟩

/-- The subtraction of `float`. -/
instance : Sub FloatVal := ⟨fsub binary32⟩

/-- The multiplication of `float`. -/
instance : Mul FloatVal := ⟨fmul binary32⟩

/-- The division of `float`, so that a `float` such as 1.5 can be written `3 / 2`. -/
instance : Div FloatVal := ⟨fdiv binary32⟩

/-- The rational number that a finite value is; 0 for an infinity or a NaN. -/
def FloatVal.toRat : FloatVal → ℚ
  | .finite neg sig exp => (if neg then -1 else 1) * (sig : ℚ) * (2 : ℚ) ^ exp
  | _ => 0

/-- The bit pattern of a value in a format with `ebits` exponent bits: sign, biased exponent
and fraction, as the value lies in memory.  A NaN is given as the quiet NaN without sign and
payload. -/
def bitsOf (fmt : FloatFormat) (ebits : Nat) : FloatVal → Nat
  | .nan => (2 ^ (ebits + 1) - 1) * 2 ^ (fmt.prec - 2)
  | .inf neg =>
      (if neg then 2 ^ (ebits + fmt.prec - 1) else 0) + (2 ^ ebits - 1) * 2 ^ (fmt.prec - 1)
  | .finite neg sig exp =>
      (if neg then 2 ^ (ebits + fmt.prec - 1) else 0) +
      (if sig = 0 then 0
       else if 1 - fmt.emax ≤ (ilog2 sig : Int) + exp then
         ((ilog2 sig : Int) + exp + fmt.emax).toNat * 2 ^ (fmt.prec - 1) +
           (sig * 2 ^ (fmt.prec - 1 - ilog2 sig) - 2 ^ (fmt.prec - 1))
       else sig * 2 ^ (exp + fmt.emax - 1 + ((fmt.prec : Int) - 1)).toNat)

/-- The 32 bits of a `float`. -/
def bits32 (x : FloatVal) : Nat := bitsOf binary32 8 x

/-! ## `strtod` and `atof` -/

/-- C `tolower` on the letters `A` to `Z`. -/
def lower (c : Nat) : Nat := if 65 ≤ c ∧ c ≤ 90 then c + 32 else c

/-- The text `s` starts with the lower-case word `w`, in either case of its letters. -/
def startsWith (s w : List Nat) : Bool := (s.take w.length).map lower == w

/-- C `isxdigit`. -/
def isxdigit (c : Nat) : Bool := isdigit c || (97 ≤ lower c && lower c ≤ 102)

/-- The value of a hexadecimal digit character. -/
def hexDigit (c : Nat) : Nat := if isdigit c then c - 48 else lower c - 87

/-- The value of a run of hexadecimal digit characters. -/
def hexVal (ds : List Nat) : Nat := ds.foldl (fun acc d => 16 * acc + hexDigit d) 0

/-- The exponent part of a number: the letter `mark` (`e` or `p`, in either case), an optional
sign and at least one decimal digit; anything else is no exponent part and counts as 0. -/
def exponentPart (mark : Nat) : List Nat → Int
  | c :: t =>
      if lower c = mark ∧ (takeSign t).2.takeWhile isdigit ≠ [] then
        signed (takeSign t).1 (digitsVal ((takeSign t).2.takeWhile isdigit))
      else 0
  | [] => 0

/-- The digits behind a point at the start of the text. -/
def fraction (digit : Nat → Bool) : List Nat → List Nat
  | 46 :: t => t.takeWhile digit
  | _ => []

/-- The text behind the point and its digits. -/
def afterFraction (digit : Nat → Bool) : List Nat → List Nat
  | 46 :: t => t.dropWhile digit
  | r => r

/-- The `double` nearest to `± m * base ^ e`, where `m` has at most `digits` digits in that
base (or four times as many bits).  The two early cases only keep the computation short: with
`m ≥ 1` and `e > 5000` the number is beyond every `double`, and with `e + digits < -5000` it
is below half of the least one. -/
def scaled (neg : Bool) (m base : Nat) (e : Int) (digits : Nat) : FloatVal :=
  if m = 0 then .finite neg 0 0
  else if 5000 < e then .inf neg
  else if e + digits < -5000 then .finite neg 0 0
  else if 0 ≤ e then roundFloat binary64 neg (m * base ^ e.toNat) 1
  else roundFloat binary64 neg m (base ^ (-e).toNat)

/-- The decimal form of `strtod`: digits with an optional point, at least one digit, and an
optional exponent part `e`; without a digit nothing is converted and the result is `+0`. -/
def strtod_decimal (neg : Bool) (r : List Nat) : FloatVal :=
  let ip := r.takeWhile isdigit
  let fp := fraction isdigit (r.dropWhile isdigit)
  let ex := exponentPart 101 (afterFraction isdigit (r.dropWhile isdigit))
  if ip ++ fp = [] then .finite false 0 0
  else scaled neg (digitsVal (ip ++ fp)) 10 (ex - fp.length) (ip ++ fp).length

/-- The hexadecimal form of `strtod`, behind `0x`: hexadecimal digits with an optional point,
at least one digit, and an optional binary exponent part `p`. -/
def strtod_hex (neg : Bool) (t : List Nat) : Option FloatVal :=
  let ip := t.takeWhile isxdigit
  let fp := fraction isxdigit (t.dropWhile isxdigit)
  let ex := exponentPart 112 (afterFraction isxdigit (t.dropWhile isxdigit))
  if ip ++ fp = [] then none
  else some (scaled neg (hexVal (ip ++ fp)) 2 (ex - 4 * fp.length) (4 * (ip ++ fp).length))

/-- C `strtod(s, NULL)`: leading white space, an optional sign, then `inf` or `infinity`, or
`nan`, in either case of the letters, or a hexadecimal number behind `0x`, or a decimal
number; the number is rounded to `double`.  A text without any of these converts nothing
and gives `+0`. -/
def strtod (a : List Nat) : FloatVal :=
  let s := (cstr a).dropWhile isspace
  let neg := (takeSign s).1
  let r := (takeSign s).2
  if startsWith r (bytes "inf") then .inf neg
  else if startsWith r (bytes "nan") then .nan
  else
    match r with
    | 48 :: x :: t =>
        if lower x = 120 then (strtod_hex neg t).getD (strtod_decimal neg r) else strtod_decimal neg r
    | _ => strtod_decimal neg r

/-- C `atof`, which is `strtod(s, NULL)`: a `double`. -/
def atof (a : List Nat) : FloatVal := strtod a

/-! ## The fix record -/

/-- The record `struct gps_data`. -/
structure gps_data where
  /-- The array `char time[16]`. -/
  time : List Nat
  /-- The array `char latitude[16]`. -/
  latitude : List Nat
  lat_dir : Nat
  /-- The array `char longitude[16]`. -/
  longitude : List Nat
  lon_dir : Nat
  fix_quality : Int
  satellites : Int
  hdop : FloatVal
  altitude : FloatVal
  speed_knots : FloatVal
  course : FloatVal
  valid : Bool
  deriving DecidableEq

/-- The record after `memset(&current_gps, 0, sizeof(current_gps))` in `main`. -/
def gps_zero : gps_data :=
  { time := List.replicate 16 0, latitude := List.replicate 16 0, lat_dir := 0,
    longitude := List.replicate 16 0, lon_dir := 0, fix_quality := 0, satellites := 0,
    hdop := 0, altitude := 0, speed_knots := 0, course := 0, valid := false }

/-- Shape of a record the program can hold: the three character arrays have 16 bytes and the
last byte of `latitude` and `longitude`, which no statement writes, is still the NUL of the
initial `memset`. -/
def gps_data.wf (g : gps_data) : Prop :=
  g.time.length = 16 ∧ g.latitude.length = 16 ∧ g.longitude.length = 16 ∧
  g.latitude.drop 15 = [0] ∧ g.longitude.drop 15 = [0]

/-! ## `parse_nmea` -/

def GPS_RX_BUF_SIZE : Nat := 256

def GNGGA : List Nat := bytes "$GNGGA"
def GPGGA : List Nat := bytes "$GPGGA"
def GNRMC : List Nat := bytes "$GNRMC"
def GPRMC : List Nat := bytes "$GPRMC"

/-- The byte `token[i]` of a C string; the terminating NUL when `i` is its length. -/
def charAt (token : List Nat) (i : Nat) : Nat := (cstr token).getD i 0

/-- The call `snprintf(time, 16, "%c%c:%c%c:%c%c", token[0], .., token[5])`: eight characters
and a NUL are written at the start of the array. -/
def snprintf_time (time token : List Nat) : List Nat :=
  [charAt token 0, charAt token 1, 58, charAt token 2, charAt token 3, 58,
    charAt token 4, charAt token 5, 0] ++ time.drop 9

/-- The `switch (field)` of the GGA loop. -/
def gga_case (g : gps_data) (field : Nat) (token : List Nat) : gps_data :=
  match field with
  | 1 => if 6 ≤ strlen token then { g with time := snprintf_time g.time token } else g
  | 2 => { g with latitude := strncpy g.latitude token (16 - 1) }
  | 3 => { g with lat_dir := charAt token 0 }
  | 4 => { g with longitude := strncpy g.longitude token (16 - 1) }
  | 5 => { g with lon_dir := charAt token 0 }
  | 6 => { g with fix_quality := atoi token }
  | 7 => { g with satellites := atoi token }
  | 8 => { g with hdop := toFloat (atof token) }
  | 9 => { g with altitude := toFloat (atof token) }
  | _ => g

/-- The `switch (field)` of the RMC loop. -/
def rmc_case (g : gps_data) (field : Nat) (token : List Nat) : gps_data :=
  match field with
  | 2 => { g with valid := (charAt token 0 == 65) }
  | 7 => { g with speed_knots := toFloat (atof token) }
  | 8 => { g with course := toFloat (atof token) }
  | _ => g

/-- The loop `while (token != NULL && field < bound) { switch ..; token = strtok_r(NULL, ",",
&saveptr); field++; }`.  The first argument is `bound - field`, the number of iterations the
test `field < bound` still allows. -/
def token_loop (body : gps_data → Nat → List Nat → gps_data) :
    Nat → Nat → Option (List Nat) → List Nat → gps_data → gps_data
  | 0, _, _, _, g => g
  | _ + 1, _, none, _, g => g
  | n + 1, field, some token, saveptr, g =>
      token_loop body n (field + 1) (strtok_r saveptr [44]).1 (strtok_r saveptr [44]).2
        (body g field token)

/-- The three branches of the `if` / `else if` of `parse_nmea`. -/
inductive SentenceKind where
  | gga
  | rmc
  | other
  deriving DecidableEq

/-- The tests `strstr(buf, "$GNGGA") == buf || strstr(buf, "$GPGGA") == buf` and
`strstr(buf, "$GNRMC") == buf || strstr(buf, "$GPRMC") == buf`, in this order. -/
def sentence_kind (buf : List Nat) : SentenceKind :=
  if strstr buf GNGGA = some 0 ∨ strstr buf GPGGA = some 0 then SentenceKind.gga
  else if strstr buf GNRMC = some 0 ∨ strstr buf GPRMC = some 0 then SentenceKind.rmc
  else SentenceKind.other

/-- The local `buf` of `parse_nmea` after `strncpy(buf, sentence, GPS_RX_BUF_SIZE - 1)` and
`buf[GPS_RX_BUF_SIZE - 1] = 0`. -/
def parse_buf (sentence : List Nat) : List Nat :=
  (strncpy (List.replicate GPS_RX_BUF_SIZE 0) sentence (GPS_RX_BUF_SIZE - 1)).set
    (GPS_RX_BUF_SIZE - 1) 0

/-- The function `parse_nmea(sentence)` acting on `current_gps`. -/
def parse_nmea (g : gps_data) (sentence : List Nat) : gps_data :=
  let buf := parse_buf sentence
  match sentence_kind buf with
  | SentenceKind.gga =>
      token_loop gga_case 15 0 (strtok_r (cstr buf) [44]).1 (strtok_r (cstr buf) [44]).2 g
  | SentenceKind.rmc =>
      token_loop rmc_case 10 0 (strtok_r (cstr buf) [44]).1 (strtok_r (cstr buf) [44]).2 g
  | SentenceKind.other => g

/-! ## The receive callback -/

/-- The variables the callback works on: the line buffer and its cursor, the static sentence
counter, the fix record; and three records of what the callback did: the number of calls of
`print_gps_info`, the lines completed by a terminator and the lines passed to `parse_nmea`. -/
structure State where
  gps_rx_buf : List Nat
  gps_rx_buf_pos : Nat
  sentence_count : Nat
  current_gps : gps_data
  renders : Nat
  lines : List (List Nat)
  parsed : List (List Nat)
  deriving DecidableEq

/-- The state at program start. -/
def State.init : State :=
  { gps_rx_buf := List.replicate GPS_RX_BUF_SIZE 0, gps_rx_buf_pos := 0, sentence_count := 0,
    current_gps := gps_zero, renders := 0, lines := [], parsed := [] }

/-- The buffer is the 256 byte array and the cursor is an index at which the array can be
written. -/
def State.wf (s : State) : Prop :=
  s.gps_rx_buf.length = GPS_RX_BUF_SIZE ∧ s.gps_rx_buf_pos ≤ GPS_RX_BUF_SIZE - 1

/-- The array write `a[i] = v`; `none` when the index is outside the array. -/
def store (a : List Nat) (i v : Nat) : Option (List Nat) :=
  if i < a.length then some (a.set i v) else none

/-- The call `print_gps_info()`: the text printed is not modelled, the call is counted. -/
def print_gps_info (s : State) : State := { s with renders := s.renders + 1 }

/-- The test that selects the lines to parse: one of the four identifiers occurs somewhere
in the line. -/
def wanted (buf : List Nat) : Bool :=
  (strstr buf GNGGA).isSome || (strstr buf GPGGA).isSome ||
  (strstr buf GNRMC).isSome || (strstr buf GPRMC).isSome

/-- The body of `if (strstr(..) || ..)` for a completed line: parse, count, and print the
summary at every tenth sentence. -/
def handle_line (s : State) : State :=
  if wanted s.gps_rx_buf then
    let s1 := { s with current_gps := parse_nmea s.current_gps s.gps_rx_buf,
                       parsed := s.parsed ++ [cstr s.gps_rx_buf],
                       sentence_count := (s.sentence_count + 1) % 2 ^ 32 }
    if 10 ≤ s1.sentence_count then { print_gps_info s1 with sentence_count := 0 } else s1
  else s

/-- One iteration of `while (uart_fifo_read(gps_uart, &c, 1) == 1)` for the byte `c`.
The result is `none` when a write falls outside `gps_rx_buf`. -/
def rx_byte (s : State) (c : Nat) : Option State :=
  if (c = 10 ∨ c = 13) ∧ 0 < s.gps_rx_buf_pos then
    match store s.gps_rx_buf s.gps_rx_buf_pos 0 with
    | none => none
    | some buf =>
        let s1 := handle_line { s with gps_rx_buf := buf, lines := s.lines ++ [cstr buf] }
        some { s1 with gps_rx_buf_pos := 0 }
  else if c ≠ 13 ∧ c ≠ 10 then
    if s.gps_rx_buf_pos < GPS_RX_BUF_SIZE - 1 then
      match store s.gps_rx_buf s.gps_rx_buf_pos c with
      | none => none
      | some buf => some { s with gps_rx_buf := buf, gps_rx_buf_pos := s.gps_rx_buf_pos + 1 }
    else some { s with gps_rx_buf_pos := 0 }
  else some s

/-- The receive loop over the bytes the FIFO delivers. -/
def rx_loop (s : State) : List Nat → Option State
  | [] => some s
  | c :: cs =>
      match rx_byte s c with
      | none => none
      | some s1 => rx_loop s1 cs

/-- The callback `gps_uart_cb`: nothing is read unless `uart_irq_update` and
`uart_irq_rx_ready` both report true. -/
def gps_uart_cb (s : State) (irq_update rx_ready : Bool) (fifo : List Nat) : Option State :=
  if !irq_update then some s
  else if !rx_ready then some s
  else rx_loop s fifo

/-! ## Notions used to state the properties -/

/-- The bytes of the line in progress: the buffer up to the cursor. -/
def State.content (s : State) : List Nat := s.gps_rx_buf.take s.gps_rx_buf_pos

/-- Everything in the state apart from the line buffer and its cursor. -/
def State.rest (s : State) : Nat × gps_data × Nat × List (List Nat) × List (List Nat) :=
  (s.sentence_count, s.current_gps, s.renders, s.lines, s.parsed)

/-- A line terminator: LF or CR. -/
def isTerminator (c : Nat) : Prop := c = 10 ∨ c = 13

instance (c : Nat) : Decidable (isTerminator c) := by
  unfold isTerminator
  infer_instance

/-- The comma-separated fields of a sentence: field `k` is the text between the `k`-th and
the `(k+1)`-th comma (field 0 the text before the first comma); an empty text between two
commas is a field. -/
def splitComma : List Nat → List (List Nat)
  | [] => [[]]
  | c :: cs =>
      if c = 44 then [] :: splitComma cs
      else
        match splitComma cs with
        | [] => [[c]]
        | f :: fs => (c :: f) :: fs

/-- The text `sp` that is left to scan has the fields `fs`: no field when the text was used
up by the last token, the comma-separated fields of `sp` otherwise. -/
def Remaining (sp : List Nat) (fs : List (List Nat)) : Prop :=
  (fs = [] ∧ sp = []) ∨ (fs ≠ [] ∧ splitComma sp = fs)

/-- The per-field handling `body` applied to consecutive fields, the first at index `field`. -/
def apply_fields (body : gps_data → Nat → List Nat → gps_data) (g : gps_data) (field : Nat) :
    List (List Nat) → gps_data
  | [] => g
  | f :: fs => apply_fields body (body g field f) (field + 1) fs

/-- A record with every slot set, used as the prior record of examples. -/
def gps_sample : gps_data :=
  { time := bytes "23:59:58" ++ List.replicate 8 0,
    latitude := bytes "5130.000" ++ List.replicate 8 0, lat_dir := 83,
    longitude := bytes "00007.000" ++ List.replicate 7 0, lon_dir := 87,
    fix_quality := 2, satellites := 5, hdop := 3 / 2, altitude := 100,
    speed_knots := 7, course := 180, valid := true }

/-- The line in progress after one more data byte: the byte is appended while fewer than
`GPS_RX_BUF_SIZE - 1` bytes are held, otherwise the line is dropped together with the byte. -/
def accumulate (line : List Nat) (c : Nat) : List Nat :=
  if line.length < GPS_RX_BUF_SIZE - 1 then line ++ [c] else []

/-! ## `nmea_to_degrees` -/

/-- The arithmetic of `float` that `nmea_to_degrees` uses: the conversion of a `double` (the
result of `atof`) to `float`, a `float` constant of integral value, the conversion of an
`int` to `float`, the cast `(int)`, and the four operations. -/
structure FloatOps (F : Type) where
  ofDouble : FloatVal → F
  lit : Nat → F
  ofInt : Int → F
  toInt : F → Int
  add : F → F → F
  sub : F → F → F
  mul : F → F → F
  div : F → F → F

/-- The arithmetic of C `float` in the format binary32, every operation rounded once. -/
def float32 : FloatOps FloatVal :=
  { ofDouble := toFloat, lit := fun n => ofInt binary32 (n : Int), ofInt := ofInt binary32,
    toInt := toInt, add := fadd binary32, sub := fsub binary32, mul := fmul binary32,
    div := fdiv binary32 }

/-- The function `nmea_to_degrees(nmea_coord, is_longitude)`, over the arithmetic `ops`. -/
def nmea_to_degrees {F : Type} (ops : FloatOps F) (nmea_coord : List Nat)
    (is_longitude : Bool) : F :=
  if strlen nmea_coord < 4 then ops.lit 0
  else
    let coord := ops.ofDouble (atof nmea_coord)
    if is_longitude then
      let degrees := ops.toInt (ops.div coord (ops.lit 100))
      let minutes := ops.sub coord (ops.mul (ops.ofInt degrees) (ops.lit 100))
      ops.add (ops.ofInt degrees) (ops.div minutes (ops.lit 60))
    else
      let degrees := ops.toInt (ops.div coord (ops.lit 100))
      let minutes := ops.sub coord (ops.mul (ops.ofInt degrees) (ops.lit 100))
      ops.add (ops.ofInt degrees) (ops.div minutes (ops.lit 60))

/-- The bytes of consecutive lines, each a text followed by its terminator. -/
def stream : List (List Nat × Nat) → List Nat
  | [] => []
  | (l, t) :: r => l ++ t :: stream r

/-- A sentence as it travels on the wire: 1 to 255 bytes, none of them a terminator or NUL. -/
def isSentence (l : List Nat) : Prop :=
  1 ≤ l.length ∧ l.length ≤ 255 ∧ ∀ b ∈ l, ¬ isTerminator b ∧ b ≠ 0

/-- A sentence of a type that `parse_nmea` handles: it starts with one of the four
identifiers. -/
def recognized (l : List Nat) : Prop :=
  GNGGA <+: l ∨ GPGGA <+: l ∨ GNRMC <+: l ∨ GPRMC <+: l

/-- One of the four identifiers occurs somewhere in the line. -/
def occurs (l : List Nat) : Prop :=
  GNGGA <:+: l ∨ GPGGA <:+: l ∨ GNRMC <:+: l ∨ GPRMC <:+: l

/-- A state in which the seven bytes `x$GPGGA` have been received. -/
def State.sample : State :=
  { State.init with gps_rx_buf := bytes "x$GPGGA" ++ List.replicate 249 0, gps_rx_buf_pos := 7 }

/-! ## Numbers written as text -/

/-- The number that a run of decimal digit characters denotes: every digit counts with the
power of ten of its place. -/
def numeral : List Nat → Nat
  | [] => 0
  | d :: r => (d - 48) * 10 ^ r.length + numeral r

/-- The text behind its leading white space. -/
def afterSpace : List Nat → List Nat
  | [] => []
  | c :: r => if isspace c then afterSpace r else c :: r

/-- The text behind its sign character, if it starts with one. -/
def unsignedPart : List Nat → List Nat
  | 43 :: r => r
  | 45 :: r => r
  | s => s

/-- The text starts with a minus sign. -/
def isNegative (f : List Nat) : Bool := f.head? == some 45

/-- The text is a decimal integer: an optional sign and then decimal digits, at least one, and
nothing else. -/
def isInteger (f : List Nat) : Bool := unsignedPart f != [] && (unsignedPart f).all isdigit

/-- The integer that a decimal integer denotes. -/
def integerValue (f : List Nat) : Int :=
  if isNegative f then -(numeral (unsignedPart f) : Int) else (numeral (unsignedPart f) : Int)

/-- The digits of a decimal number, without the point. -/
def decimalDigits (f : List Nat) : List Nat := (unsignedPart f).filter (fun c => c != 46)

/-- The number of characters behind the point of a decimal number. -/
def decimalPlaces (f : List Nat) : Nat :=
  ((unsignedPart f).dropWhile (fun c => c != 46)).length - 1

/-- The text is a decimal number: an optional sign and then decimal digits, at least one, with
at most one point before, between or behind them, and nothing else. -/
def isDecimal (f : List Nat) : Bool :=
  (decimalDigits f).all isdigit && decimalDigits f != [] && decide ((unsignedPart f).count 46 ≤ 1)

/-- The rational number that a decimal number denotes. -/
def decimalValue (f : List Nat) : ℚ :=
  (if isNegative f then -1 else 1) * (numeral (decimalDigits f) : ℚ) / 10 ^ decimalPlaces f

/-- The `double` that a decimal number is read as: its value rounded to binary64. -/
def decimalDouble (f : List Nat) : FloatVal :=
  roundFloat binary64 (isNegative f) (numeral (decimalDigits f)) (10 ^ decimalPlaces f)

/-- The text begins, behind optional white space and an optional sign, with a decimal
digit: the start of a number for `atoi`. -/
def startsInteger (f : List Nat) : Bool :=
  ((unsignedPart (afterSpace f)).head?).any isdigit

/-- The text begins, behind optional white space and an optional sign, with the start of a
number for `strtod`: a decimal digit, a point and a decimal digit, or the letters `inf` or
`nan` in either case. -/
def startsNumber (f : List Nat) : Bool :=
  startsInteger f ||
    ((unsignedPart (afterSpace f)).head? == some 46 &&
      (((unsignedPart (afterSpace f)).tail).head?).any isdigit) ||
    ((unsignedPart (afterSpace f)).take 3).map lower == bytes "inf" ||
    ((unsignedPart (afterSpace f)).take 3).map lower == bytes "nan"

/-- The value is finite, of the sign `neg` and the magnitude `r`. -/
def FloatVal.isFinite (v : FloatVal) (neg : Bool) (r : ℚ) : Prop :=
  ∃ s e, v = .finite neg s e ∧ (s : ℚ) * 2 ^ e = r

/-- Truncation toward zero of a rational number. -/
def truncToZero (q : ℚ) : Int := if 0 ≤ q then ⌊q⌋ else ⌈q⌉

/-- The closed formula of the specification for the conversion of a coordinate of value `V`,
in exact arithmetic: with `D` the truncation toward zero of `V / 100`, the number
`D + (V - 100 * D) / 60`. -/
def closedFormula (V : ℚ) : ℚ :=
  (truncToZero (V / 100) : ℚ) + (V - 100 * (truncToZero (V / 100) : ℚ)) / 60

end Nmea

/-! # Theorems -/

namespace Nmea

/-! ## C strings -/

theorem cstr_of_no_nul (a : List Nat) (h : ∀ b ∈ a, b ≠ 0) : cstr a = a := by
  unfold cstr
  rw [List.takeWhile_eq_self_iff]
  intro b hb
  simpa using h b hb

theorem cstr_no_nul (a : List Nat) : ∀ b ∈ cstr a, b ≠ 0 := by
  intro b hb
  have := List.mem_takeWhile_imp hb
  simpa using this

theorem cstr_cstr (a : List Nat) : cstr (cstr a) = cstr a :=
  cstr_of_no_nul _ (cstr_no_nul a)

theorem cstr_append_nul (a r : List Nat) : cstr (a ++ 0 :: r) = cstr a := by
  induction a with
  | nil => simp [cstr]
  | cons x xs ih =>
      unfold cstr at ih ⊢
      by_cases hx : x = 0
      · simp [hx]
      · simp [List.takeWhile_cons, hx, ih]

theorem cstr_set_nul (a : List Nat) (i : Nat) (h : i < a.length) :
    cstr (a.set i 0) = cstr (a.take i) := by
  rw [List.set_eq_take_append_cons_drop, if_pos h, cstr_append_nul]

theorem take_succ_set (a : List Nat) (i c : Nat) (h : i < a.length) :
    (a.set i c).take (i + 1) = a.take i ++ [c] := by
  rw [List.set_eq_take_append_cons_drop, if_pos h]
  have hl : (a.take i).length = i := by simp; omega
  rw [List.take_append_eq_append_take, hl]
  simp [List.take_of_length_le, hl]

/-! ## Numbers: `atoi`, `atof` and the texts they read -/

theorem afterSpace_eq (f : List Nat) : afterSpace f = f.dropWhile isspace := by
  induction f with
  | nil => rfl
  | cons c r ih =>
      by_cases h : isspace c = true
      · simp [afterSpace, List.dropWhile_cons, h, ih]
      · simp [afterSpace, List.dropWhile_cons, h]

theorem takeSign_eq (s : List Nat) : takeSign s = (isNegative s, unsignedPart s) := by
  cases s with
  | nil => rfl
  | cons c r =>
      by_cases h45 : c = 45
      · subst h45; rfl
      · by_cases h43 : c = 43
        · subst h43; rfl
        · have h1 : takeSign (c :: r) = (false, c :: r) := by
            unfold takeSign
            split
            · rename_i heq; simp only [List.cons.injEq] at heq; exact absurd heq.1 h45
            · rename_i heq; simp only [List.cons.injEq] at heq; exact absurd heq.1 h43
            · rfl
          have h2 : unsignedPart (c :: r) = c :: r := by
            unfold unsignedPart
            split
            · rename_i heq; simp only [List.cons.injEq] at heq; exact absurd heq.1 h43
            · rename_i heq; simp only [List.cons.injEq] at heq; exact absurd heq.1 h45
            · rfl
          have h3 : isNegative (c :: r) = false := by
            simp [isNegative, h45]
          rw [h1, h2, h3]

theorem foldl_digits (ds : List Nat) :
    ∀ acc, ds.foldl (fun acc d => 10 * acc + (d - 48)) acc = acc * 10 ^ ds.length + numeral ds := by
  induction ds with
  | nil => intro acc; simp [numeral]
  | cons d r ih =>
      intro acc
      rw [List.foldl_cons, ih, numeral, List.length_cons]
      ring

/-- The value of a run of digits that `atoi` and `strtod` accumulate digit by digit is the
number that the digits denote by their places. -/
theorem digitsVal_eq_numeral (ds : List Nat) : digitsVal ds = numeral ds := by
  rw [digitsVal, foldl_digits]
  simp

theorem wrapInt_of_int (v : Int) (h1 : -2147483648 ≤ v) (h2 : v ≤ 2147483647) : wrapInt v = v := by
  unfold wrapInt
  rw [Int.emod_eq_of_lt (by omega) (by omega)]
  omega

theorem isdigit_ne_zero (c : Nat) (h : isdigit c = true) : c ≠ 0 := by
  intro h0; subst h0; exact absurd h (by decide)

theorem isdigit_not_space (c : Nat) (h : isdigit c = true) : isspace c = false := by
  simp only [isdigit, Bool.and_eq_true, decide_eq_true_eq] at h
  simp only [isspace, Bool.or_eq_false_iff, beq_eq_false_iff_ne, ne_eq, Bool.and_eq_false_imp,
    decide_eq_true_eq, decide_eq_false_iff_not]
  omega

theorem takeWhile_all (p : Nat → Bool) (l : List Nat) (h : l.all p = true) :
    l.takeWhile p = l := by
  rw [List.takeWhile_eq_self_iff]
  simpa using h

theorem dropWhile_all (p : Nat → Bool) (l : List Nat) (h : l.all p = true) :
    l.dropWhile p = [] := by
  rw [List.dropWhile_eq_nil_iff]
  simpa using h

/-- The characters of a text are those of its sign and of the text behind the sign. -/
theorem mem_of_unsignedPart (f : List Nat) (b : Nat) (hb : b ∈ f) :
    b = 43 ∨ b = 45 ∨ b ∈ unsignedPart f := by
  cases f with
  | nil => simp at hb
  | cons c r =>
      by_cases h43 : c = 43
      · subst h43
        rcases List.mem_cons.mp hb with h | h
        · exact Or.inl h
        · exact Or.inr (Or.inr h)
      · by_cases h45 : c = 45
        · subst h45
          rcases List.mem_cons.mp hb with h | h
          · exact Or.inr (Or.inl h)
          · exact Or.inr (Or.inr h)
        · have h2 : unsignedPart (c :: r) = c :: r := by
            unfold unsignedPart
            split
            · rename_i heq; simp only [List.cons.injEq] at heq; exact absurd heq.1 h43
            · rename_i heq; simp only [List.cons.injEq] at heq; exact absurd heq.1 h45
            · rfl
          rw [h2]
          exact Or.inr (Or.inr hb)

/-- A text whose characters behind the sign are none of them NUL or white space, and which
has one, is a C string without leading white space. -/
theorem number_text (f : List Nat) (hne : unsignedPart f ≠ [])
    (hu : ∀ b ∈ unsignedPart f, b ≠ 0 ∧ isspace b = false) :
    (cstr f).dropWhile isspace = f := by
  have hall : ∀ b ∈ f, b ≠ 0 ∧ isspace b = false := by
    intro b hb
    rcases mem_of_unsignedPart f b hb with h | h | h
    · subst h; exact ⟨by decide, by decide⟩
    · subst h; exact ⟨by decide, by decide⟩
    · exact hu b h
  rw [cstr_of_no_nul f (fun b hb => (hall b hb).1)]
  cases f with
  | nil => rfl
  | cons c r =>
      have := (hall c (by simp)).2
      simp [List.dropWhile_cons, this]

/-- The value that `atoi` gives for a decimal integer: the integer that the text denotes,
brought into the range of `long` and then of `int`. -/
theorem strtol_of_isInteger (f : List Nat) (h : isInteger f = true) :
    strtol f =
      if integerValue f < -9223372036854775808 then -9223372036854775808
      else if 9223372036854775807 < integerValue f then 9223372036854775807
      else integerValue f := by
  simp only [isInteger, Bool.and_eq_true, bne_iff_ne, ne_eq] at h
  obtain ⟨hne, hall⟩ := h
  have hu : ∀ b ∈ unsignedPart f, b ≠ 0 ∧ isspace b = false := by
    intro b hb
    have hd : isdigit b = true := by
      have := List.all_eq_true.mp hall b hb
      exact this
    exact ⟨isdigit_ne_zero b hd, isdigit_not_space b hd⟩
  have hval : signed (isNegative f) (digitsVal (unsignedPart f)) = integerValue f := by
    rw [digitsVal_eq_numeral]
    rfl
  simp only [strtol, number_text f hne hu, takeSign_eq, takeWhile_all isdigit _ hall, hval]

/-- A decimal integer in the range of `int` is read by `atoi` as the integer it denotes. -/
theorem atoi_of_isInteger (f : List Nat) (h : isInteger f = true)
    (h1 : -2147483648 ≤ integerValue f) (h2 : integerValue f ≤ 2147483647) :
    atoi f = integerValue f := by
  rw [atoi, strtol_of_isInteger f h, if_neg (by omega), if_neg (by omega), wrapInt_of_int _ h1 h2]

theorem atoi_of_not_startsInteger (f : List Nat) (hnn : ∀ b ∈ f, b ≠ 0)
    (h : startsInteger f = false) : atoi f = 0 := by
  have hr : (unsignedPart (f.dropWhile isspace)).takeWhile isdigit = [] := by
    rw [startsInteger, afterSpace_eq] at h
    generalize unsignedPart (f.dropWhile isspace) = r at h
    cases r with
    | nil => rfl
    | cons c t =>
        have hc : isdigit c = false := by simpa using h
        simp [List.takeWhile_cons, hc]
  have hs : strtol f = 0 := by
    simp only [strtol, cstr_of_no_nul f hnn, takeSign_eq, hr]
    cases isNegative (f.dropWhile isspace) <;> decide
  rw [atoi, hs]
  decide

theorem takeWhile_append_stop (p : Nat → Bool) (ip : List Nat) (c : Nat) (r : List Nat)
    (hip : ip.all p = true) (hc : p c = false) :
    (ip ++ c :: r).takeWhile p = ip ∧ (ip ++ c :: r).dropWhile p = c :: r := by
  induction ip with
  | nil => simp [List.takeWhile_cons, List.dropWhile_cons, hc]
  | cons a t ih =>
      simp only [List.all_cons, Bool.and_eq_true] at hip
      obtain ⟨h1, h2⟩ := ih hip.2
      simp [List.takeWhile_cons, List.dropWhile_cons, hip.1, h1, h2]

theorem isdigit_ne_point (c : Nat) (h : isdigit c = true) : (c != 46) = true := by
  simp only [isdigit, Bool.and_eq_true, decide_eq_true_eq] at h
  simp only [bne_iff_ne, ne_eq]
  omega

theorem filter_digits (l : List Nat) (h : l.all isdigit = true) :
    l.filter (fun c => c != 46) = l := by
  rw [List.filter_eq_self]
  intro b hb
  exact isdigit_ne_point b (List.all_eq_true.mp h b hb)

/-- The shape of a decimal number behind its sign: digits, or digits, a point and digits. -/
theorem decimal_shape (u : List Nat)
    (hd : (u.filter (fun c => c != 46)).all isdigit = true) (hc : u.count 46 ≤ 1) :
    ∃ ip fp, ip.all isdigit = true ∧ fp.all isdigit = true ∧
      ((u = ip ∧ fp = []) ∨ u = ip ++ 46 :: fp) := by
  induction u with
  | nil => exact ⟨[], [], rfl, rfl, Or.inl ⟨rfl, rfl⟩⟩
  | cons c r ih =>
      by_cases hcd : isdigit c = true
      · have hne := isdigit_ne_point c hcd
        have hne1 : c ≠ 46 := by simpa using hne
        have hf : (c :: r).filter (fun c => c != 46) = c :: r.filter (fun c => c != 46) := by
          simp [List.filter_cons, hne1]
        have hd1 : (r.filter (fun c => c != 46)).all isdigit = true := by
          rw [hf] at hd
          simp only [List.all_cons, Bool.and_eq_true] at hd
          exact hd.2
        have hc1 : r.count 46 ≤ 1 := by
          rw [List.count_cons_of_ne (Ne.symm hne1)] at hc
          exact hc
        obtain ⟨ip, fp, h1, h2, h3⟩ := ih hd1 hc1
        refine ⟨c :: ip, fp, by simp [hcd, h1], h2, ?_⟩
        rcases h3 with ⟨h, h0⟩ | h
        · exact Or.inl ⟨by rw [h], h0⟩
        · exact Or.inr (by rw [h]; rfl)
      · have hc46 : c = 46 := by
          by_contra hne
          have hf : (c :: r).filter (fun c => c != 46) = c :: r.filter (fun c => c != 46) := by
            simp [List.filter_cons, hne]
          rw [hf] at hd
          simp only [List.all_cons, Bool.and_eq_true] at hd
          exact hcd hd.1
        subst hc46
        rw [List.count_cons_self] at hc
        have hcount : r.count 46 = 0 := by omega
        have hnot : (46 : Nat) ∉ r := List.count_eq_zero.mp hcount
        refine ⟨[], r, rfl, ?_, Or.inr rfl⟩
        have hf : r.filter (fun c => c != 46) = r := by
          rw [List.filter_eq_self]
          intro b hb
          simp only [bne_iff_ne, ne_eq]
          intro hb46
          exact hnot (hb46 ▸ hb)
        have hd1 : (r.filter (fun c => c != 46)).all isdigit = true := by
          have hf46 : ((46 : Nat) :: r).filter (fun c => c != 46) =
              r.filter (fun c => c != 46) := by
            simp [List.filter_cons]
          rw [hf46] at hd
          exact hd
        rw [hf] at hd1
        exact hd1

theorem roundFloat_zero (fmt : FloatFormat) (neg : Bool) (den : Nat) :
    roundFloat fmt neg 0 den = .finite neg 0 0 := by
  simp [roundFloat]

/-- The conversion of digits, with `k` of them behind the point and no exponent part. -/
theorem scaled_decimal (neg : Bool) (ip fp : List Nat) :
    scaled neg (digitsVal (ip ++ fp)) 10 (0 - (fp.length : Int)) (ip ++ fp).length =
      roundFloat binary64 neg (numeral (ip ++ fp)) (10 ^ fp.length) := by
  rw [digitsVal_eq_numeral]
  unfold scaled
  by_cases hm : numeral (ip ++ fp) = 0
  · rw [if_pos hm, hm, roundFloat_zero]
  · rw [if_neg hm, if_neg (by omega), if_neg (by simp only [List.length_append]; omega)]
    by_cases hk : fp.length = 0
    · rw [if_pos (by omega), hk]
      simp
    · rw [if_neg (by omega)]
      congr 2
      omega

theorem bytes_inf : bytes "inf" = [105, 110, 102] := by decide

theorem bytes_nan : bytes "nan" = [110, 97, 110] := by decide

theorem startsWith_cons_ne (c : Nat) (t : List Nat) (w0 : Nat) (w : List Nat)
    (h : lower c ≠ w0) : startsWith (c :: t) (w0 :: w) = false := by
  simp [startsWith, h]

theorem startsWith_nil (w0 : Nat) (w : List Nat) : startsWith [] (w0 :: w) = false := by
  simp [startsWith]

/-- A decimal digit or a point is no letter. -/
theorem lower_of_decimal_char (c : Nat) (h : c = 46 ∨ isdigit c = true) : lower c = c := by
  unfold lower
  rw [if_neg]
  intro hc
  rcases h with h | h
  · omega
  · simp only [isdigit, Bool.and_eq_true, decide_eq_true_eq] at h
    omega

theorem decimal_char_bound (c : Nat) (h : c = 46 ∨ isdigit c = true) : 46 ≤ c ∧ c ≤ 57 := by
  rcases h with h | h
  · omega
  · simp only [isdigit, Bool.and_eq_true, decide_eq_true_eq] at h
    omega

/-- On a text that neither starts with `inf` or `nan` nor has an `x` behind a leading `0`,
`strtod` reads the decimal form. -/
theorem strtod_eq_decimal (a : List Nat)
    (hinf : startsWith (unsignedPart ((cstr a).dropWhile isspace)) (bytes "inf") = false)
    (hnan : startsWith (unsignedPart ((cstr a).dropWhile isspace)) (bytes "nan") = false)
    (hx : ∀ x t, unsignedPart ((cstr a).dropWhile isspace) = 48 :: x :: t → lower x ≠ 120) :
    strtod a = strtod_decimal (isNegative ((cstr a).dropWhile isspace))
      (unsignedPart ((cstr a).dropWhile isspace)) := by
  simp only [strtod, takeSign_eq, hinf, hnan]
  generalize unsignedPart ((cstr a).dropWhile isspace) = r at hx
  simp only [Bool.false_eq_true, if_false]
  split
  · rename_i x t
    rw [if_neg (hx x t rfl)]
  · rfl

/-- A decimal number is read by `atof` as the `double` nearest to the number it denotes. -/
theorem atof_of_isDecimal (f : List Nat) (h : isDecimal f = true) : atof f = decimalDouble f := by
  simp only [isDecimal, Bool.and_eq_true, bne_iff_ne, ne_eq, decide_eq_true_eq] at h
  obtain ⟨⟨hd, hne⟩, hc⟩ := h
  unfold decimalDigits at hd hne
  obtain ⟨ip, fp, hip, hfp, hshape⟩ := decimal_shape (unsignedPart f) hd hc
  have hchar : ∀ b ∈ unsignedPart f, b = 46 ∨ isdigit b = true := by
    intro b hb
    rcases hshape with ⟨h1, _⟩ | h1
    · rw [h1] at hb
      exact Or.inr (List.all_eq_true.mp hip b hb)
    · rw [h1] at hb
      rcases List.mem_append.mp hb with h2 | h2
      · exact Or.inr (List.all_eq_true.mp hip b h2)
      · rcases List.mem_cons.mp h2 with h3 | h3
        · exact Or.inl h3
        · exact Or.inr (List.all_eq_true.mp hfp b h3)
  have hune : unsignedPart f ≠ [] := by
    intro h0
    rw [h0] at hne
    exact hne rfl
  have hu : ∀ b ∈ unsignedPart f, b ≠ 0 ∧ isspace b = false := by
    intro b hb
    have hb1 := decimal_char_bound b (hchar b hb)
    refine ⟨by omega, ?_⟩
    simp only [isspace, Bool.or_eq_false_iff, beq_eq_false_iff_ne, ne_eq, Bool.and_eq_false_imp,
      decide_eq_true_eq, decide_eq_false_iff_not]
    omega
  have hs := number_text f hune hu
  have hstart : ∀ w0 w, 97 ≤ w0 → startsWith (unsignedPart f) (w0 :: w) = false := by
    intro w0 w hw
    cases hcase : unsignedPart f with
    | nil => exact absurd hcase hune
    | cons c t =>
        have hc1 := hchar c (by rw [hcase]; simp)
        have hb1 := decimal_char_bound c hc1
        exact startsWith_cons_ne c t w0 w (by rw [lower_of_decimal_char c hc1]; omega)
  have hdec : atof f = strtod_decimal (isNegative f) (unsignedPart f) := by
    have := strtod_eq_decimal f (by rw [hs, bytes_inf]; exact hstart _ _ (by decide))
      (by rw [hs, bytes_nan]; exact hstart _ _ (by decide))
      (by
        rw [hs]
        intro x t hxt
        have hx1 := hchar x (by rw [hxt]; simp)
        have hb1 := decimal_char_bound x hx1
        rw [lower_of_decimal_char x hx1]
        omega)
    rw [hs] at this
    exact this
  rw [hdec]
  unfold strtod_decimal decimalDouble decimalDigits decimalPlaces
  rcases hshape with ⟨h1, h0⟩ | h1
  · subst h0
    rw [h1, takeWhile_all isdigit ip hip, dropWhile_all isdigit ip hip, filter_digits ip hip]
    have hp : ip.dropWhile (fun c => c != 46) = [] := by
      rw [List.dropWhile_eq_nil_iff]
      intro b hb
      exact isdigit_ne_point b (List.all_eq_true.mp hip b hb)
    have hne1 : ip ≠ [] := by rw [← h1]; exact hune
    rw [hp]
    simp only [fraction, afterFraction, exponentPart, List.append_nil, List.length_nil,
      Nat.cast_zero, sub_zero]
    rw [if_neg hne1]
    have := scaled_decimal (isNegative f) ip []
    simpa using this
  · have hpoint : isdigit 46 = false := by decide
    obtain ⟨t1, t2⟩ := takeWhile_append_stop isdigit ip 46 fp hip hpoint
    have hip2 : ip.all (fun c => c != 46) = true := by
      rw [List.all_eq_true]
      intro b hb
      exact isdigit_ne_point b (List.all_eq_true.mp hip b hb)
    obtain ⟨_, t4⟩ := takeWhile_append_stop (fun c => c != 46) ip 46 fp hip2 (by decide)
    have hfil : (ip ++ 46 :: fp).filter (fun c => c != 46) = ip ++ fp := by
      rw [List.filter_append, filter_digits ip hip]
      have : ((46 : Nat) :: fp).filter (fun c => c != 46) = fp.filter (fun c => c != 46) := by
        simp [List.filter_cons]
      rw [this, filter_digits fp hfp]
    have hne1 : ip ++ fp ≠ [] := by
      intro h0
      apply hne
      rw [h1, hfil, h0]
    rw [h1, t1, t2, t4, hfil]
    simp only [fraction, afterFraction, takeWhile_all isdigit fp hfp,
      dropWhile_all isdigit fp hfp, exponentPart, List.length_cons, Nat.add_sub_cancel]
    rw [if_neg hne1]
    have := scaled_decimal (isNegative f) ip fp
    simpa using this

theorem takeWhile_head_not (p : Nat → Bool) (r : List Nat) (h : (r.head?).any p = false) :
    r.takeWhile p = [] ∧ r.dropWhile p = r := by
  cases r with
  | nil => exact ⟨rfl, rfl⟩
  | cons c t =>
      have hc : p c = false := by simpa using h
      simp [List.takeWhile_cons, List.dropWhile_cons, hc]

/-- A text that does not begin with a number converts to `+0`. -/
theorem atof_of_not_startsNumber (f : List Nat) (hnn : ∀ b ∈ f, b ≠ 0)
    (h : startsNumber f = false) : atof f = .finite false 0 0 := by
  simp only [startsNumber, Bool.or_eq_false_iff, Bool.and_eq_false_imp] at h
  obtain ⟨⟨⟨hint, hpoint⟩, hinf⟩, hnan⟩ := h
  unfold startsInteger at hint
  rw [afterSpace_eq] at hint hpoint hinf hnan
  have hc : cstr f = f := cstr_of_no_nul f hnn
  have hdec := strtod_eq_decimal f (by rw [hc]; exact hinf) (by rw [hc]; exact hnan)
    (by
      rw [hc]
      intro x t hxt
      rw [hxt] at hint
      have h48 : isdigit 48 = true := by decide
      simp [h48] at hint)
  rw [hc] at hdec
  rw [atof, hdec]
  generalize unsignedPart (f.dropWhile isspace) = r at hint hpoint
  obtain ⟨h1, h2⟩ := takeWhile_head_not isdigit r hint
  have hfp : fraction isdigit r = [] := by
    unfold fraction
    split
    · rename_i t
      exact (takeWhile_head_not isdigit t (hpoint (by simp))).1
    · rfl
  unfold strtod_decimal
  rw [h1, h2, hfp]
  simp

theorem toFloat_zero : toFloat (.finite false 0 0) = 0 := by decide

theorem toRat_finite_neg_exp (sig k : Nat) :
    (FloatVal.finite false sig (-(k : Int))).toRat = (sig : ℚ) / 2 ^ k := by
  simp only [FloatVal.toRat, Bool.false_eq_true, if_false, one_mul, zpow_neg, zpow_natCast]
  rfl

theorem toRat_finite_pos_exp (sig k : Nat) :
    (FloatVal.finite false sig (k : Int)).toRat = (sig : ℚ) * 2 ^ k := by
  simp only [FloatVal.toRat, Bool.false_eq_true, if_false, one_mul, zpow_natCast]

theorem decimalValue_eq (f : List Nat) (n k : Nat) (hneg : isNegative f = false)
    (hn : numeral (decimalDigits f) = n) (hk : decimalPlaces f = k) :
    decimalValue f = (n : ℚ) / 10 ^ k := by
  simp [decimalValue, hneg, hn, hk]

/-- Values of `atoi` at some texts: a value in `int`, a sign, white space and a text behind
the digits; values beyond `int` and beyond `long`; texts without a digit. -/
theorem atoi_examples :
    atoi (bytes "08") = 8 ∧ atoi (bytes "-12") = -12 ∧ atoi (bytes "  +7x") = 7 ∧
      atoi (bytes "2147483647") = 2147483647 ∧ atoi (bytes "2147483648") = -2147483648 ∧
      atoi (bytes "99999999999") = 1215752191 ∧ atoi (bytes "99999999999999999999") = -1 ∧
      atoi (bytes "-99999999999999999999") = 0 ∧ atoi (bytes "x") = 0 ∧ atoi (bytes "-") = 0 := by
  decide

set_option maxRecDepth 8000 in
/-- Values of `atof`, converted to `float`, at some texts, as the 32 bits of the `float`:
decimal numbers, a number with an exponent part, numbers beyond the precision and the range
of `float`, the hexadecimal form, the words `inf` and `nan`, and texts without a number. -/
theorem atof_examples :
    bits32 (toFloat (atof (bytes "0.9"))) = 0x3f666666 ∧
      bits32 (toFloat (atof (bytes "-12.5"))) = 0xc1480000 ∧
      bits32 (toFloat (atof (bytes ".5"))) = 0x3f000000 ∧
      bits32 (toFloat (atof (bytes "5."))) = 0x40a00000 ∧
      bits32 (toFloat (atof (bytes "1e-5"))) = 0x3727c5ac ∧
      bits32 (toFloat (atof (bytes "16777217"))) = 0x4b800000 ∧
      bits32 (toFloat (atof (bytes "1e39"))) = 0x7f800000 ∧
      bits32 (toFloat (atof (bytes "1e-46"))) = 0 ∧
      bits32 (toFloat (atof (bytes "0x10"))) = 0x41800000 ∧
      bits32 (toFloat (atof (bytes "0x.8p1"))) = 0x3f800000 ∧
      bits32 (toFloat (atof (bytes "InFx"))) = 0x7f800000 ∧
      bits32 (toFloat (atof (bytes "-inf"))) = 0xff800000 ∧
      toFloat (atof (bytes "nan")) = FloatVal.nan ∧
      bits32 (toFloat (atof (bytes "-0"))) = 0x80000000 ∧
      bits32 (toFloat (atof (bytes "x"))) = 0 ∧ bits32 (toFloat (atof (bytes "-."))) = 0 := by
  decide

/-! ## Rounding to binary floating point -/

theorem log2Fuel_spec : ∀ (fuel n : Nat), n ≤ fuel → 1 ≤ n →
    2 ^ log2Fuel fuel n ≤ n ∧ n < 2 ^ (log2Fuel fuel n + 1) := by
  intro fuel
  induction fuel with
  | zero => intro n h1 h2; omega
  | succ k ih =>
      intro n h1 h2
      unfold log2Fuel
      by_cases hn : n < 2
      · rw [if_pos hn]
        have : n = 1 := by omega
        subst this
        exact ⟨by norm_num, by norm_num⟩
      · rw [if_neg hn]
        obtain ⟨h3, h4⟩ := ih (n / 2) (by omega) (by omega)
        rw [pow_succ] at h4 ⊢
        constructor
        · omega
        · rw [pow_succ]
          omega

/-- The position of the highest set bit: `2 ^ ilog2 n ≤ n < 2 ^ (ilog2 n + 1)`. -/
theorem ilog2_spec (n : Nat) (h : 1 ≤ n) : 2 ^ ilog2 n ≤ n ∧ n < 2 ^ (ilog2 n + 1) :=
  log2Fuel_spec n n (Nat.le_refl n) h

theorem stripTwos_value : ∀ (fuel s : Nat) (e : Int),
    ((stripTwos fuel s e).1 : ℚ) * 2 ^ (stripTwos fuel s e).2 = (s : ℚ) * 2 ^ e := by
  intro fuel
  induction fuel with
  | zero => intro s e; rfl
  | succ k ih =>
      intro s e
      unfold stripTwos
      by_cases h : s % 2 = 0 ∧ s ≠ 0
      · rw [if_pos h, ih]
        have hs : s = 2 * (s / 2) := by omega
        have hq : (s : ℚ) = 2 * ((s / 2 : Nat) : ℚ) := by exact_mod_cast hs
        rw [hq, zpow_add₀ (by norm_num : (2 : ℚ) ≠ 0)]
        ring
      · rw [if_neg h]

/-- The sign of a value as a factor. -/
theorem toRat_mkFinite (neg : Bool) (s : Nat) (e : Int) :
    (mkFinite neg s e).toRat = (if neg then -1 else 1) * ((s : ℚ) * 2 ^ e) := by
  unfold mkFinite
  by_cases h : s = 0
  · rw [if_pos h, h]
    simp [FloatVal.toRat]
  · rw [if_neg h]
    simp only [FloatVal.toRat]
    rw [mul_assoc, stripTwos_value]

/-- The integer nearest to `n / d` is within one half of it, and no integer lies between
the two. -/
theorem nearestInt_spec (n d : Nat) (hd : 0 < d) :
    |(nearestInt n d : ℚ) - (n : ℚ) / d| ≤ 1 / 2 ∧
      (∀ k : Nat, (k : ℚ) ≤ (n : ℚ) / d → k ≤ nearestInt n d) ∧
      (∀ k : Nat, (n : ℚ) / d ≤ k → nearestInt n d ≤ k) := by
  have hdq : (0 : ℚ) < d := by exact_mod_cast hd
  have hdiv : n = d * (n / d) + n % d := (Nat.div_add_mod n d).symm
  have hmod : n % d < d := Nat.mod_lt n hd
  have hx : (n : ℚ) / d = (n / d : Nat) + ((n % d : Nat) : ℚ) / d := by
    have : ((n : ℚ)) = d * ((n / d : Nat) : ℚ) + ((n % d : Nat) : ℚ) := by exact_mod_cast hdiv
    rw [div_eq_iff hdq.ne', add_mul, div_mul_cancel₀ _ hdq.ne']
    linarith
  have hr0 : (0 : ℚ) ≤ ((n % d : Nat) : ℚ) / d := div_nonneg (by positivity) hdq.le
  have hr1 : ((n % d : Nat) : ℚ) / d < 1 := by
    rw [div_lt_one hdq]
    exact_mod_cast hmod
  have hfloor : ∀ k : Nat, (k : ℚ) ≤ (n : ℚ) / d → k ≤ n / d := by
    intro k hk
    rw [Nat.le_div_iff_mul_le hd]
    have : (k : ℚ) * d ≤ n := by rwa [le_div_iff₀ hdq] at hk
    exact_mod_cast this
  have hceil : ∀ k : Nat, (n : ℚ) / d ≤ k → n % d ≠ 0 → n / d + 1 ≤ k := by
    intro k hk hne
    have h1 : (n : ℚ) ≤ k * d := by rwa [div_le_iff₀ hdq] at hk
    have h2 : n ≤ k * d := by exact_mod_cast h1
    by_contra hlt
    have h3 : k ≤ n / d := by omega
    have h4 : k * d ≤ (n / d) * d := Nat.mul_le_mul_right d h3
    have h5 : d * (n / d) = (n / d) * d := Nat.mul_comm _ _
    omega
  unfold nearestInt
  by_cases hup : d < 2 * (n % d) ∨ (2 * (n % d) = d ∧ (n / d) % 2 = 1)
  · rw [if_pos hup]
    have hge : d ≤ 2 * (n % d) := by
      rcases hup with h | h
      · omega
      · omega
    have hgeq : (1 : ℚ) / 2 ≤ ((n % d : Nat) : ℚ) / d := by
      rw [le_div_iff₀ hdq]
      have : (d : ℚ) ≤ 2 * ((n % d : Nat) : ℚ) := by exact_mod_cast hge
      linarith
    refine ⟨?_, ?_, ?_⟩
    · rw [hx, abs_le]
      push_cast
      constructor <;> linarith
    · intro k hk
      have := hfloor k hk
      omega
    · intro k hk
      exact hceil k hk (by omega)
  · rw [if_neg hup]
    have hle : 2 * (n % d) ≤ d := by
      by_contra h
      exact hup (Or.inl (by omega))
    have hleq : ((n % d : Nat) : ℚ) / d ≤ 1 / 2 := by
      rw [div_le_iff₀ hdq]
      have : 2 * ((n % d : Nat) : ℚ) ≤ d := by exact_mod_cast hle
      linarith
    refine ⟨?_, hfloor, ?_⟩
    · rw [hx, abs_le]
      constructor <;> linarith
    · intro k hk
      by_cases h0 : n % d = 0
      · have h1 : (n : ℚ) ≤ k * d := by rwa [div_le_iff₀ hdq] at hk
        have h2 : n ≤ k * d := by exact_mod_cast h1
        by_contra hlt
        have h3 : k + 1 ≤ n / d := by omega
        have h4 : (k + 1) * d ≤ (n / d) * d := Nat.mul_le_mul_right d h3
        have h5 : d * (n / d) = (n / d) * d := Nat.mul_comm _ _
        have h6 : (k + 1) * d = k * d + d := by ring
        omega
      · have := hceil k hk h0
        omega

theorem zpow_toNat (e : Int) (h : 0 ≤ e) : (2 : ℚ) ^ e = ((2 ^ e.toNat : Nat) : ℚ) := by
  have h1 : (2 : ℚ) ^ e = (2 : ℚ) ^ (e.toNat : Int) := by rw [Int.toNat_of_nonneg h]
  rw [h1, zpow_natCast]
  simp

theorem zpow_neg_toNat (e : Int) (h : e ≤ 0) :
    (2 : ℚ) ^ e = 1 / ((2 ^ (-e).toNat : Nat) : ℚ) := by
  have h1 : e = -((-e).toNat : Int) := by
    rw [Int.toNat_of_nonneg (by omega)]
    omega
  have h2 : (2 : ℚ) ^ e = (2 : ℚ) ^ (-((-e).toNat : Int)) := by rw [← h1]
  rw [h2, zpow_neg, zpow_natCast]
  simp

theorem two_zpow_pos (e : Int) : (0 : ℚ) < 2 ^ e := zpow_pos (by norm_num) e

/-- The exponent of the binade: `2 ^ e ≤ num / den < 2 ^ (e + 1)`. -/
theorem floorLog2_spec (num den : Nat) (hn : 1 ≤ num) (hd : 1 ≤ den) :
    (2 : ℚ) ^ floorLog2 num den ≤ (num : ℚ) / den ∧
      (num : ℚ) / den < 2 ^ (floorLog2 num den + 1) := by
  obtain ⟨ha1, ha2⟩ := ilog2_spec num hn
  obtain ⟨hb1, hb2⟩ := ilog2_spec den hd
  have hdq : (0 : ℚ) < den := by exact_mod_cast hd
  have qa1 : (2 : ℚ) ^ (ilog2 num : Int) ≤ num := by
    rw [zpow_natCast]; exact_mod_cast ha1
  have qa2 : (num : ℚ) < 2 ^ ((ilog2 num : Int) + 1) := by
    have : ((ilog2 num : Int) + 1) = ((ilog2 num + 1 : Nat) : Int) := by push_cast; ring
    rw [this, zpow_natCast]; exact_mod_cast ha2
  have qb1 : (2 : ℚ) ^ (ilog2 den : Int) ≤ den := by
    rw [zpow_natCast]; exact_mod_cast hb1
  have qb2 : (den : ℚ) < 2 ^ ((ilog2 den : Int) + 1) := by
    have : ((ilog2 den : Int) + 1) = ((ilog2 den + 1 : Nat) : Int) := by push_cast; ring
    rw [this, zpow_natCast]; exact_mod_cast hb2
  have two : (2 : ℚ) ≠ 0 := by norm_num
  -- the two bounds that hold whatever the test says
  have hlow : (2 : ℚ) ^ ((ilog2 num : Int) - (ilog2 den : Int) - 1) ≤ (num : ℚ) / den := by
    rw [le_div_iff₀ hdq]
    have h1 : (2 : ℚ) ^ ((ilog2 num : Int) - (ilog2 den : Int) - 1) *
        2 ^ ((ilog2 den : Int) + 1) = 2 ^ (ilog2 num : Int) := by
      rw [← zpow_add₀ two]
      congr 1
      ring
    have h2 := two_zpow_pos ((ilog2 num : Int) - (ilog2 den : Int) - 1)
    calc (2 : ℚ) ^ ((ilog2 num : Int) - (ilog2 den : Int) - 1) * den
        ≤ 2 ^ ((ilog2 num : Int) - (ilog2 den : Int) - 1) * 2 ^ ((ilog2 den : Int) + 1) :=
          mul_le_mul_of_nonneg_left qb2.le h2.le
      _ = 2 ^ (ilog2 num : Int) := h1
      _ ≤ num := qa1
  have hhigh : (num : ℚ) / den < 2 ^ ((ilog2 num : Int) - (ilog2 den : Int) + 1) := by
    rw [div_lt_iff₀ hdq]
    have h1 : (2 : ℚ) ^ ((ilog2 num : Int) - (ilog2 den : Int) + 1) * 2 ^ (ilog2 den : Int) =
        2 ^ ((ilog2 num : Int) + 1) := by
      rw [← zpow_add₀ two]
      congr 1
      ring
    have h2 := two_zpow_pos ((ilog2 num : Int) - (ilog2 den : Int) + 1)
    calc (num : ℚ) < 2 ^ ((ilog2 num : Int) + 1) := qa2
      _ = 2 ^ ((ilog2 num : Int) - (ilog2 den : Int) + 1) * 2 ^ (ilog2 den : Int) := h1.symm
      _ ≤ 2 ^ ((ilog2 num : Int) - (ilog2 den : Int) + 1) * den :=
          mul_le_mul_of_nonneg_left qb1 h2.le
  -- the test decides on which side of `2 ^ e0` the number lies
  have htest : (if 0 ≤ (ilog2 num : Int) - (ilog2 den : Int) then
        den * 2 ^ ((ilog2 num : Int) - (ilog2 den : Int)).toNat ≤ num
      else den ≤ num * 2 ^ (-((ilog2 num : Int) - (ilog2 den : Int))).toNat) ↔
      (2 : ℚ) ^ ((ilog2 num : Int) - (ilog2 den : Int)) ≤ (num : ℚ) / den := by
    by_cases h0 : 0 ≤ (ilog2 num : Int) - (ilog2 den : Int)
    · rw [if_pos h0, zpow_toNat _ h0, le_div_iff₀ hdq]
      constructor
      · intro h
        have : ((den * 2 ^ ((ilog2 num : Int) - (ilog2 den : Int)).toNat : Nat) : ℚ) ≤ num := by
          exact_mod_cast h
        push_cast at this ⊢
        linarith
      · intro h
        have : ((den * 2 ^ ((ilog2 num : Int) - (ilog2 den : Int)).toNat : Nat) : ℚ) ≤ num := by
          push_cast at h ⊢
          linarith
        exact_mod_cast this
    · rw [if_neg h0, zpow_neg_toNat _ (by omega)]
      have hp : (0 : ℚ) < ((2 ^ (-((ilog2 num : Int) - (ilog2 den : Int))).toNat : Nat) : ℚ) := by
        positivity
      rw [div_le_div_iff₀ hp hdq]
      constructor
      · intro h
        have : ((den : Nat) : ℚ) ≤
            ((num * 2 ^ (-((ilog2 num : Int) - (ilog2 den : Int))).toNat : Nat) : ℚ) := by
          exact_mod_cast h
        push_cast at this ⊢
        linarith
      · intro h
        have : ((den : Nat) : ℚ) ≤
            ((num * 2 ^ (-((ilog2 num : Int) - (ilog2 den : Int))).toNat : Nat) : ℚ) := by
          push_cast at h ⊢
          linarith
        exact_mod_cast this
  unfold floorLog2
  simp only []
  by_cases hc : (if 0 ≤ (ilog2 num : Int) - (ilog2 den : Int) then
        den * 2 ^ ((ilog2 num : Int) - (ilog2 den : Int)).toNat ≤ num
      else den ≤ num * 2 ^ (-((ilog2 num : Int) - (ilog2 den : Int))).toNat)
  · rw [if_pos hc]
    exact ⟨htest.mp hc, hhigh⟩
  · rw [if_neg hc]
    refine ⟨hlow, ?_⟩
    have := mt htest.mpr hc
    rw [not_le] at this
    have he : (ilog2 num : Int) - (ilog2 den : Int) - 1 + 1 =
        (ilog2 num : Int) - (ilog2 den : Int) := by ring
    rw [he]
    exact this

theorem mkFinite_eq (neg : Bool) (s : Nat) (e : Int) :
    ∃ s1 e1, mkFinite neg s e = .finite neg s1 e1 ∧ (s1 : ℚ) * 2 ^ e1 = (s : ℚ) * 2 ^ e := by
  unfold mkFinite
  by_cases h : s = 0
  · rw [if_pos h, h]
    exact ⟨0, 0, rfl, by simp⟩
  · rw [if_neg h]
    exact ⟨_, _, rfl, stripTwos_value _ s e⟩

/-- The significand is the number in units of its last place, rounded to the nearest
integer: it is within half a unit, and no multiple of the unit lies between the two. -/
theorem significand_spec (fmt : FloatFormat) (num den : Nat) (hd : 1 ≤ den) :
    |(significand fmt num den : ℚ) * 2 ^ quantum fmt num den - (num : ℚ) / den| ≤
        2 ^ quantum fmt num den / 2 ∧
      (∀ k : Nat, (k : ℚ) * 2 ^ quantum fmt num den ≤ (num : ℚ) / den →
        k ≤ significand fmt num den) ∧
      (∀ k : Nat, (num : ℚ) / den ≤ (k : ℚ) * 2 ^ quantum fmt num den →
        significand fmt num den ≤ k) := by
  have hdq : (0 : ℚ) < den := by exact_mod_cast hd
  unfold significand
  generalize quantum fmt num den = qe
  have hq := two_zpow_pos qe
  -- the number in units of the last place, as a quotient of natural numbers
  have key : ∀ (n d : Nat), 0 < d → (n : ℚ) / d = ((num : ℚ) / den) / 2 ^ qe →
      |(nearestInt n d : ℚ) * 2 ^ qe - (num : ℚ) / den| ≤ 2 ^ qe / 2 ∧
      (∀ k : Nat, (k : ℚ) * 2 ^ qe ≤ (num : ℚ) / den → k ≤ nearestInt n d) ∧
      (∀ k : Nat, (num : ℚ) / den ≤ (k : ℚ) * 2 ^ qe → nearestInt n d ≤ k) := by
    intro n d hd0 hnd
    obtain ⟨h1, h2, h3⟩ := nearestInt_spec n d hd0
    rw [hnd] at h1 h2 h3
    refine ⟨?_, ?_, ?_⟩
    · have : (nearestInt n d : ℚ) * 2 ^ qe - (num : ℚ) / den =
          ((nearestInt n d : ℚ) - (num : ℚ) / den / 2 ^ qe) * 2 ^ qe := by
        field_simp
        ring
      rw [this, abs_mul, abs_of_pos hq]
      calc |(nearestInt n d : ℚ) - (num : ℚ) / den / 2 ^ qe| * 2 ^ qe
          ≤ 1 / 2 * 2 ^ qe := mul_le_mul_of_nonneg_right h1 hq.le
        _ = 2 ^ qe / 2 := by ring
    · intro k hk
      exact h2 k (by rwa [le_div_iff₀ hq])
    · intro k hk
      exact h3 k (by rwa [div_le_iff₀ hq])
  by_cases h0 : 0 ≤ qe
  · rw [if_pos h0]
    apply key num (den * 2 ^ qe.toNat) (by positivity)
    rw [zpow_toNat qe h0]
    push_cast
    rw [div_div]
  · rw [if_neg h0]
    apply key (num * 2 ^ (-qe).toNat) den hd
    rw [zpow_neg_toNat qe (by omega)]
    push_cast
    field_simp

theorem quantum_le (fmt : FloatFormat) (num den : Nat) (hn : 1 ≤ num) (hd : 1 ≤ den) (E : Int)
    (hx : (num : ℚ) / den < 2 ^ (E + 1)) (hE : 1 - fmt.emax ≤ E) :
    quantum fmt num den ≤ E - ((fmt.prec : Int) - 1) := by
  obtain ⟨h1, _⟩ := floorLog2_spec num den hn hd
  have h2 : (2 : ℚ) ^ floorLog2 num den < 2 ^ (E + 1) := lt_of_le_of_lt h1 hx
  rw [zpow_lt_zpow_iff_right₀ (by norm_num : (1 : ℚ) < 2)] at h2
  unfold quantum
  have : max (floorLog2 num den) (1 - fmt.emax) ≤ E := max_le (by omega) hE
  omega

theorem quantum_normal (fmt : FloatFormat) (num den : Nat) (hn : 1 ≤ num) (hd : 1 ≤ den)
    (hx : (2 : ℚ) ^ (1 - fmt.emax) ≤ (num : ℚ) / den) :
    (2 : ℚ) ^ quantum fmt num den ≤ (num : ℚ) / den * 2 ^ (-((fmt.prec : Int) - 1)) := by
  obtain ⟨h1, h2⟩ := floorLog2_spec num den hn hd
  have h3 : (2 : ℚ) ^ (1 - fmt.emax) < 2 ^ (floorLog2 num den + 1) := lt_of_le_of_lt hx h2
  rw [zpow_lt_zpow_iff_right₀ (by norm_num : (1 : ℚ) < 2)] at h3
  unfold quantum
  rw [max_eq_left (by omega), sub_eq_add_neg, zpow_add₀ (by norm_num : (2 : ℚ) ≠ 0)]
  exact mul_le_mul_of_nonneg_right h1 (two_zpow_pos _).le

/-- Rounding a number below `2 ^ (E + 1)`, with `E` an exponent of the format: the result is
finite, it is within `2 ^ (E - prec)` of the number, and when the last place is a unit or
finer (`E < prec`) no natural number lies between the two. -/
theorem roundFloat_approx (fmt : FloatFormat) (neg : Bool) (num den : Nat) (hd : 1 ≤ den)
    (E : Int) (hx : (num : ℚ) / den < 2 ^ (E + 1)) (hE1 : 1 - fmt.emax ≤ E)
    (hE2 : E < fmt.emax) :
    ∃ s e, roundFloat fmt neg num den = .finite neg s e ∧
      |(s : ℚ) * 2 ^ e - (num : ℚ) / den| ≤ 2 ^ (E - (fmt.prec : Int)) ∧
      (E < (fmt.prec : Int) → ∀ N : Nat,
        ((N : ℚ) ≤ (num : ℚ) / den → (N : ℚ) ≤ (s : ℚ) * 2 ^ e) ∧
        ((num : ℚ) / den ≤ (N : ℚ) → (s : ℚ) * 2 ^ e ≤ (N : ℚ))) := by
  by_cases hn0 : num = 0
  · subst hn0
    refine ⟨0, 0, by rw [roundFloat_zero], ?_, ?_⟩
    · simp only [Nat.cast_zero, zero_mul, zero_div, sub_zero, abs_zero]
      exact (two_zpow_pos _).le
    · intro _ N
      simp
  · have hn : 1 ≤ num := by omega
    have hq := quantum_le fmt num den hn hd E hx hE1
    obtain ⟨s1, e1, hmk, hval⟩ :=
      mkFinite_eq neg (significand fmt num den) (quantum fmt num den)
    obtain ⟨g1, g2, g3⟩ := significand_spec fmt num den hd
    refine ⟨s1, e1, ?_, ?_, ?_⟩
    · unfold roundFloat
      rw [if_neg (by omega), if_neg (by omega), hmk]
    · rw [hval]
      refine le_trans g1 ?_
      have : (2 : ℚ) ^ quantum fmt num den ≤ 2 ^ (E - ((fmt.prec : Int) - 1)) :=
        zpow_le_zpow_right₀ (by norm_num) hq
      have h2 : (2 : ℚ) ^ (E - ((fmt.prec : Int) - 1)) = 2 ^ (E - (fmt.prec : Int)) * 2 := by
        rw [← zpow_add_one₀ (by norm_num : (2 : ℚ) ≠ 0)]
        congr 1
        ring
      linarith
    · intro hEp N
      rw [hval]
      have hq0 : quantum fmt num den ≤ 0 := by omega
      have hunit : (N : ℚ) = ((N * 2 ^ (-quantum fmt num den).toNat : Nat) : ℚ) *
          2 ^ quantum fmt num den := by
        rw [zpow_neg_toNat _ hq0]
        push_cast
        field_simp
      have hqp := two_zpow_pos (quantum fmt num den)
      constructor
      · intro hN
        have := g2 (N * 2 ^ (-quantum fmt num den).toNat) (by rw [← hunit]; exact hN)
        rw [hunit]
        exact mul_le_mul_of_nonneg_right (by exact_mod_cast this) hqp.le
      · intro hN
        have := g3 (N * 2 ^ (-quantum fmt num den).toNat) (by rw [← hunit]; exact hN)
        rw [hunit]
        exact mul_le_mul_of_nonneg_right (by exact_mod_cast this) hqp.le

theorem toRat_of_isFinite (v : FloatVal) (neg : Bool) (r : ℚ) (h : v.isFinite neg r) :
    v.toRat = (if neg then -1 else 1) * r := by
  obtain ⟨s, e, hv, hr⟩ := h
  rw [hv, ← hr]
  simp only [FloatVal.toRat]
  ring

/-- Rounding the number `x = num / den` below `2 ^ (E + 1)`, with `E` an exponent of the
format: the result is finite, within `2 ^ (E - prec)` of `x`, and when `E < prec` no natural
number lies between the two. -/
theorem roundFloat_near (fmt : FloatFormat) (neg : Bool) (num den : Nat) (hd : 1 ≤ den)
    (x : ℚ) (hval : (num : ℚ) / den = x) (E : Int) (hx : x < 2 ^ (E + 1))
    (hE1 : 1 - fmt.emax ≤ E) (hE2 : E < fmt.emax) :
    ∃ r, (roundFloat fmt neg num den).isFinite neg r ∧ |r - x| ≤ 2 ^ (E - (fmt.prec : Int)) ∧
      (E < (fmt.prec : Int) → ∀ N : Nat, ((N : ℚ) ≤ x → (N : ℚ) ≤ r) ∧ (x ≤ (N : ℚ) → r ≤ N)) := by
  subst hval
  obtain ⟨s, e, h1, h2, h3⟩ := roundFloat_approx fmt neg num den hd E hx hE1 hE2
  exact ⟨(s : ℚ) * 2 ^ e, ⟨s, e, h1, rfl⟩, h2, h3⟩

/-- Rounding a number in the range of the normal numbers of the format: the result is finite
and the error is at most the fraction `2 ^ (-prec)` of the number. -/
theorem roundFloat_relative (fmt : FloatFormat) (neg : Bool) (num den : Nat) (hd : 1 ≤ den)
    (x : ℚ) (hval : (num : ℚ) / den = x) (hlo : (2 : ℚ) ^ (1 - fmt.emax) ≤ x)
    (hhi : x < 2 ^ fmt.emax) (hemax : 1 ≤ fmt.emax) :
    ∃ r, (roundFloat fmt neg num den).isFinite neg r ∧
      |r - x| ≤ x * 2 ^ (-(fmt.prec : Int)) := by
  subst hval
  have hxpos : (0 : ℚ) < (num : ℚ) / den := lt_of_lt_of_le (two_zpow_pos _) hlo
  have hn : 1 ≤ num := by
    by_contra h0
    have : num = 0 := by omega
    rw [this] at hxpos
    simp at hxpos
  have hq := quantum_le fmt num den hn hd (fmt.emax - 1)
    (by rw [sub_add_cancel]; exact hhi) (by omega)
  obtain ⟨s1, e1, hmk, hv⟩ := mkFinite_eq neg (significand fmt num den) (quantum fmt num den)
  obtain ⟨g1, _, _⟩ := significand_spec fmt num den hd
  have hqn := quantum_normal fmt num den hn hd hlo
  refine ⟨(s1 : ℚ) * 2 ^ e1, ⟨s1, e1, ?_, rfl⟩, ?_⟩
  · unfold roundFloat
    rw [if_neg (by omega), if_neg (by omega), hmk]
  · rw [hv]
    refine le_trans g1 ?_
    have h2 : (2 : ℚ) ^ (-((fmt.prec : Int) - 1)) = 2 ^ (-(fmt.prec : Int)) * 2 := by
      rw [← zpow_add_one₀ (by norm_num : (2 : ℚ) ≠ 0)]
      congr 1
      ring
    rw [h2] at hqn
    linarith

theorem roundScaled_value (m : Nat) (e : Int) :
    (if 0 ≤ e then ((m * 2 ^ e.toNat : Nat) : ℚ) / ((1 : Nat) : ℚ)
      else (m : ℚ) / ((2 ^ (-e).toNat : Nat) : ℚ)) = (m : ℚ) * 2 ^ e := by
  by_cases h : 0 ≤ e
  · rw [if_pos h, zpow_toNat e h]
    push_cast
    simp
  · rw [if_neg h, zpow_neg_toNat e (by omega)]
    push_cast
    field_simp

/-- The rounding of `m * 2 ^ e`, as `roundFloat_near`. -/
theorem roundScaled_near (fmt : FloatFormat) (neg : Bool) (m : Nat) (e : Int)
    (x : ℚ) (hval : (m : ℚ) * 2 ^ e = x) (E : Int) (hx : x < 2 ^ (E + 1))
    (hE1 : 1 - fmt.emax ≤ E) (hE2 : E < fmt.emax) :
    ∃ r, (roundScaled fmt neg m e).isFinite neg r ∧ |r - x| ≤ 2 ^ (E - (fmt.prec : Int)) ∧
      (E < (fmt.prec : Int) → ∀ N : Nat, ((N : ℚ) ≤ x → (N : ℚ) ≤ r) ∧ (x ≤ (N : ℚ) → r ≤ N)) := by
  have hv := roundScaled_value m e
  unfold roundScaled
  by_cases h : 0 ≤ e
  · rw [if_pos h] at hv ⊢
    exact roundFloat_near fmt neg _ 1 (Nat.le_refl 1) x (hv.trans hval) E hx hE1 hE2
  · rw [if_neg h] at hv ⊢
    exact roundFloat_near fmt neg m _ (Nat.one_le_two_pow) x (hv.trans hval) E hx hE1 hE2

/-- The rounding of `m * 2 ^ e`, as `roundFloat_relative`. -/
theorem roundScaled_relative (fmt : FloatFormat) (neg : Bool) (m : Nat) (e : Int)
    (x : ℚ) (hval : (m : ℚ) * 2 ^ e = x) (hlo : (2 : ℚ) ^ (1 - fmt.emax) ≤ x)
    (hhi : x < 2 ^ fmt.emax) (hemax : 1 ≤ fmt.emax) :
    ∃ r, (roundScaled fmt neg m e).isFinite neg r ∧ |r - x| ≤ x * 2 ^ (-(fmt.prec : Int)) := by
  have hv := roundScaled_value m e
  unfold roundScaled
  by_cases h : 0 ≤ e
  · rw [if_pos h] at hv ⊢
    exact roundFloat_relative fmt neg _ 1 (Nat.le_refl 1) x (hv.trans hval) hlo hhi hemax
  · rw [if_neg h] at hv ⊢
    exact roundFloat_relative fmt neg m _ (Nat.one_le_two_pow) x (hv.trans hval) hlo hhi hemax

theorem align_value (s : Nat) (e e0 : Int) (h : e0 ≤ e) :
    ((s * 2 ^ (e - e0).toNat : Nat) : ℚ) * 2 ^ e0 = (s : ℚ) * 2 ^ e := by
  have h1 : (((2 : Nat) ^ (e - e0).toNat : Nat) : ℚ) = 2 ^ (e - e0) := by
    rw [zpow_toNat (e - e0) (by omega)]
  push_cast at h1 ⊢
  rw [h1, mul_assoc, ← zpow_add₀ (by norm_num : (2 : ℚ) ≠ 0)]
  congr 2
  ring

/-- The conversion of a finite `double` below `2 ^ (E + 1)` to `float`. -/
theorem toFloat_near (v : FloatVal) (neg : Bool) (y : ℚ) (hv : v.isFinite neg y) (E : Int)
    (hy : y < 2 ^ (E + 1)) (hE1 : -126 ≤ E) (hE2 : E < 127) :
    ∃ r, (toFloat v).isFinite neg r ∧ |r - y| ≤ 2 ^ (E - 24) ∧
      (E < 24 → ∀ N : Nat, ((N : ℚ) ≤ y → (N : ℚ) ≤ r) ∧ (y ≤ (N : ℚ) → r ≤ N)) := by
  obtain ⟨s, e, h1, h2⟩ := hv
  rw [h1]
  exact roundScaled_near binary32 neg s e y h2 E hy hE1 hE2

/-- The conversion of a finite `double` in the normal range of `float` to `float`. -/
theorem toFloat_relative (v : FloatVal) (neg : Bool) (y : ℚ) (hv : v.isFinite neg y)
    (hlo : (2 : ℚ) ^ (-126 : Int) ≤ y) (hhi : y < 2 ^ (127 : Int)) :
    ∃ r, (toFloat v).isFinite neg r ∧ |r - y| ≤ y * 2 ^ (-24 : Int) := by
  obtain ⟨s, e, h1, h2⟩ := hv
  rw [h1]
  exact roundScaled_relative binary32 neg s e y h2 hlo hhi (by decide)

theorem isFinite_zero_iff (s : Nat) (e : Int) : (s : ℚ) * 2 ^ e = 0 ↔ s = 0 := by
  constructor
  · intro h
    rcases mul_eq_zero.mp h with h1 | h1
    · exact_mod_cast h1
    · exact absurd h1 (two_zpow_pos e).ne'
  · intro h
    rw [h]
    simp

/-- The quotient of two finite values, the divisor not zero, below `2 ^ (E + 1)`. -/
theorem fdiv_near (fmt : FloatFormat) (a b : FloatVal) (na nb : Bool) (ra rb : ℚ)
    (ha : a.isFinite na ra) (hb : b.isFinite nb rb) (hb0 : rb ≠ 0) (E : Int)
    (hx : ra / rb < 2 ^ (E + 1)) (hE1 : 1 - fmt.emax ≤ E) (hE2 : E < fmt.emax) :
    ∃ r, (fdiv fmt a b).isFinite (xor na nb) r ∧ |r - ra / rb| ≤ 2 ^ (E - (fmt.prec : Int)) ∧
      (E < (fmt.prec : Int) → ∀ N : Nat,
        ((N : ℚ) ≤ ra / rb → (N : ℚ) ≤ r) ∧ (ra / rb ≤ (N : ℚ) → r ≤ N)) := by
  obtain ⟨sa, ea, h1, h2⟩ := ha
  obtain ⟨sb, eb, h3, h4⟩ := hb
  have hsb : sb ≠ 0 := by
    intro h0
    apply hb0
    rw [← h4, h0]
    simp
  rw [h1, h3]
  simp only [fdiv, if_neg hsb]
  have hden : 1 ≤ sb * 2 ^ (eb - ea).toNat := Nat.mul_pos (by omega) (Nat.two_pow_pos _)
  refine roundFloat_near fmt (xor na nb) _ _ hden (ra / rb) ?_ E hx hE1 hE2
  rw [← h2, ← h4]
  have two : (2 : ℚ) ≠ 0 := by norm_num
  by_cases hle : eb ≤ ea
  · have h5 : (eb - ea).toNat = 0 := by omega
    rw [h5]
    have h6 := align_value sa ea eb hle
    have hpb := two_zpow_pos eb
    have hsbq : (sb : ℚ) ≠ 0 := by exact_mod_cast hsb
    rw [← h6]
    push_cast
    field_simp
    ring
  · have h5 : (ea - eb).toNat = 0 := by omega
    rw [h5]
    have h6 := align_value sb eb ea (by omega)
    have hpa := two_zpow_pos ea
    have hsbq : (sb : ℚ) ≠ 0 := by exact_mod_cast hsb
    rw [← h6]
    push_cast
    field_simp
    ring

/-- The product of two finite values, below `2 ^ (E + 1)`. -/
theorem fmul_near (fmt : FloatFormat) (a b : FloatVal) (na nb : Bool) (ra rb : ℚ)
    (ha : a.isFinite na ra) (hb : b.isFinite nb rb) (E : Int)
    (hx : ra * rb < 2 ^ (E + 1)) (hE1 : 1 - fmt.emax ≤ E) (hE2 : E < fmt.emax) :
    ∃ r, (fmul fmt a b).isFinite (xor na nb) r ∧ |r - ra * rb| ≤ 2 ^ (E - (fmt.prec : Int)) ∧
      (E < (fmt.prec : Int) → ∀ N : Nat,
        ((N : ℚ) ≤ ra * rb → (N : ℚ) ≤ r) ∧ (ra * rb ≤ (N : ℚ) → r ≤ N)) := by
  obtain ⟨sa, ea, h1, h2⟩ := ha
  obtain ⟨sb, eb, h3, h4⟩ := hb
  rw [h1, h3]
  simp only [fmul]
  refine roundScaled_near fmt (xor na nb) (sa * sb) (ea + eb) (ra * rb) ?_ E hx hE1 hE2
  rw [← h2, ← h4, zpow_add₀ (by norm_num : (2 : ℚ) ≠ 0)]
  push_cast
  ring

/-- The sum of two finite values that are not negative, below `2 ^ (E + 1)`. -/
theorem fadd_near (fmt : FloatFormat) (a b : FloatVal) (ra rb : ℚ)
    (ha : a.isFinite false ra) (hb : b.isFinite false rb) (E : Int)
    (hx : ra + rb < 2 ^ (E + 1)) (hE1 : 1 - fmt.emax ≤ E) (hE2 : E < fmt.emax) :
    ∃ r, (fadd fmt a b).isFinite false r ∧ |r - (ra + rb)| ≤ 2 ^ (E - (fmt.prec : Int)) ∧
      (E < (fmt.prec : Int) → ∀ N : Nat,
        ((N : ℚ) ≤ ra + rb → (N : ℚ) ≤ r) ∧ (ra + rb ≤ (N : ℚ) → r ≤ N)) := by
  obtain ⟨sa, ea, h1, h2⟩ := ha
  obtain ⟨sb, eb, h3, h4⟩ := hb
  rw [h1, h3]
  have hA := align_value sa ea (min ea eb) (min_le_left _ _)
  have hB := align_value sb eb (min ea eb) (min_le_right _ _)
  simp only [fadd, signed, Bool.false_eq_true, if_false, Bool.and_self]
  generalize sa * 2 ^ (ea - min ea eb).toNat = A at hA
  generalize sb * 2 ^ (eb - min ea eb).toNat = B at hB
  have hsum : ((A + B : Nat) : ℚ) * 2 ^ min ea eb = ra + rb := by
    push_cast
    rw [add_mul, hA, hB, h2, h4]
  by_cases h0 : (A : Int) + (B : Int) = 0
  · rw [if_pos h0]
    have hAB : A + B = 0 := by omega
    rw [hAB] at hsum
    refine ⟨0, ⟨0, 0, rfl, by simp⟩, ?_, ?_⟩
    · rw [← hsum]
      simp only [Nat.cast_zero, zero_mul, sub_zero, abs_zero]
      exact (two_zpow_pos _).le
    · intro _ N
      rw [← hsum]
      simp
  · rw [if_neg h0]
    have hneg : decide ((A : Int) + (B : Int) < 0) = false := by
      simp only [decide_eq_false_iff_not, not_lt]
      omega
    have habs : ((A : Int) + (B : Int)).natAbs = A + B := by omega
    rw [hneg, habs]
    exact roundScaled_near fmt false (A + B) (min ea eb) (ra + rb) hsum E hx hE1 hE2

/-- The difference of two finite values that are not negative, the first not the smaller,
below `2 ^ (E + 1)`. -/
theorem fsub_near (fmt : FloatFormat) (a b : FloatVal) (ra rb : ℚ)
    (ha : a.isFinite false ra) (hb : b.isFinite false rb) (hle : rb ≤ ra) (E : Int)
    (hx : ra - rb < 2 ^ (E + 1)) (hE1 : 1 - fmt.emax ≤ E) (hE2 : E < fmt.emax) :
    ∃ r, (fsub fmt a b).isFinite false r ∧ |r - (ra - rb)| ≤ 2 ^ (E - (fmt.prec : Int)) ∧
      (E < (fmt.prec : Int) → ∀ N : Nat,
        ((N : ℚ) ≤ ra - rb → (N : ℚ) ≤ r) ∧ (ra - rb ≤ (N : ℚ) → r ≤ N)) := by
  obtain ⟨sa, ea, h1, h2⟩ := ha
  obtain ⟨sb, eb, h3, h4⟩ := hb
  rw [h1, h3]
  have hA := align_value sa ea (min ea eb) (min_le_left _ _)
  have hB := align_value sb eb (min ea eb) (min_le_right _ _)
  simp only [fsub, fneg, fadd, signed, Bool.false_eq_true, if_false, Bool.not_false, if_true,
    Bool.false_and]
  generalize sa * 2 ^ (ea - min ea eb).toNat = A at hA
  generalize sb * 2 ^ (eb - min ea eb).toNat = B at hB
  have hp := two_zpow_pos (min ea eb)
  have hBA : B ≤ A := by
    have : (B : ℚ) * 2 ^ min ea eb ≤ (A : ℚ) * 2 ^ min ea eb := by
      rw [hA, hB, h2, h4]; exact hle
    have := le_of_mul_le_mul_right this hp
    exact_mod_cast this
  have hdiff : ((A - B : Nat) : ℚ) * 2 ^ min ea eb = ra - rb := by
    rw [Nat.cast_sub hBA, sub_mul, hA, hB, h2, h4]
  by_cases h0 : (A : Int) + -(B : Int) = 0
  · rw [if_pos h0]
    have hAB : A - B = 0 := by omega
    rw [hAB] at hdiff
    refine ⟨0, ⟨0, 0, rfl, by simp⟩, ?_, ?_⟩
    · rw [← hdiff]
      simp only [Nat.cast_zero, zero_mul, sub_zero, abs_zero]
      exact (two_zpow_pos _).le
    · intro _ N
      rw [← hdiff]
      simp
  · rw [if_neg h0]
    have hneg : decide ((A : Int) + -(B : Int) < 0) = false := by
      simp only [decide_eq_false_iff_not, not_lt]
      omega
    have habs : ((A : Int) + -(B : Int)).natAbs = A - B := by omega
    rw [hneg, habs]
    exact roundScaled_near fmt false (A - B) (min ea eb) (ra - rb) hdiff E hx hE1 hE2

/-- The conversion of a natural number below `2 ^ prec` to the format is exact. -/
theorem ofInt_exact (fmt : FloatFormat) (n : Nat) (E : Int) (hn : (n : ℚ) < 2 ^ (E + 1))
    (hE0 : E < (fmt.prec : Int)) (hE1 : 1 - fmt.emax ≤ E) (hE2 : E < fmt.emax) :
    (ofInt fmt (n : Int)).isFinite false n := by
  have hneg : decide ((n : Int) < 0) = false := by
    simp
  unfold ofInt
  rw [hneg, Int.natAbs_ofNat]
  obtain ⟨r, h1, _, h3⟩ := roundScaled_near fmt false n 0 n (by simp) E hn hE1 hE2
  obtain ⟨g1, g2⟩ := h3 hE0 n
  have : r = n := le_antisymm (g2 le_rfl) (g1 le_rfl)
  rw [← this]
  exact h1

/-- The cast `(int)` of a finite value that is not negative: the natural number `D` when the
value lies in `[D, D + 1)` and `D` in `int`. -/
theorem toInt_floor (v : FloatVal) (r : ℚ) (hv : v.isFinite false r) (D : Nat)
    (h1 : (D : ℚ) ≤ r) (h2 : r < (D : ℚ) + 1) (hD : D ≤ 2147483647) : toInt v = D := by
  obtain ⟨s, e, hs, hr⟩ := hv
  rw [hs]
  have key : (if 0 ≤ e then s * 2 ^ e.toNat else s / 2 ^ (-e).toNat) = D := by
    by_cases h0 : 0 ≤ e
    · rw [if_pos h0]
      have hval : ((s * 2 ^ e.toNat : Nat) : ℚ) = r := by
        rw [← hr, zpow_toNat e h0]
        push_cast
        ring
      rw [← hval] at h1 h2
      have a1 : D ≤ s * 2 ^ e.toNat := by exact_mod_cast h1
      have a2 : s * 2 ^ e.toNat < D + 1 := by exact_mod_cast h2
      omega
    · rw [if_neg h0]
      have hp : 0 < 2 ^ (-e).toNat := Nat.two_pow_pos _
      have hpq : (0 : ℚ) < ((2 ^ (-e).toNat : Nat) : ℚ) := by exact_mod_cast hp
      have hval : (s : ℚ) / ((2 ^ (-e).toNat : Nat) : ℚ) = r := by
        rw [← hr, zpow_neg_toNat e (by omega)]
        field_simp
      rw [← hval] at h1 h2
      rw [le_div_iff₀ hpq] at h1
      rw [div_lt_iff₀ hpq] at h2
      have a1 : D * 2 ^ (-e).toNat ≤ s := by exact_mod_cast h1
      have a2 : s < (D + 1) * 2 ^ (-e).toNat := by exact_mod_cast h2
      apply Nat.le_antisymm
      · rw [← Nat.lt_succ_iff, Nat.div_lt_iff_lt_mul hp]
        exact a2
      · rw [Nat.le_div_iff_mul_le hp]
        exact a1
  simp only [toInt, signed, Bool.false_eq_true, if_false, key]
  rw [if_pos (by omega)]

theorem isFinite_nonneg (v : FloatVal) (neg : Bool) (r : ℚ) (h : v.isFinite neg r) : 0 ≤ r := by
  obtain ⟨s, e, _, hr⟩ := h
  rw [← hr]
  exact mul_nonneg (by positivity) (two_zpow_pos e).le

/-- The magnitude of the decimal value of a text, as a quotient of natural numbers. -/
theorem abs_decimalValue (f : List Nat) :
    ((numeral (decimalDigits f) : Nat) : ℚ) / ((10 ^ decimalPlaces f : Nat) : ℚ) =
      |decimalValue f| := by
  have hp : (0 : ℚ) < 10 ^ decimalPlaces f := by positivity
  have hn : (0 : ℚ) ≤ (numeral (decimalDigits f) : ℚ) / 10 ^ decimalPlaces f :=
    div_nonneg (by positivity) hp.le
  unfold decimalValue
  push_cast
  cases isNegative f
  · simp only [Bool.false_eq_true, if_false, one_mul]
    rw [abs_of_nonneg hn]
  · simp only [if_true, neg_mul, one_mul, neg_div]
    rw [abs_neg, abs_of_nonneg hn]

theorem decimalValue_sign (f : List Nat) :
    decimalValue f = (if isNegative f then -1 else 1) * |decimalValue f| := by
  rw [← abs_decimalValue]
  unfold decimalValue
  push_cast
  ring

/-- The `float` that a decimal number is stored as: it is the value of the number up to the
rounding of `float`.  For a value of magnitude between `1e-37` and `1e37` the `float` is finite
and the error is at most the fraction `2 ^ (-23)` of the value; the value 0 is stored as a
zero. -/
theorem decimal_float_near (f : List Nat)
    (h0 : decimalValue f = 0 ∨ 1 / 10 ^ 37 ≤ |decimalValue f|)
    (hhi : |decimalValue f| ≤ 10 ^ 37) :
    (∃ r, (toFloat (decimalDouble f)).isFinite (isNegative f) r) ∧
      |(toFloat (decimalDouble f)).toRat - decimalValue f| ≤ |decimalValue f| / 2 ^ 23 := by
  have hval := abs_decimalValue f
  have hden : 1 ≤ 10 ^ decimalPlaces f := Nat.one_le_pow _ _ (by norm_num)
  by_cases hz : decimalValue f = 0
  · have hnum : numeral (decimalDigits f) = 0 := by
      rw [hz, abs_zero] at hval
      have hp : ((10 ^ decimalPlaces f : Nat) : ℚ) ≠ 0 := by positivity
      have := (div_eq_zero_iff.mp hval).resolve_right hp
      exact_mod_cast this
    have hd0 : decimalDouble f = .finite (isNegative f) 0 0 := by
      unfold decimalDouble
      rw [hnum, roundFloat_zero]
    have hf0 : toFloat (decimalDouble f) = .finite (isNegative f) 0 0 := by
      rw [hd0]
      cases isNegative f <;> decide
    rw [hf0, hz]
    refine ⟨⟨0, 0, 0, rfl, by simp⟩, ?_⟩
    simp [FloatVal.toRat]
  · have hlo : 1 / 10 ^ 37 ≤ |decimalValue f| := h0.resolve_left hz
    have hpos : 0 < |decimalValue f| := lt_of_lt_of_le (by positivity) hlo
    obtain ⟨y, hy, hy1⟩ := roundFloat_relative binary64 (isNegative f)
      (numeral (decimalDigits f)) (10 ^ decimalPlaces f) hden |decimalValue f| hval
      (by
        have : (2 : ℚ) ^ ((1 : Int) - binary64.emax) ≤ 1 / 10 ^ 37 := by
          norm_num [binary64]
        linarith)
      (by
        have : (10 : ℚ) ^ 37 < 2 ^ binary64.emax := by norm_num [binary64]
        linarith)
      (by decide)
    have e64 : (2 : ℚ) ^ (-(((binary64.prec : Nat) : Int))) = 1 / 9007199254740992 := by
      norm_num [binary64]
    rw [e64] at hy1
    have hy2 := abs_le.mp hy1
    obtain ⟨r, hr, hr1⟩ := toFloat_relative (decimalDouble f) (isNegative f) y hy
      (by
        have h3 : (2 : ℚ) ^ (-126 : Int) = 1 / 85070591730234615865843651857942052864 := by norm_num
        have h4 : (1 : ℚ) / 10 ^ 37 * (1 - 1 / 9007199254740992) ≤
            |decimalValue f| * (1 - 1 / 9007199254740992) :=
          mul_le_mul_of_nonneg_right hlo (by norm_num)
        have h5 : (1 : ℚ) / 85070591730234615865843651857942052864 ≤ 1 / 10 ^ 37 * (1 - 1 / 9007199254740992) := by norm_num
        rw [h3]
        linarith [hy2.1])
      (by
        have h3 : (2 : ℚ) ^ (127 : Int) = 170141183460469231731687303715884105728 := by norm_num
        have h4 : |decimalValue f| * (1 + 1 / 9007199254740992) ≤
            (10 : ℚ) ^ 37 * (1 + 1 / 9007199254740992) :=
          mul_le_mul_of_nonneg_right hhi (by norm_num)
        have h5 : (10 : ℚ) ^ 37 * (1 + 1 / 9007199254740992) < 170141183460469231731687303715884105728 := by norm_num
        rw [h3]
        linarith [hy2.2])
    have e32 : (2 : ℚ) ^ (-24 : Int) = 1 / 16777216 := by norm_num
    rw [e32] at hr1
    have hr2 := abs_le.mp hr1
    refine ⟨⟨r, hr⟩, ?_⟩
    rw [toRat_of_isFinite _ _ _ hr]
    have hsplit : (if isNegative f then (-1 : ℚ) else 1) * r - decimalValue f =
        (if isNegative f then (-1 : ℚ) else 1) * (r - |decimalValue f|) := by
      conv_lhs => rw [decimalValue_sign f]
      ring
    have hs1 : |(if isNegative f then (-1 : ℚ) else 1)| = 1 := by
      cases isNegative f <;> simp
    rw [hsplit, abs_mul, hs1, one_mul, abs_le]
    constructor
    · have : (2 : ℚ) ^ 23 = 8388608 := by norm_num
      rw [this]
      linarith [hy2.1, hr2.1]
    · have : (2 : ℚ) ^ 23 = 8388608 := by norm_num
      rw [this]
      linarith [hy2.2, hr2.2]

/-! ## The receive loop -/

theorem content_length (s : State) (hw : s.wf) : s.content.length = s.gps_rx_buf_pos := by
  unfold State.content State.wf GPS_RX_BUF_SIZE at *
  simp
  omega

theorem rx_loop_append (s : State) (xs ys : List Nat) :
    rx_loop s (xs ++ ys) = (rx_loop s xs).bind (fun s1 => rx_loop s1 ys) := by
  induction xs generalizing s with
  | nil => simp [rx_loop]
  | cons x xs ih =>
      simp only [List.cons_append, rx_loop]
      cases rx_byte s x with
      | none => simp
      | some s1 => simpa using ih s1

/-- A data byte (neither CR nor LF) is stored at the cursor, or drops the line when the
cursor is at the last index; nothing but buffer and cursor changes. -/
theorem rx_byte_data (s : State) (c : Nat) (hw : s.wf) (hc : ¬ isTerminator c) :
    ∃ s1, rx_byte s c = some s1 ∧ s1.wf ∧ s1.content = accumulate s.content c ∧
      s1.rest = s.rest := by
  have hlen := content_length s hw
  obtain ⟨hb, hp⟩ := hw
  have hc10 : c ≠ 10 := fun h => hc (Or.inl h)
  have hc13 : c ≠ 13 := fun h => hc (Or.inr h)
  by_cases hlt : s.gps_rx_buf_pos < GPS_RX_BUF_SIZE - 1
  · have hin : s.gps_rx_buf_pos < s.gps_rx_buf.length := by
      rw [hb]; unfold GPS_RX_BUF_SIZE at *; omega
    refine ⟨{ s with gps_rx_buf := s.gps_rx_buf.set s.gps_rx_buf_pos c,
                     gps_rx_buf_pos := s.gps_rx_buf_pos + 1 }, ?_, ?_, ?_, rfl⟩
    · simp [rx_byte, hc10, hc13, hlt, store, hin]
    · constructor
      · simpa using hb
      · show s.gps_rx_buf_pos + 1 ≤ GPS_RX_BUF_SIZE - 1
        omega
    · unfold accumulate
      rw [hlen, if_pos hlt]
      exact take_succ_set _ _ _ hin
  · refine ⟨{ s with gps_rx_buf_pos := 0 }, ?_, ?_, ?_, rfl⟩
    · simp [rx_byte, hc10, hc13, hlt]
    · exact ⟨hb, Nat.zero_le _⟩
    · unfold accumulate
      rw [hlen, if_neg hlt]
      simp [State.content]

/-- A run of data bytes is accumulated byte by byte. -/
theorem rx_loop_data (run : List Nat) (s : State) (hw : s.wf)
    (hrun : ∀ b ∈ run, ¬ isTerminator b) :
    ∃ s1, rx_loop s run = some s1 ∧ s1.wf ∧ s1.content = run.foldl accumulate s.content ∧
      s1.rest = s.rest := by
  induction run generalizing s with
  | nil => exact ⟨s, rfl, hw, rfl, rfl⟩
  | cons c cs ih =>
      obtain ⟨s1, h1, hw1, hc1, hr1⟩ := rx_byte_data s c hw (hrun c (by simp))
      obtain ⟨s2, h2, hw2, hc2, hr2⟩ := ih s1 hw1 (fun b hb => hrun b (by simp [hb]))
      refine ⟨s2, ?_, hw2, ?_, hr2.trans hr1⟩
      · simp [rx_loop, h1, h2]
      · simp [hc2, hc1]

theorem wanted_cstr (a : List Nat) : wanted (cstr a) = wanted a := by
  simp [wanted, strstr, cstr_cstr]

theorem parse_nmea_cstr (g : gps_data) (a : List Nat) :
    parse_nmea g (cstr a) = parse_nmea g a := by
  simp [parse_nmea, parse_buf, strncpy, cstr_cstr]

/-- What `handle_line` does to everything but the buffer is decided by the C string held
in the buffer. -/
theorem handle_line_rest (s : State) :
    (handle_line s).rest =
      if wanted (cstr s.gps_rx_buf) then
        (if 10 ≤ (s.sentence_count + 1) % 2 ^ 32 then 0 else (s.sentence_count + 1) % 2 ^ 32,
          parse_nmea s.current_gps (cstr s.gps_rx_buf),
          if 10 ≤ (s.sentence_count + 1) % 2 ^ 32 then s.renders + 1 else s.renders,
          s.lines, s.parsed ++ [cstr s.gps_rx_buf])
      else s.rest := by
  unfold handle_line
  rw [wanted_cstr, parse_nmea_cstr]
  by_cases hwant : wanted s.gps_rx_buf = true
  · rw [if_pos hwant, if_pos hwant]
    by_cases hten : 10 ≤ (s.sentence_count + 1) % 2 ^ 32
    · simp only [if_pos hten]
      rfl
    · simp only [if_neg hten]
      rfl
  · rw [if_neg hwant, if_neg hwant]

theorem handle_line_buf (s : State) :
    (handle_line s).gps_rx_buf = s.gps_rx_buf ∧
      (handle_line s).gps_rx_buf_pos = s.gps_rx_buf_pos := by
  unfold handle_line print_gps_info
  by_cases hwant : wanted s.gps_rx_buf = true
  · rw [if_pos hwant]
    by_cases hten : 10 ≤ (s.sentence_count + 1) % 2 ^ 32
    · simp only [if_pos hten, and_self]
    · simp only [if_neg hten, and_self]
  · rw [if_neg hwant]
    exact ⟨rfl, rfl⟩

/-- A terminator at cursor 0 is ignored. -/
theorem rx_byte_term_empty (s : State) (t : Nat) (hp : s.gps_rx_buf_pos = 0) (ht : isTerminator t) :
    rx_byte s t = some s := by
  rcases ht with h | h <;> simp [rx_byte, hp, h]

/-- A terminator at a cursor above 0 completes the line `cstr s.content`, hands it to
`handle_line` and resets the cursor. -/
theorem rx_byte_term (s : State) (t : Nat) (hw : s.wf) (hp : 0 < s.gps_rx_buf_pos)
    (ht : isTerminator t) :
    ∃ s1, rx_byte s t = some s1 ∧ s1.wf ∧ s1.gps_rx_buf_pos = 0 ∧
      s1.rest = (handle_line { s with gps_rx_buf := cstr s.content,
                                      lines := s.lines ++ [cstr s.content] }).rest := by
  obtain ⟨hb, hpos⟩ := hw
  have hin : s.gps_rx_buf_pos < s.gps_rx_buf.length := by
    rw [hb]; unfold GPS_RX_BUF_SIZE at *; omega
  have hline : cstr (s.gps_rx_buf.set s.gps_rx_buf_pos 0) = cstr s.content :=
    cstr_set_nul _ _ hin
  have hcond : (t = 10 ∨ t = 13) ∧ 0 < s.gps_rx_buf_pos := ⟨ht, hp⟩
  refine ⟨{ handle_line { s with gps_rx_buf := s.gps_rx_buf.set s.gps_rx_buf_pos 0,
                                 lines := s.lines ++ [cstr (s.gps_rx_buf.set s.gps_rx_buf_pos 0)] }
              with gps_rx_buf_pos := 0 }, ?_, ?_, ?_, ?_⟩
  · unfold rx_byte
    rw [if_pos hcond]
    simp only [store, if_pos hin]
  · constructor
    · show (handle_line _).gps_rx_buf.length = GPS_RX_BUF_SIZE
      rw [(handle_line_buf _).1]
      simpa using hb
    · exact Nat.zero_le _
  · rfl
  · show (handle_line _).rest = (handle_line _).rest
    rw [handle_line_rest, handle_line_rest]
    simp only [hline, cstr_cstr]
    rfl

/-- In every state with a 256 byte buffer and a cursor of at most 255, each byte is processed
without a write outside the buffer and leaves such a state. -/
theorem rx_byte_wf (s : State) (c : Nat) (hw : s.wf) :
    ∃ s1, rx_byte s c = some s1 ∧ s1.wf := by
  by_cases ht : isTerminator c
  · by_cases hp : s.gps_rx_buf_pos = 0
    · exact ⟨s, rx_byte_term_empty s c hp ht, hw⟩
    · obtain ⟨s1, h1, hw1, _, _⟩ := rx_byte_term s c hw (Nat.pos_of_ne_zero hp) ht
      exact ⟨s1, h1, hw1⟩
  · obtain ⟨s1, h1, hw1, _, _⟩ := rx_byte_data s c hw ht
    exact ⟨s1, h1, hw1⟩

theorem rx_loop_wf (input : List Nat) (s : State) (hw : s.wf) :
    ∃ s1, rx_loop s input = some s1 ∧ s1.wf := by
  induction input generalizing s with
  | nil => exact ⟨s, rfl, hw⟩
  | cons c cs ih =>
      obtain ⟨s1, h1, hw1⟩ := rx_byte_wf s c hw
      obtain ⟨s2, h2, hw2⟩ := ih s1 hw1
      exact ⟨s2, by simp [rx_loop, h1, h2], hw2⟩

/-- Bytes that fit are accumulated unchanged. -/
theorem foldl_accumulate_fit (xs acc : List Nat)
    (h : acc.length + xs.length ≤ GPS_RX_BUF_SIZE - 1) :
    xs.foldl accumulate acc = acc ++ xs := by
  induction xs generalizing acc with
  | nil => simp
  | cons x xs ih =>
      have hx : acc.length < GPS_RX_BUF_SIZE - 1 := by
        simp only [List.length_cons] at h; omega
      simp only [List.foldl_cons, accumulate, if_pos hx]
      rw [ih]
      · simp
      · simp only [List.length_append, List.length_cons, List.length_nil] at h ⊢; omega

/-- From an empty line, a run of data bytes leaves what follows its last overflow: the run
without its first `256 * (n / 256)` bytes. -/
theorem foldl_accumulate_nil (run : List Nat) :
    run.foldl accumulate [] = run.drop (256 * (run.length / 256)) := by
  induction run using List.reverseRecOn with
  | nil => simp
  | append_singleton r c ih =>
      rw [List.foldl_append, ih]
      simp only [List.foldl_cons, List.foldl_nil, accumulate, List.length_drop,
        List.length_append, List.length_cons, List.length_nil, GPS_RX_BUF_SIZE]
      by_cases hlt : r.length - 256 * (r.length / 256) < 256 - 1
      · rw [if_pos hlt]
        have hq : (r.length + (0 + 1)) / 256 = r.length / 256 := by omega
        rw [hq, List.drop_append_of_le_length (by omega)]
      · rw [if_neg hlt]
        symm
        apply List.drop_eq_nil_of_le
        simp only [List.length_append, List.length_cons, List.length_nil]
        omega

theorem length_drop_overflow (run : List Nat) :
    (run.drop (256 * (run.length / 256))).length = run.length % 256 := by
  simp only [List.length_drop]
  omega

/-! ## `strstr` and the classification of a sentence -/

theorem strstrFrom_zero_iff (needle hay : List Nat) :
    strstrFrom needle hay = some 0 ↔ needle <+: hay := by
  cases hay with
  | nil => simp [strstrFrom]
  | cons h t =>
      unfold strstrFrom
      by_cases hp : needle.isPrefixOf (h :: t) = true
      · simp [hp, List.isPrefixOf_iff_prefix.mp hp]
      · rw [if_neg hp]
        have hn : ¬ needle <+: h :: t := fun hpre => hp (List.isPrefixOf_iff_prefix.mpr hpre)
        simp [hn]

theorem strstrFrom_none_not_prefix (needle hay : List Nat)
    (h : (strstrFrom needle hay).isSome = false) : ¬ needle <+: hay := by
  intro hpre
  rw [← strstrFrom_zero_iff] at hpre
  simp [hpre] at h

theorem strstr_zero_iff (hay needle : List Nat) :
    strstr hay needle = some 0 ↔ cstr needle <+: cstr hay :=
  strstrFrom_zero_iff _ _

theorem cstr_GNGGA : cstr GNGGA = GNGGA := by decide
theorem cstr_GPGGA : cstr GPGGA = GPGGA := by decide
theorem cstr_GNRMC : cstr GNRMC = GNRMC := by decide
theorem cstr_GPRMC : cstr GPRMC = GPRMC := by decide

theorem sentence_kind_cstr (buf : List Nat) : sentence_kind (cstr buf) = sentence_kind buf := by
  simp [sentence_kind, strstr, cstr_cstr]

/-- The local `buf` of `parse_nmea` holds the sentence cut to 255 bytes. -/
theorem cstr_parse_buf (sentence : List Nat) :
    cstr (parse_buf sentence) = (cstr sentence).take 255 := by
  have hnn : ∀ b ∈ (cstr sentence).take 255, b ≠ 0 :=
    fun b hb => cstr_no_nul sentence b (List.mem_of_mem_take hb)
  unfold parse_buf strncpy GPS_RX_BUF_SIZE
  rw [cstr_set_nul]
  · have htake : (List.take (256 - 1) (cstr sentence) ++
          List.replicate (256 - 1 - (cstr sentence).length) 0 ++
          List.drop (256 - 1) (List.replicate 256 0)).take (256 - 1) =
        List.take 255 (cstr sentence) ++ List.replicate (255 - (cstr sentence).length) 0 := by
      rw [List.take_append_of_le_length]
      · apply List.take_of_length_le
        simp
        omega
      · simp
        omega
    rw [htake]
    cases hk : 255 - (cstr sentence).length with
    | zero => simpa using cstr_of_no_nul _ hnn
    | succ k =>
        rw [List.replicate_succ, cstr_append_nul]
        exact cstr_of_no_nul _ hnn
  · simp only [List.length_append, List.length_take, List.length_replicate, List.length_drop]
    omega

/-- The function `parse_nmea` in terms of the sentence text `L` it works on, the C string of
its argument cut to 255 bytes. -/
theorem parse_nmea_eq (g : gps_data) (sentence : List Nat) :
    parse_nmea g sentence =
      match sentence_kind ((cstr sentence).take 255) with
      | SentenceKind.gga =>
          token_loop gga_case 15 0 (strtok_r ((cstr sentence).take 255) [44]).1
            (strtok_r ((cstr sentence).take 255) [44]).2 g
      | SentenceKind.rmc =>
          token_loop rmc_case 10 0 (strtok_r ((cstr sentence).take 255) [44]).1
            (strtok_r ((cstr sentence).take 255) [44]).2 g
      | SentenceKind.other => g := by
  unfold parse_nmea
  simp only [cstr_parse_buf]
  rw [← sentence_kind_cstr, cstr_parse_buf]

theorem starts_cstr_take (p s : List Nat) (hp : ∀ b ∈ p, b ≠ 0) (hlen : p.length ≤ 255) :
    p <+: (cstr s).take 255 ↔ p <+: s := by
  rw [List.prefix_take_iff]
  constructor
  · rintro ⟨h, _⟩
    exact h.trans (List.takeWhile_prefix _)
  · rintro ⟨r, rfl⟩
    refine ⟨?_, hlen⟩
    unfold cstr
    rw [List.takeWhile_append_of_pos (by simpa using hp)]
    exact List.prefix_append _ _

theorem no_nul_take (s : List Nat) : ∀ b ∈ (cstr s).take 255, b ≠ 0 :=
  fun b hb => cstr_no_nul s b (List.mem_of_mem_take hb)

/-- A sentence takes the GGA branch exactly when it starts with one of the GGA identifiers. -/
theorem sentence_kind_gga_iff (s : List Nat) :
    sentence_kind ((cstr s).take 255) = SentenceKind.gga ↔ (GNGGA <+: s ∨ GPGGA <+: s) := by
  have hc : cstr ((cstr s).take 255) = (cstr s).take 255 := cstr_of_no_nul _ (no_nul_take s)
  have h1 := starts_cstr_take GNGGA s (by decide) (by decide)
  have h2 := starts_cstr_take GPGGA s (by decide) (by decide)
  unfold sentence_kind
  simp only [strstr_zero_iff, hc, cstr_GNGGA, cstr_GPGGA, h1, h2]
  by_cases h : GNGGA <+: s ∨ GPGGA <+: s
  · simp [h]
  · rw [if_neg h]
    simp only [h, iff_false]
    split <;> simp

/-- A sentence takes the RMC branch exactly when it starts with one of the RMC identifiers. -/
theorem sentence_kind_rmc_iff (s : List Nat) :
    sentence_kind ((cstr s).take 255) = SentenceKind.rmc ↔ (GNRMC <+: s ∨ GPRMC <+: s) := by
  have hc : cstr ((cstr s).take 255) = (cstr s).take 255 := cstr_of_no_nul _ (no_nul_take s)
  have h1 := starts_cstr_take GNGGA s (by decide) (by decide)
  have h2 := starts_cstr_take GPGGA s (by decide) (by decide)
  have h3 := starts_cstr_take GNRMC s (by decide) (by decide)
  have h4 := starts_cstr_take GPRMC s (by decide) (by decide)
  unfold sentence_kind
  simp only [strstr_zero_iff, hc, cstr_GNGGA, cstr_GPGGA, cstr_GNRMC, cstr_GPRMC, h1, h2, h3, h4]
  by_cases hg : GNGGA <+: s ∨ GPGGA <+: s
  · rw [if_pos hg]
    have hex : ∀ a b : List Nat, a <+: s → b <+: s → a.length = b.length → a = b :=
      fun a b ha hb hl =>
        (List.prefix_of_prefix_length_le ha hb (le_of_eq hl)).eq_of_length hl
    constructor
    · intro h
      cases h
    · intro hr
      exfalso
      rcases hr with hr | hr <;> rcases hg with hg | hg <;>
        exact absurd (hex _ _ hr hg (by decide)) (by decide)
  · rw [if_neg hg]
    by_cases hr : GNRMC <+: s ∨ GPRMC <+: s
    · simp [hr]
    · simp [hr]

/-- A sentence that starts with none of the four identifiers is not touched by `parse_nmea`. -/
theorem parse_nmea_other (g : gps_data) (s : List Nat) (h1 : ¬ GNGGA <+: s)
    (h2 : ¬ GPGGA <+: s) (h3 : ¬ GNRMC <+: s) (h4 : ¬ GPRMC <+: s) : parse_nmea g s = g := by
  rw [parse_nmea_eq]
  have hg := sentence_kind_gga_iff s
  have hr := sentence_kind_rmc_iff s
  cases hk : sentence_kind ((cstr s).take 255) with
  | gga => exact absurd (hg.mp hk) (by simp [h1, h2])
  | rmc => exact absurd (hr.mp hk) (by simp [h3, h4])
  | other => rfl

/-- A line in which none of the four identifiers occurs is one that `parse_nmea` ignores. -/
theorem parse_nmea_not_wanted (g : gps_data) (l : List Nat) (h : wanted l = false) :
    parse_nmea g l = g := by
  simp only [wanted, Bool.or_eq_false_iff] at h
  obtain ⟨⟨⟨a1, a2⟩, a3⟩, a4⟩ := h
  rw [← parse_nmea_cstr]
  apply parse_nmea_other
  · have := strstrFrom_none_not_prefix _ _ a1
    rwa [cstr_GNGGA] at this
  · have := strstrFrom_none_not_prefix _ _ a2
    rwa [cstr_GPGGA] at this
  · have := strstrFrom_none_not_prefix _ _ a3
    rwa [cstr_GNRMC] at this
  · have := strstrFrom_none_not_prefix _ _ a4
    rwa [cstr_GPRMC] at this

/-- A run of data bytes followed by a terminator, from any state: the line in progress is
completed (or, when it is empty, the terminator is ignored) and the cursor is 0. -/
theorem rx_loop_run_term (s : State) (hw : s.wf) (run : List Nat)
    (hrun : ∀ b ∈ run, ¬ isTerminator b) (t : Nat) (ht : isTerminator t) :
    ∃ s1, rx_loop s (run ++ [t]) = some s1 ∧ s1.wf ∧ s1.gps_rx_buf_pos = 0 ∧
      s1.rest =
        if run.foldl accumulate s.content = [] then s.rest
        else (handle_line { s with gps_rx_buf := cstr (run.foldl accumulate s.content),
                                   lines := s.lines ++ [cstr (run.foldl accumulate s.content)] }).rest := by
  obtain ⟨s0, h0, hw0, hc0, hr0⟩ := rx_loop_data run s hw hrun
  have hlen := content_length s0 hw0
  rw [rx_loop_append, h0]
  simp only [Option.some_bind, rx_loop]
  by_cases hp : s0.gps_rx_buf_pos = 0
  · refine ⟨s0, by rw [rx_byte_term_empty s0 t hp ht], hw0, hp, ?_⟩
    have : run.foldl accumulate s.content = [] := by
      rw [← hc0]
      exact List.length_eq_zero.mp (hlen.trans hp)
    rw [if_pos this, hr0]
  · obtain ⟨s1, h1, hw1, hp1, hr1⟩ := rx_byte_term s0 t hw0 (Nat.pos_of_ne_zero hp) ht
    refine ⟨s1, by rw [h1], hw1, hp1, ?_⟩
    have hne : ¬ run.foldl accumulate s.content = [] := by
      rw [← hc0]
      intro h
      exact hp (hlen.symm.trans (by simp [h]))
    rw [if_neg hne, hr1, handle_line_rest, handle_line_rest, hc0]
    simp only [State.rest, Prod.mk.injEq] at hr0
    obtain ⟨e1, e2, e3, e4, e5⟩ := hr0
    simp only [e1, e2, e3, e4, e5, State.rest]

/-! ## The line buffer: bound, overflow and recovery -/

/-- C1. Line-buffer bound invariant: from cursor 0 and for every byte sequence, after every
byte (after each prefix `input.take k`) the receive loop has made no write outside the
256 byte buffer (its result is `some`) and the cursor is at most `GPS_RX_BUF_SIZE - 1`, so
the next write, at the cursor, is inside the buffer as well. -/
theorem cursor_within_buffer (s : State) (hbuf : s.gps_rx_buf.length = GPS_RX_BUF_SIZE)
    (hpos : s.gps_rx_buf_pos = 0) (input : List Nat) (k : Nat) :
    ∃ s1, rx_loop s (input.take k) = some s1 ∧ s1.gps_rx_buf_pos ≤ GPS_RX_BUF_SIZE - 1 ∧
      s1.gps_rx_buf.length = GPS_RX_BUF_SIZE := by
  have hw : s.wf := ⟨hbuf, by rw [hpos]; exact Nat.zero_le _⟩
  obtain ⟨s1, h1, hw1⟩ := rx_loop_wf (input.take k) s hw
  exact ⟨s1, h1, hw1.2, hw1.1⟩

theorem init_wf : State.init.wf := by
  constructor
  · simp [State.init]
  · exact Nat.zero_le _

/-- C1, at the initial state with 300 data bytes and a terminator, after 299 bytes. -/
theorem cursor_within_buffer_witness :
    State.init.gps_rx_buf.length = GPS_RX_BUF_SIZE ∧ State.init.gps_rx_buf_pos = 0 ∧
      ∃ s1, rx_loop State.init ((List.replicate 300 120 ++ [10]).take 299) = some s1 ∧
        s1.gps_rx_buf_pos ≤ GPS_RX_BUF_SIZE - 1 ∧ s1.gps_rx_buf.length = GPS_RX_BUF_SIZE :=
  ⟨init_wf.1, rfl, cursor_within_buffer State.init init_wf.1 rfl _ 299⟩

/-- C2. Overflow never corrupts the next line: after a run of 256 or more data bytes and a
terminator, a sentence `snt` of 1 to 255 bytes without terminator or NUL, followed by a
terminator, is completed as the line `snt`, and the fix record becomes `parse_nmea` of `snt`
applied to the record as it stood before the first byte of `snt`. -/
theorem overflow_keeps_next_line (s : State) (hw : s.wf) (run : List Nat)
    (hrun : ∀ b ∈ run, ¬ isTerminator b) (_hlong : 256 ≤ run.length) (t : Nat)
    (ht : isTerminator t) (snt : List Nat) (hne : 1 ≤ snt.length) (hfit : snt.length ≤ 255)
    (hsnt : ∀ b ∈ snt, ¬ isTerminator b ∧ b ≠ 0) (t2 : Nat) (ht2 : isTerminator t2) :
    ∃ s1 s2, rx_loop s (run ++ [t]) = some s1 ∧ rx_loop s1 (snt ++ [t2]) = some s2 ∧
      rx_loop s ((run ++ [t]) ++ (snt ++ [t2])) = some s2 ∧
      s2.lines = s1.lines ++ [snt] ∧
      s2.parsed = (if wanted snt then s1.parsed ++ [snt] else s1.parsed) ∧
      s2.current_gps = parse_nmea s1.current_gps snt := by
  obtain ⟨s1, h1, hw1, hp1, _⟩ := rx_loop_run_term s hw run hrun t ht
  obtain ⟨s2, h2, _, _, hr2⟩ := rx_loop_run_term s1 hw1 snt (fun b hb => (hsnt b hb).1) t2 ht2
  have hc1 : s1.content = [] := by simp [State.content, hp1]
  have hacc : snt.foldl accumulate s1.content = snt := by
    rw [hc1, foldl_accumulate_fit]
    · simp
    · simpa [GPS_RX_BUF_SIZE] using hfit
  have hnil : ¬ snt = [] := by
    intro h
    rw [h] at hne
    simp at hne
  have hcs : cstr snt = snt := cstr_of_no_nul snt (fun b hb => (hsnt b hb).2)
  rw [hacc, if_neg hnil, handle_line_rest, hcs] at hr2
  simp only [cstr_cstr, hcs] at hr2
  refine ⟨s1, s2, h1, h2, ?_, ?_⟩
  · rw [rx_loop_append, h1]
    simpa using h2
  · by_cases hwant : wanted snt = true
    · rw [if_pos hwant] at hr2
      simp only [State.rest, Prod.mk.injEq] at hr2
      obtain ⟨_, e2, _, e4, e5⟩ := hr2
      exact ⟨e4, by rw [if_pos hwant]; exact e5, e2⟩
    · rw [if_neg hwant] at hr2
      simp only [State.rest, Prod.mk.injEq] at hr2
      obtain ⟨_, e2, _, e4, e5⟩ := hr2
      have hw2 : wanted snt = false := by simpa using hwant
      exact ⟨e4, by rw [if_neg hwant]; exact e5, by rw [e2, parse_nmea_not_wanted _ _ hw2]⟩

theorem replicate_long : 256 ≤ (List.replicate 256 120).length := by
  rw [List.length_replicate]

theorem replicate_data (n : Nat) : ∀ b ∈ List.replicate n 120, ¬ isTerminator b := by
  intro b hb
  rw [List.eq_of_mem_replicate hb]
  decide

/-- C2, at the initial state: 256 bytes `x`, LF, then `$GPGGA,123519` and CR. -/
theorem overflow_keeps_next_line_witness :
    ∃ s1 s2, rx_loop State.init (List.replicate 256 120 ++ [10]) = some s1 ∧
      rx_loop s1 (bytes "$GPGGA,123519" ++ [13]) = some s2 ∧
      rx_loop State.init
        ((List.replicate 256 120 ++ [10]) ++ (bytes "$GPGGA,123519" ++ [13])) = some s2 ∧
      s2.lines = s1.lines ++ [bytes "$GPGGA,123519"] ∧
      s2.parsed = (if wanted (bytes "$GPGGA,123519") then s1.parsed ++ [bytes "$GPGGA,123519"]
        else s1.parsed) ∧
      s2.current_gps = parse_nmea s1.current_gps (bytes "$GPGGA,123519") :=
  overflow_keeps_next_line State.init init_wf (List.replicate 256 120) (replicate_data 256)
    replicate_long 10 (Or.inl rfl) (bytes "$GPGGA,123519") (by decide) (by decide) (by decide) 13
    (Or.inr rfl)

/-- C3 as stated fails: 256 bytes `x` directly followed by `$GPGGA,123519` are one run of 269
data bytes from cursor 0; at the terminator its last 13 bytes are parsed as a sentence, the
time of the fix record becomes `12:35:19` and the sentence counter becomes 1. -/
theorem overlong_tail_is_parsed :
    State.init.gps_rx_buf_pos = 0 ∧
    256 ≤ (List.replicate 256 120 ++ bytes "$GPGGA,123519").length ∧
    (∀ b ∈ List.replicate 256 120 ++ bytes "$GPGGA,123519", ¬ isTerminator b) ∧
    ∃ s1, rx_loop State.init ((List.replicate 256 120 ++ bytes "$GPGGA,123519") ++ [10]) = some s1 ∧
      s1.parsed = [bytes "$GPGGA,123519"] ∧
      State.init.sentence_count = 0 ∧ s1.sentence_count = 1 ∧
      cstr State.init.current_gps.time = [] ∧
      cstr s1.current_gps.time = bytes "12:35:19" := by
  have hdata : ∀ b ∈ List.replicate 256 120 ++ bytes "$GPGGA,123519", ¬ isTerminator b := by
    intro b hb
    rcases List.mem_append.mp hb with h | h
    · exact replicate_data 256 b h
    · exact (by decide : ∀ b ∈ bytes "$GPGGA,123519", ¬ isTerminator b) b h
  have hl : (bytes "$GPGGA,123519").length = 13 := by decide
  refine ⟨rfl, by rw [List.length_append, List.length_replicate, hl]; omega, hdata, ?_⟩
  obtain ⟨s1, h1, _, _, hr1⟩ := rx_loop_run_term State.init init_wf _ hdata 10 (Or.inl rfl)
  have hc : State.init.content = [] := rfl
  have hacc : (List.replicate 256 120 ++ bytes "$GPGGA,123519").foldl accumulate [] =
      bytes "$GPGGA,123519" := by
    rw [foldl_accumulate_nil]
    simp only [List.length_append, List.length_replicate, hl]
    exact List.drop_left' (by rw [List.length_replicate])
  have hne : ¬ bytes "$GPGGA,123519" = [] := by decide
  have hcs : cstr (bytes "$GPGGA,123519") = bytes "$GPGGA,123519" := by decide
  have hwant : wanted (bytes "$GPGGA,123519") = true := by decide
  have htime : cstr (parse_nmea gps_zero (bytes "$GPGGA,123519")).time = bytes "12:35:19" := by
    rw [parse_nmea_eq]
    decide
  rw [hc, hacc, if_neg hne, handle_line_rest] at hr1
  simp only [cstr_cstr, hcs, hwant, if_true, State.rest, Prod.mk.injEq] at hr1
  obtain ⟨e1, e2, _, _, e5⟩ := hr1
  refine ⟨s1, h1, ?_, rfl, ?_, by decide, ?_⟩
  · rw [e5]; rfl
  · rw [e1]; decide
  · rw [e2]; exact htime

/-- C3, amended. From cursor 0, a run of `n ≥ 256` data bytes followed by a terminator: the
only text that can reach the parser is what is left of the run after its first
`256 * (n / 256)` bytes; when none of the four identifiers occurs in that remainder the fix
record and the sentence counter are as before the run, and when `n` is a multiple of 256
nothing at all changes but the buffer. -/
theorem overlong_run_keeps_only_tail (s : State) (hw : s.wf) (hp : s.gps_rx_buf_pos = 0)
    (run : List Nat) (hrun : ∀ b ∈ run, ¬ isTerminator b) (_hlong : 256 ≤ run.length)
    (t : Nat) (ht : isTerminator t) :
    ∃ s1, rx_loop s (run ++ [t]) = some s1 ∧ s1.gps_rx_buf_pos = 0 ∧
      (s1.parsed = s.parsed ∨
        s1.parsed = s.parsed ++ [cstr (run.drop (256 * (run.length / 256)))]) ∧
      (wanted (run.drop (256 * (run.length / 256))) = false →
        s1.current_gps = s.current_gps ∧ s1.sentence_count = s.sentence_count) ∧
      (run.length % 256 = 0 → s1.rest = s.rest) := by
  obtain ⟨s1, h1, _, hp1, hr1⟩ := rx_loop_run_term s hw run hrun t ht
  have hc : s.content = [] := by simp [State.content, hp]
  rw [hc, foldl_accumulate_nil] at hr1
  refine ⟨s1, h1, hp1, ?_, ?_, ?_⟩
  · by_cases hnil : run.drop (256 * (run.length / 256)) = []
    · rw [if_pos hnil] at hr1
      simp only [State.rest, Prod.mk.injEq] at hr1
      exact Or.inl hr1.2.2.2.2
    · rw [if_neg hnil, handle_line_rest] at hr1
      simp only [cstr_cstr] at hr1
      by_cases hwant : wanted (cstr (run.drop (256 * (run.length / 256)))) = true
      · rw [if_pos hwant] at hr1
        simp only [State.rest, Prod.mk.injEq] at hr1
        exact Or.inr hr1.2.2.2.2
      · rw [if_neg hwant] at hr1
        simp only [State.rest, Prod.mk.injEq] at hr1
        exact Or.inl hr1.2.2.2.2
  · intro hnot
    by_cases hnil : run.drop (256 * (run.length / 256)) = []
    · rw [if_pos hnil] at hr1
      simp only [State.rest, Prod.mk.injEq] at hr1
      exact ⟨hr1.2.1, hr1.1⟩
    · rw [if_neg hnil, handle_line_rest] at hr1
      simp only [cstr_cstr, wanted_cstr, hnot, Bool.false_eq_true, if_false, State.rest,
        Prod.mk.injEq] at hr1
      exact ⟨hr1.2.1, hr1.1⟩
  · intro hmod
    have hnil : run.drop (256 * (run.length / 256)) = [] := by
      apply List.drop_eq_nil_of_le
      omega
    rw [if_pos hnil] at hr1
    exact hr1

/-- C3 amended, at the initial state with 256 bytes `x` and LF: nothing is parsed. -/
theorem overlong_run_keeps_only_tail_witness :
    ∃ s1, rx_loop State.init (List.replicate 256 120 ++ [10]) = some s1 ∧
      s1.gps_rx_buf_pos = 0 ∧
      (s1.parsed = State.init.parsed ∨
        s1.parsed = State.init.parsed ++
          [cstr ((List.replicate 256 120).drop (256 * ((List.replicate 256 120).length / 256)))]) ∧
      (wanted ((List.replicate 256 120).drop (256 * ((List.replicate 256 120).length / 256))) = false →
        s1.current_gps = State.init.current_gps ∧
          s1.sentence_count = State.init.sentence_count) ∧
      ((List.replicate 256 120).length % 256 = 0 → s1.rest = State.init.rest) :=
  overlong_run_keeps_only_tail State.init init_wf rfl (List.replicate 256 120)
    (replicate_data 256) replicate_long 10 (Or.inl rfl)

/-! ## Tokens and comma-separated fields -/

theorem splitComma_eq (s : List Nat) :
    splitComma s = s.takeWhile (fun b => b != 44) ::
      (match s.dropWhile (fun b => b != 44) with
        | [] => []
        | _ :: r => splitComma r) := by
  induction s with
  | nil => simp [splitComma]
  | cons c cs ih =>
      by_cases hc : c = 44
      · simp [splitComma, hc]
      · rw [splitComma, if_neg hc, ih]
        simp [hc]

theorem splitComma_ne_nil (s : List Nat) : splitComma s ≠ [] := by
  rw [splitComma_eq]
  simp

theorem strtok_r_nil : strtok_r [] [44] = (none, []) := rfl

/-- On a text whose first field is not empty, `strtok_r` returns that field and leaves the
text behind the comma that ends it. -/
theorem strtok_r_split (s f : List Nat) (fs : List (List Nat)) (h : splitComma s = f :: fs)
    (hf : f ≠ []) :
    (strtok_r s [44]).1 = some f ∧ Remaining (strtok_r s [44]).2 fs := by
  rw [splitComma_eq] at h
  simp only [List.cons.injEq] at h
  obtain ⟨h1, h2⟩ := h
  cases s with
  | nil => simp at h1; exact absurd h1 hf
  | cons c r =>
      have hc : c ≠ 44 := by
        intro hc
        rw [hc] at h1
        simp at h1
        exact hf h1
      have hd : (c :: r).dropWhile (fun x => [44].contains x) = c :: r := by
        simp [hc]
      have hdel : (fun b : Nat => !([44].contains b)) = (fun b => b != 44) := by
        funext b
        by_cases hb : b = 44 <;> simp [hb]
      unfold strtok_r
      rw [hd]
      simp only [hdel]
      refine ⟨by rw [h1], ?_⟩
      cases hdw : (c :: r).dropWhile (fun b => b != 44) with
      | nil =>
          rw [hdw] at h2
          exact Or.inl ⟨h2.symm, rfl⟩
      | cons x rest =>
          rw [hdw] at h2
          simp only at h2
          refine Or.inr ⟨?_, ?_⟩
          · rw [← h2]; exact splitComma_ne_nil rest
          · simpa using h2

theorem token_loop_none (body : gps_data → Nat → List Nat → gps_data) (n field : Nat)
    (sp : List Nat) (g : gps_data) : token_loop body n field none sp g = g := by
  cases n <;> rfl

/-- The last token of a text: the loop runs its body once and ends. -/
theorem token_loop_last (body : gps_data → Nat → List Nat → gps_data) (n field : Nat)
    (tok : List Nat) (g : gps_data) :
    token_loop body (n + 1) field (some tok) [] g = body g field tok := by
  rw [token_loop, strtok_r_nil, token_loop_none]

/-- While the fields that follow are not empty, the tokens of the loop are the fields: after
the token `tok` and the non-empty fields `mid`, the loop holds the field `last` as its
token, has applied the body to `tok :: mid`, and is left with the fields `rest`. -/
theorem token_loop_fields (body : gps_data → Nat → List Nat → gps_data)
    (mid : List (List Nat)) (last : List Nat) (rest : List (List Nat)) (n : Nat) :
    ∀ (tok sp : List Nat) (g : gps_data) (field : Nat),
      (∀ f ∈ mid, f ≠ []) → last ≠ [] → Remaining sp (mid ++ last :: rest) →
      ∃ sp1, Remaining sp1 rest ∧
        token_loop body (n + (mid.length + 1)) field (some tok) sp g =
          token_loop body n (field + (mid.length + 1)) (some last) sp1
            (apply_fields body g field (tok :: mid)) := by
  induction mid with
  | nil =>
      intro tok sp g field _ hlast hrem
      rcases hrem with ⟨h, _⟩ | ⟨_, h⟩
      · simp at h
      · obtain ⟨h1, h2⟩ := strtok_r_split sp last rest (by simpa using h) hlast
        refine ⟨(strtok_r sp [44]).2, h2, ?_⟩
        simp only [List.length_nil, Nat.zero_add, apply_fields]
        rw [token_loop, h1]
  | cons m mid ih =>
      intro tok sp g field hmid hlast hrem
      rcases hrem with ⟨h, _⟩ | ⟨_, h⟩
      · simp at h
      · obtain ⟨h1, h2⟩ := strtok_r_split sp m (mid ++ last :: rest) (by simpa using h)
          (hmid m (by simp))
        obtain ⟨sp1, hr1, heq⟩ := ih m (strtok_r sp [44]).2 (body g field tok) (field + 1)
          (fun f hf => hmid f (by simp [hf])) hlast h2
        refine ⟨sp1, hr1, ?_⟩
        have hn : n + ((m :: mid).length + 1) = (n + (mid.length + 1)) + 1 := by
          simp only [List.length_cons]; omega
        have hfld : field + ((m :: mid).length + 1) = field + 1 + (mid.length + 1) := by
          simp only [List.length_cons]; omega
        rw [hn, token_loop, h1, heq, hfld]
        rfl

/-- A component of the record that the body leaves alone from field `k` on is left alone by
the loop started at a field from `k` on. -/
theorem token_loop_frame {α : Type} (proj : gps_data → α)
    (body : gps_data → Nat → List Nat → gps_data) (k : Nat)
    (hbody : ∀ (g : gps_data) (i : Nat) (tok : List Nat), k ≤ i → proj (body g i tok) = proj g)
    (n : Nat) :
    ∀ (field : Nat) (tok : Option (List Nat)) (sp : List Nat) (g : gps_data), k ≤ field →
      proj (token_loop body n field tok sp g) = proj g := by
  induction n with
  | zero => intro field tok sp g _; rfl
  | succ n ih =>
      intro field tok sp g hk
      cases tok with
      | none => rfl
      | some t =>
          rw [token_loop, ih _ _ _ _ (Nat.le_succ_of_le hk), hbody g field t hk]

theorem apply_fields_append (body : gps_data → Nat → List Nat → gps_data)
    (xs : List (List Nat)) (y : List Nat) :
    ∀ (g : gps_data) (field : Nat),
      apply_fields body g field (xs ++ [y]) =
        body (apply_fields body g field xs) (field + xs.length) y := by
  induction xs with
  | nil => intro g field; simp [apply_fields]
  | cons x xs ih =>
      intro g field
      have hidx : field + 1 + xs.length = field + (xs.length + 1) := by omega
      rw [List.cons_append, apply_fields, ih, apply_fields, List.length_cons, hidx]

/-- A component of the record that the body leaves alone at the indices `field .. field +
length - 1` is left alone by the handling of these fields. -/
theorem apply_fields_frame {α : Type} (proj : gps_data → α)
    (body : gps_data → Nat → List Nat → gps_data) (fs : List (List Nat)) :
    ∀ (g : gps_data) (field : Nat),
      (∀ (g1 : gps_data) (i : Nat) (tok : List Nat), field ≤ i → i < field + fs.length →
        proj (body g1 i tok) = proj g1) →
      proj (apply_fields body g field fs) = proj g := by
  induction fs with
  | nil => intro g field _; rfl
  | cons f fs ih =>
      intro g field h
      rw [apply_fields, ih]
      · exact h g field f (Nat.le_refl _) (by simp)
      · intro g1 i tok h1 h2
        exact h g1 i tok (by omega) (by simp only [List.length_cons]; omega)

/-- When the first field and the fields `fs` after it are all non-empty and fewer than
`bound`, the loop of `parse_nmea` handles exactly these fields, each at its own index. -/
theorem token_loop_all_fields (body : gps_data → Nat → List Nat → gps_data) (bound : Nat)
    (s f0 : List Nat) (fs : List (List Nat)) (g : gps_data) (hs : splitComma s = f0 :: fs)
    (h0 : f0 ≠ []) (hfs : ∀ f ∈ fs, f ≠ []) (hlen : fs.length < bound) :
    token_loop body bound 0 (strtok_r s [44]).1 (strtok_r s [44]).2 g =
      apply_fields body g 0 (f0 :: fs) := by
  obtain ⟨h1, h2⟩ := strtok_r_split s f0 fs hs h0
  rw [h1]
  rcases List.eq_nil_or_concat fs with hnil | ⟨mid, last, hcat⟩
  · subst hnil
    rcases h2 with ⟨_, h⟩ | ⟨h, _⟩
    · rw [h]
      obtain ⟨n, rfl⟩ : ∃ n, bound = n + 1 := ⟨bound - 1, by simp at hlen; omega⟩
      rw [token_loop_last]
      rfl
    · exact absurd rfl h
  · rw [List.concat_eq_append] at hcat
    subst hcat
    have hlen2 : mid.length + 1 < bound := by simpa using hlen
    obtain ⟨n, rfl⟩ : ∃ n, bound = (n + 1) + (mid.length + 1) :=
      ⟨bound - (mid.length + 1) - 1, by omega⟩
    obtain ⟨sp1, hr1, heq⟩ := token_loop_fields body mid last [] (n + 1) f0
      (strtok_r s [44]).2 g 0 (fun f hf => hfs f (by simp [hf])) (hfs last (by simp))
      (by simpa using h2)
    rw [heq]
    rcases hr1 with ⟨_, h⟩ | ⟨h, _⟩
    · rw [h, token_loop_last, ← List.cons_append, apply_fields_append]
      simp
    · exact absurd rfl h

/-- When the first field, the fields `mid` and the field `last` are non-empty and within the
bound, a component of the record that the body leaves alone at the later indices is the one
obtained by handling exactly these fields, each at its own index, whatever follows. -/
theorem token_loop_prefix {α : Type} (proj : gps_data → α)
    (body : gps_data → Nat → List Nat → gps_data) (bound : Nat) (s f0 : List Nat)
    (mid : List (List Nat)) (last : List Nat) (rest : List (List Nat)) (g : gps_data)
    (hs : splitComma s = f0 :: (mid ++ last :: rest)) (h0 : f0 ≠ [])
    (hmid : ∀ f ∈ mid, f ≠ []) (hlast : last ≠ []) (hb : mid.length + 1 < bound)
    (hbody : ∀ (g1 : gps_data) (i : Nat) (tok : List Nat), mid.length + 2 ≤ i →
      proj (body g1 i tok) = proj g1) :
    proj (token_loop body bound 0 (strtok_r s [44]).1 (strtok_r s [44]).2 g) =
      proj (apply_fields body g 0 ((f0 :: mid) ++ [last])) := by
  obtain ⟨h1, h2⟩ := strtok_r_split s f0 _ hs h0
  obtain ⟨n, rfl⟩ : ∃ n, bound = (n + 1) + (mid.length + 1) :=
    ⟨bound - (mid.length + 1) - 1, by omega⟩
  obtain ⟨sp1, _, heq⟩ := token_loop_fields body mid last rest (n + 1) f0
    (strtok_r s [44]).2 g 0 hmid hlast h2
  rw [h1, heq, token_loop,
    token_loop_frame proj body (mid.length + 2) hbody n _ _ _ _ (by omega),
    apply_fields_append]
  simp

theorem mem_splitComma (s : List Nat) :
    ∀ f ∈ splitComma s, ∀ b ∈ f, b ∈ s := by
  induction s with
  | nil => simp [splitComma]
  | cons c cs ih =>
      intro f hf b hb
      by_cases hc : c = 44
      · rw [splitComma, if_pos hc] at hf
        rcases List.mem_cons.mp hf with h | h
        · rw [h] at hb; simp at hb
        · exact List.mem_cons_of_mem _ (ih f h b hb)
      · rw [splitComma, if_neg hc] at hf
        cases hsc : splitComma cs with
        | nil => exact absurd hsc (splitComma_ne_nil cs)
        | cons x xs =>
            rw [hsc] at hf ih
            simp only [List.mem_cons] at hf
            rcases hf with h | h
            · rw [h] at hb
              rcases List.mem_cons.mp hb with hb1 | hb1
              · rw [hb1]; simp
              · exact List.mem_cons_of_mem _ (ih x (by simp) b hb1)
            · exact List.mem_cons_of_mem _ (ih f (by simp [h]) b hb)

/-- The first field of a sentence that starts with `$` is not empty. -/
theorem first_field_ne_nil (s p f0 : List Nat) (fs : List (List Nat)) (hp : (36 :: p) <+: s)
    (hs : splitComma s = f0 :: fs) : f0 ≠ [] := by
  obtain ⟨r, rfl⟩ := hp
  rw [splitComma_eq] at hs
  simp only [List.cons.injEq] at hs
  rw [← hs.1]
  simp

/-- A sentence, as the line buffer delivers it: at most 255 bytes, none of them NUL.  Such a
sentence is the text `parse_nmea` works on. -/
theorem parse_text (s : List Nat) (hlen : s.length ≤ 255) (hnul : ∀ b ∈ s, b ≠ 0) :
    (cstr s).take 255 = s := by
  rw [cstr_of_no_nul s hnul]
  exact List.take_of_length_le hlen

theorem cstr_snprintf_time (time tok : List Nat) (hnn : ∀ b ∈ tok, b ≠ 0)
    (hl : 6 ≤ tok.length) :
    cstr (snprintf_time time tok) =
      tok.take 2 ++ [58] ++ (tok.drop 2).take 2 ++ [58] ++ (tok.drop 4).take 2 := by
  have hc : cstr tok = tok := cstr_of_no_nul tok hnn
  match tok, hl, hnn, hc with
  | c0 :: c1 :: c2 :: c3 :: c4 :: c5 :: tl, _, hnn, hc =>
      have e0 : c0 ≠ 0 := hnn c0 (by simp)
      have e1 : c1 ≠ 0 := hnn c1 (by simp)
      have e2 : c2 ≠ 0 := hnn c2 (by simp)
      have e3 : c3 ≠ 0 := hnn c3 (by simp)
      have e4 : c4 ≠ 0 := hnn c4 (by simp)
      have e5 : c5 ≠ 0 := hnn c5 (by simp)
      simp only [snprintf_time, charAt, hc]
      simp [cstr, e0, e1, e2, e3, e4, e5]

theorem cstr_strncpy_fit (dest tok : List Nat) (hnn : ∀ b ∈ tok, b ≠ 0)
    (hl : tok.length ≤ 15) (hd : dest.drop 15 = [0]) :
    cstr (strncpy dest tok (16 - 1)) = tok := by
  have hc : cstr tok = tok := cstr_of_no_nul tok hnn
  unfold strncpy
  rw [hc, hd, List.take_of_length_le (by omega), List.append_assoc]
  cases hk : 16 - 1 - tok.length with
  | zero => simpa [hc] using cstr_append_nul tok []
  | succ k =>
      rw [List.replicate_succ, List.cons_append, cstr_append_nul]
      exact hc

theorem gga_case_noop (g : gps_data) (i : Nat) (tok : List Nat) (hi : 10 ≤ i) :
    gga_case g i tok = g := by
  match i, hi with
  | n + 10, _ => rfl

/-! ## GGA sentences -/

/-- C4, amended. GGA field mapping: for a record of the program and a sentence (at most 255
bytes, no NUL) that starts with `$GPGGA` or `$GNGGA` and whose fields 1 to 9 are non-empty,
field 1 with at least 6 characters, fields 2 and 4 with at most 15: `parse_nmea` sets time to
`c0c1:c2c3:c4c5`, latitude to field 2, lat_dir to the first character of field 3, longitude
to field 4, lon_dir to the first character of field 5, fix_quality and satellites to `atoi`
of fields 6 and 7, hdop and altitude to the `float` that `atof` of fields 8 and 9 converts
to.  When field 6 or 7 is a decimal integer in the range of `int`, the slot holds the integer
that the field denotes; when field 8 or 9 is a decimal number, the slot holds the number that
the field denotes, rounded to `double` and then to `float`, which is finite and differs from
the number by at most its fraction `2 ^ (-23)` when the number is 0 or of a magnitude between
`1e-37` and `1e37`. -/
theorem gga_field_mapping (g : gps_data) (hg : g.wf) (s : List Nat)
    (f0 f1 f2 f3 f4 f5 f6 f7 f8 f9 : List Nat) (rest : List (List Nat))
    (hstart : GPGGA <+: s ∨ GNGGA <+: s) (hlen : s.length ≤ 255) (hnul : ∀ b ∈ s, b ≠ 0)
    (hs : splitComma s = f0 :: f1 :: f2 :: f3 :: f4 :: f5 :: f6 :: f7 :: f8 :: f9 :: rest)
    (h1 : f1 ≠ []) (h2 : f2 ≠ []) (h3 : f3 ≠ []) (h4 : f4 ≠ []) (h5 : f5 ≠ [])
    (h6 : f6 ≠ []) (h7 : f7 ≠ []) (h8 : f8 ≠ []) (h9 : f9 ≠ [])
    (ht : 6 ≤ f1.length) (hlat : f2.length ≤ 15) (hlon : f4.length ≤ 15) :
    cstr (parse_nmea g s).time =
        f1.take 2 ++ [58] ++ (f1.drop 2).take 2 ++ [58] ++ (f1.drop 4).take 2 ∧
      cstr (parse_nmea g s).latitude = f2 ∧
      f3.head? = some (parse_nmea g s).lat_dir ∧
      cstr (parse_nmea g s).longitude = f4 ∧
      f5.head? = some (parse_nmea g s).lon_dir ∧
      (parse_nmea g s).fix_quality = atoi f6 ∧
      (parse_nmea g s).satellites = atoi f7 ∧
      (parse_nmea g s).hdop = toFloat (atof f8) ∧
      (parse_nmea g s).altitude = toFloat (atof f9) ∧
      (isInteger f6 = true → -2147483648 ≤ integerValue f6 → integerValue f6 ≤ 2147483647 →
        (parse_nmea g s).fix_quality = integerValue f6) ∧
      (isInteger f7 = true → -2147483648 ≤ integerValue f7 → integerValue f7 ≤ 2147483647 →
        (parse_nmea g s).satellites = integerValue f7) ∧
      (isDecimal f8 = true → (parse_nmea g s).hdop = toFloat (decimalDouble f8)) ∧
      (isDecimal f9 = true → (parse_nmea g s).altitude = toFloat (decimalDouble f9)) ∧
      (isDecimal f8 = true → (decimalValue f8 = 0 ∨ 1 / 10 ^ 37 ≤ |decimalValue f8|) →
        |decimalValue f8| ≤ 10 ^ 37 →
        (∃ r, (parse_nmea g s).hdop.isFinite (isNegative f8) r) ∧
          |(parse_nmea g s).hdop.toRat - decimalValue f8| ≤ |decimalValue f8| / 2 ^ 23) ∧
      (isDecimal f9 = true → (decimalValue f9 = 0 ∨ 1 / 10 ^ 37 ≤ |decimalValue f9|) →
        |decimalValue f9| ≤ 10 ^ 37 →
        (∃ r, (parse_nmea g s).altitude.isFinite (isNegative f9) r) ∧
          |(parse_nmea g s).altitude.toRat - decimalValue f9| ≤ |decimalValue f9| / 2 ^ 23) := by
  have hkind : sentence_kind ((cstr s).take 255) = SentenceKind.gga :=
    (sentence_kind_gga_iff s).mpr hstart.symm
  have h0 : f0 ≠ [] := by
    rcases hstart with h | h
    · exact first_field_ne_nil s _ f0 _ h hs
    · exact first_field_ne_nil s _ f0 _ h hs
  have hnn : ∀ f ∈ splitComma s, ∀ b ∈ f, b ≠ 0 :=
    fun f hf b hb => hnul b (mem_splitComma s f hf b hb)
  rw [hs] at hnn
  have n1 := hnn f1 (by simp)
  have n2 := hnn f2 (by simp)
  have n3 := hnn f3 (by simp)
  have n4 := hnn f4 (by simp)
  have n5 := hnn f5 (by simp)
  have key := token_loop_prefix id gga_case 15 s f0 [f1, f2, f3, f4, f5, f6, f7, f8] f9 rest g
    (by simpa using hs) h0
    (by simp [h1, h2, h3, h4, h5, h6, h7, h8]) h9 (by simp)
    (fun g1 i tok hi => gga_case_noop g1 i tok (by simpa using hi))
  have hres : parse_nmea g s =
      apply_fields gga_case g 0 [f0, f1, f2, f3, f4, f5, f6, f7, f8, f9] := by
    rw [parse_nmea_eq, hkind, parse_text s hlen hnul]
    simpa using key
  have hstr : 6 ≤ strlen f1 := by
    rw [strlen, cstr_of_no_nul f1 n1]; exact ht
  rw [hres]
  simp only [apply_fields, gga_case, hstr, if_true]
  refine ⟨cstr_snprintf_time _ _ n1 ht, cstr_strncpy_fit _ _ n2 hlat hg.2.2.2.1, ?_,
    cstr_strncpy_fit _ _ n4 hlon hg.2.2.2.2, ?_, by trivial, by trivial, by trivial,
    by trivial, fun hi a b => atoi_of_isInteger f6 hi a b,
    fun hi a b => atoi_of_isInteger f7 hi a b,
    fun hd => congrArg toFloat (atof_of_isDecimal f8 hd),
    fun hd => congrArg toFloat (atof_of_isDecimal f9 hd),
    fun hd h0 hhi => by rw [atof_of_isDecimal f8 hd]; exact decimal_float_near f8 h0 hhi,
    fun hd h0 hhi => by rw [atof_of_isDecimal f9 hd]; exact decimal_float_near f9 h0 hhi⟩
  · cases f3 with
    | nil => exact absurd rfl h3
    | cons c r =>
        have : c ≠ 0 := n3 c (by simp)
        simp [charAt, cstr, this]
  · cases f5 with
    | nil => exact absurd rfl h5
    | cons c r =>
        have : c ≠ 0 := n5 c (by simp)
        simp [charAt, cstr, this]

theorem gps_zero_wf : gps_zero.wf := by
  unfold gps_data.wf gps_zero
  decide

/-- C4 amended, at the zero record and the sentence of the specification: time `12:35:19`,
latitude `4807.038`, `N`, longitude `01131.000`, `E`, fix quality 1, 8 satellites, hdop the
`float` with the bits `0x3f666666`, which is `7549747 / 2 ^ 23` and differs from 0.9 by at most
`0.9 / 2 ^ 23`, and altitude the `float` with the bits `0x4408599a`, which is
`4467917 / 2 ^ 13` and differs from 545.4 by at most `545.4 / 2 ^ 23`. -/
theorem gga_field_mapping_witness :
    cstr (parse_nmea gps_zero
        (bytes "$GPGGA,123519,4807.038,N,01131.000,E,1,08,0.9,545.4,M,,,,*")).time =
        bytes "12:35:19" ∧
      cstr (parse_nmea gps_zero
        (bytes "$GPGGA,123519,4807.038,N,01131.000,E,1,08,0.9,545.4,M,,,,*")).latitude =
        bytes "4807.038" ∧
      (parse_nmea gps_zero
        (bytes "$GPGGA,123519,4807.038,N,01131.000,E,1,08,0.9,545.4,M,,,,*")).lat_dir = 78 ∧
      cstr (parse_nmea gps_zero
        (bytes "$GPGGA,123519,4807.038,N,01131.000,E,1,08,0.9,545.4,M,,,,*")).longitude =
        bytes "01131.000" ∧
      (parse_nmea gps_zero
        (bytes "$GPGGA,123519,4807.038,N,01131.000,E,1,08,0.9,545.4,M,,,,*")).lon_dir = 69 ∧
      (parse_nmea gps_zero
        (bytes "$GPGGA,123519,4807.038,N,01131.000,E,1,08,0.9,545.4,M,,,,*")).fix_quality = 1 ∧
      (parse_nmea gps_zero
        (bytes "$GPGGA,123519,4807.038,N,01131.000,E,1,08,0.9,545.4,M,,,,*")).satellites = 8 ∧
      (parse_nmea gps_zero
        (bytes "$GPGGA,123519,4807.038,N,01131.000,E,1,08,0.9,545.4,M,,,,*")).hdop =
        FloatVal.finite false 7549747 (-23) ∧
      bits32 (parse_nmea gps_zero
        (bytes "$GPGGA,123519,4807.038,N,01131.000,E,1,08,0.9,545.4,M,,,,*")).hdop =
        0x3f666666 ∧
      (parse_nmea gps_zero
        (bytes "$GPGGA,123519,4807.038,N,01131.000,E,1,08,0.9,545.4,M,,,,*")).altitude =
        FloatVal.finite false 4467917 (-13) ∧
      bits32 (parse_nmea gps_zero
        (bytes "$GPGGA,123519,4807.038,N,01131.000,E,1,08,0.9,545.4,M,,,,*")).altitude =
        0x4408599a ∧
      |(parse_nmea gps_zero
        (bytes "$GPGGA,123519,4807.038,N,01131.000,E,1,08,0.9,545.4,M,,,,*")).hdop.toRat -
        9 / 10| ≤ 9 / 10 / 2 ^ 23 ∧
      |(parse_nmea gps_zero
        (bytes "$GPGGA,123519,4807.038,N,01131.000,E,1,08,0.9,545.4,M,,,,*")).altitude.toRat -
        5454 / 10| ≤ 5454 / 10 / 2 ^ 23 := by
  have w8 : decimalValue (bytes "0.9") = 9 / 10 := by
    rw [decimalValue_eq (bytes "0.9") 9 1 (by decide) (by decide) (by decide)]
    norm_num
  have w9 : decimalValue (bytes "545.4") = 5454 / 10 := by
    rw [decimalValue_eq (bytes "545.4") 5454 1 (by decide) (by decide) (by decide)]
    norm_num
  obtain ⟨e1, e2, e3, e4, e5, _, _, _, _, e6, e7, e8, e9, a8, a9⟩ :=
    gga_field_mapping gps_zero gps_zero_wf
      (bytes "$GPGGA,123519,4807.038,N,01131.000,E,1,08,0.9,545.4,M,,,,*")
      (bytes "$GPGGA") (bytes "123519") (bytes "4807.038") (bytes "N") (bytes "01131.000")
      (bytes "E") (bytes "1") (bytes "08") (bytes "0.9") (bytes "545.4")
      [bytes "M", [], [], [], bytes "*"]
      (Or.inl ⟨bytes ",123519,4807.038,N,01131.000,E,1,08,0.9,545.4,M,,,,*", by decide⟩)
      (by decide) (by decide) (by decide) (by decide) (by decide) (by decide) (by decide)
      (by decide) (by decide) (by decide) (by decide) (by decide) (by decide) (by decide)
      (by decide)
  have v6 := e6 (by decide) (by decide) (by decide)
  have v7 := e7 (by decide) (by decide) (by decide)
  have v8 := e8 (by decide)
  have v9 := e9 (by decide)
  have d8 : toFloat (decimalDouble (bytes "0.9")) = FloatVal.finite false 7549747 (-23) := by
    decide
  have d9 : toFloat (decimalDouble (bytes "545.4")) = FloatVal.finite false 4467917 (-13) := by
    decide
  have b8 := (a8 (by decide) (by rw [w8]; right; norm_num [abs_of_pos])
    (by rw [w8]; norm_num [abs_of_pos])).2
  have b9 := (a9 (by decide) (by rw [w9]; right; norm_num [abs_of_pos])
    (by rw [w9]; norm_num [abs_of_pos])).2
  rw [w8, abs_of_pos (by norm_num : (0 : ℚ) < 9 / 10)] at b8
  rw [w9, abs_of_pos (by norm_num : (0 : ℚ) < 5454 / 10)] at b9
  refine ⟨e1.trans (by decide), e2, ?_, e4, ?_, v6.trans (by decide), v7.trans (by decide),
    v8.trans d8, ?_, v9.trans d9, ?_, b8, b9⟩
  · have h : (bytes "N").head? = some 78 := by decide
    rw [h] at e3
    exact (Option.some.inj e3).symm
  · have h : (bytes "E").head? = some 69 := by decide
    rw [h] at e5
    exact (Option.some.inj e5).symm
  · rw [v8, d8]; decide
  · rw [v9, d9]; decide

/-- C4 as stated fails.  In this GGA sentence the fields 1 to 9 are not empty; field 6 is the
decimal integer 2147483648, and fix_quality, an `int`, becomes -2147483648; field 8 is the
decimal number 0.9, and hdop, a `float`, becomes `7549747 / 2 ^ 23`, which is not 0.9. -/
theorem gga_number_exceeds_slot :
    splitComma (bytes "$GPGGA,123519,4807.038,N,01131.000,E,2147483648,08,0.9,545.4,M,,,,*") =
        [bytes "$GPGGA", bytes "123519", bytes "4807.038", bytes "N", bytes "01131.000",
          bytes "E", bytes "2147483648", bytes "08", bytes "0.9", bytes "545.4", bytes "M",
          [], [], [], bytes "*"] ∧
      isInteger (bytes "2147483648") = true ∧
      integerValue (bytes "2147483648") = 2147483648 ∧
      (parse_nmea gps_zero
        (bytes "$GPGGA,123519,4807.038,N,01131.000,E,2147483648,08,0.9,545.4,M,,,,*")).fix_quality =
        -2147483648 ∧
      isDecimal (bytes "0.9") = true ∧
      decimalValue (bytes "0.9") = 9 / 10 ∧
      (parse_nmea gps_zero
        (bytes "$GPGGA,123519,4807.038,N,01131.000,E,2147483648,08,0.9,545.4,M,,,,*")).hdop.toRat =
        7549747 / 8388608 ∧
      (7549747 / 8388608 : ℚ) ≠ 9 / 10 := by
  have hq : (parse_nmea gps_zero
      (bytes "$GPGGA,123519,4807.038,N,01131.000,E,2147483648,08,0.9,545.4,M,,,,*")).fix_quality =
      -2147483648 := by
    rw [parse_nmea_eq]; decide
  have hh : (parse_nmea gps_zero
      (bytes "$GPGGA,123519,4807.038,N,01131.000,E,2147483648,08,0.9,545.4,M,,,,*")).hdop =
      FloatVal.finite false 7549747 (-((23 : Nat) : Int)) := by
    rw [parse_nmea_eq]; decide
  refine ⟨by decide, by decide, by decide, hq, by decide, ?_, ?_, by norm_num⟩
  · rw [decimalValue_eq (bytes "0.9") 9 1 (by decide) (by decide) (by decide)]
    norm_num
  · rw [hh, toRat_finite_neg_exp]
    norm_num

/-! ## RMC sentences -/

theorem rmc_case_noop (g : gps_data) (i : Nat) (tok : List Nat) (hi : 9 ≤ i) :
    rmc_case g i tok = g := by
  match i, hi with
  | n + 9, _ => rfl

theorem rmc_case_valid (g : gps_data) (i : Nat) (tok : List Nat) (hi : 3 ≤ i) :
    (rmc_case g i tok).valid = g.valid := by
  match i, hi with
  | 3, _ => rfl
  | 4, _ => rfl
  | 5, _ => rfl
  | 6, _ => rfl
  | 7, _ => rfl
  | 8, _ => rfl
  | n + 9, _ => rfl

/-- C7, amended. RMC field mapping: for every record and every sentence (at most 255 bytes, no
NUL) that starts with `$GPRMC` or `$GNRMC`, whose fields 1 to 8 are non-empty and whose field 2
is `A`: `parse_nmea` sets valid to true and speed_knots and course to the `float` that `atof`
of fields 7 and 8 converts to; when the field is a decimal number, this is the number that the
field denotes, rounded to `double` and then to `float`, which is finite and differs from the
number by at most its fraction `2 ^ (-23)` when the number is 0 or of a magnitude between
`1e-37` and `1e37`. -/
theorem rmc_field_mapping (g : gps_data) (s : List Nat)
    (f0 f1 f2 f3 f4 f5 f6 f7 f8 : List Nat) (rest : List (List Nat))
    (hstart : GPRMC <+: s ∨ GNRMC <+: s) (hlen : s.length ≤ 255) (hnul : ∀ b ∈ s, b ≠ 0)
    (hs : splitComma s = f0 :: f1 :: f2 :: f3 :: f4 :: f5 :: f6 :: f7 :: f8 :: rest)
    (h1 : f1 ≠ []) (h2 : f2 ≠ []) (h3 : f3 ≠ []) (h4 : f4 ≠ []) (h5 : f5 ≠ [])
    (h6 : f6 ≠ []) (h7 : f7 ≠ []) (h8 : f8 ≠ []) (hA : f2 = bytes "A") :
    (parse_nmea g s).valid = true ∧
      (parse_nmea g s).speed_knots = toFloat (atof f7) ∧
      (parse_nmea g s).course = toFloat (atof f8) ∧
      (isDecimal f7 = true → (parse_nmea g s).speed_knots = toFloat (decimalDouble f7)) ∧
      (isDecimal f8 = true → (parse_nmea g s).course = toFloat (decimalDouble f8)) ∧
      (isDecimal f7 = true → (decimalValue f7 = 0 ∨ 1 / 10 ^ 37 ≤ |decimalValue f7|) →
        |decimalValue f7| ≤ 10 ^ 37 →
        (∃ r, (parse_nmea g s).speed_knots.isFinite (isNegative f7) r) ∧
          |(parse_nmea g s).speed_knots.toRat - decimalValue f7| ≤ |decimalValue f7| / 2 ^ 23) ∧
      (isDecimal f8 = true → (decimalValue f8 = 0 ∨ 1 / 10 ^ 37 ≤ |decimalValue f8|) →
        |decimalValue f8| ≤ 10 ^ 37 →
        (∃ r, (parse_nmea g s).course.isFinite (isNegative f8) r) ∧
          |(parse_nmea g s).course.toRat - decimalValue f8| ≤ |decimalValue f8| / 2 ^ 23) := by
  have hkind : sentence_kind ((cstr s).take 255) = SentenceKind.rmc :=
    (sentence_kind_rmc_iff s).mpr hstart.symm
  have h0 : f0 ≠ [] := by
    rcases hstart with h | h
    · exact first_field_ne_nil s _ f0 _ h hs
    · exact first_field_ne_nil s _ f0 _ h hs
  have key := token_loop_prefix id rmc_case 10 s f0 [f1, f2, f3, f4, f5, f6, f7] f8 rest g
    (by simpa using hs) h0
    (by simp [h1, h2, h3, h4, h5, h6, h7]) h8 (by simp)
    (fun g1 i tok hi => rmc_case_noop g1 i tok (by simpa using hi))
  have hres : parse_nmea g s =
      apply_fields rmc_case g 0 [f0, f1, f2, f3, f4, f5, f6, f7, f8] := by
    rw [parse_nmea_eq, hkind, parse_text s hlen hnul]
    simpa using key
  have hchar : charAt (bytes "A") 0 = 65 := by decide
  rw [hres, hA]
  simp only [apply_fields, rmc_case, hchar]
  exact ⟨by decide, by trivial, by trivial,
    fun hd => congrArg toFloat (atof_of_isDecimal f7 hd),
    fun hd => congrArg toFloat (atof_of_isDecimal f8 hd),
    fun hd h0 hhi => by rw [atof_of_isDecimal f7 hd]; exact decimal_float_near f7 h0 hhi,
    fun hd h0 hhi => by rw [atof_of_isDecimal f8 hd]; exact decimal_float_near f8 h0 hhi⟩

/-- C7 amended, at the zero record and the sentence of the specification: valid, the speed
the `float` with the bits `0x41b33333`, which is `11744051 / 2 ^ 19` and differs from 22.4 by
at most `22.4 / 2 ^ 23`, and the course the `float` with the bits `0x42a8cccd`, which is
`11062477 / 2 ^ 17` and differs from 84.4 by at most `84.4 / 2 ^ 23`. -/
theorem rmc_field_mapping_witness :
    (parse_nmea gps_zero
        (bytes "$GPRMC,123519,A,4807.038,N,01131.000,E,022.4,084.4,230394,003.1,W*6A")).valid =
        true ∧
      (parse_nmea gps_zero
        (bytes "$GPRMC,123519,A,4807.038,N,01131.000,E,022.4,084.4,230394,003.1,W*6A")).speed_knots =
        FloatVal.finite false 11744051 (-19) ∧
      bits32 (parse_nmea gps_zero
        (bytes "$GPRMC,123519,A,4807.038,N,01131.000,E,022.4,084.4,230394,003.1,W*6A")).speed_knots =
        0x41b33333 ∧
      (parse_nmea gps_zero
        (bytes "$GPRMC,123519,A,4807.038,N,01131.000,E,022.4,084.4,230394,003.1,W*6A")).course =
        FloatVal.finite false 11062477 (-17) ∧
      bits32 (parse_nmea gps_zero
        (bytes "$GPRMC,123519,A,4807.038,N,01131.000,E,022.4,084.4,230394,003.1,W*6A")).course =
        0x42a8cccd ∧
      |(parse_nmea gps_zero
        (bytes "$GPRMC,123519,A,4807.038,N,01131.000,E,022.4,084.4,230394,003.1,W*6A")).speed_knots.toRat -
        224 / 10| ≤ 224 / 10 / 2 ^ 23 ∧
      |(parse_nmea gps_zero
        (bytes "$GPRMC,123519,A,4807.038,N,01131.000,E,022.4,084.4,230394,003.1,W*6A")).course.toRat -
        844 / 10| ≤ 844 / 10 / 2 ^ 23 := by
  have w7 : decimalValue (bytes "022.4") = 224 / 10 := by
    rw [decimalValue_eq (bytes "022.4") 224 1 (by decide) (by decide) (by decide)]
    norm_num
  have w8 : decimalValue (bytes "084.4") = 844 / 10 := by
    rw [decimalValue_eq (bytes "084.4") 844 1 (by decide) (by decide) (by decide)]
    norm_num
  obtain ⟨e1, _, _, e2, e3, a7, a8⟩ :=
    rmc_field_mapping gps_zero
      (bytes "$GPRMC,123519,A,4807.038,N,01131.000,E,022.4,084.4,230394,003.1,W*6A")
      (bytes "$GPRMC") (bytes "123519") (bytes "A") (bytes "4807.038") (bytes "N")
      (bytes "01131.000") (bytes "E") (bytes "022.4") (bytes "084.4")
      [bytes "230394", bytes "003.1", bytes "W*6A"]
      (Or.inl ⟨bytes ",123519,A,4807.038,N,01131.000,E,022.4,084.4,230394,003.1,W*6A",
        by decide⟩)
      (by decide) (by decide) (by decide) (by decide) (by decide) (by decide) (by decide)
      (by decide) (by decide) (by decide) (by decide) rfl
  have v7 := e2 (by decide)
  have v8 := e3 (by decide)
  have d7 : toFloat (decimalDouble (bytes "022.4")) = FloatVal.finite false 11744051 (-19) := by
    decide
  have d8 : toFloat (decimalDouble (bytes "084.4")) = FloatVal.finite false 11062477 (-17) := by
    decide
  have b7 := (a7 (by decide) (by rw [w7]; right; norm_num [abs_of_pos])
    (by rw [w7]; norm_num [abs_of_pos])).2
  have b8 := (a8 (by decide) (by rw [w8]; right; norm_num [abs_of_pos])
    (by rw [w8]; norm_num [abs_of_pos])).2
  rw [w7, abs_of_pos (by norm_num : (0 : ℚ) < 224 / 10)] at b7
  rw [w8, abs_of_pos (by norm_num : (0 : ℚ) < 844 / 10)] at b8
  refine ⟨e1, v7.trans d7, ?_, v8.trans d8, ?_, b7, b8⟩
  · rw [v7, d7]; decide
  · rw [v8, d8]; decide

set_option maxRecDepth 8000 in
/-- C7 as stated fails.  In the RMC sentence of the specification field 7 is the decimal
number 22.4 and field 8 is 84.4; the speed, a `float`, becomes `11744051 / 2 ^ 19` and the
course `11062477 / 2 ^ 17`, which are not these numbers.  With `1e39` in field 7, a decimal
number beyond every `float`, the speed becomes an infinity. -/
theorem rmc_number_is_rounded :
    splitComma (bytes "$GPRMC,123519,A,4807.038,N,01131.000,E,022.4,084.4,230394,003.1,W*6A") =
        [bytes "$GPRMC", bytes "123519", bytes "A", bytes "4807.038", bytes "N",
          bytes "01131.000", bytes "E", bytes "022.4", bytes "084.4", bytes "230394",
          bytes "003.1", bytes "W*6A"] ∧
      isDecimal (bytes "022.4") = true ∧ decimalValue (bytes "022.4") = 224 / 10 ∧
      isDecimal (bytes "084.4") = true ∧ decimalValue (bytes "084.4") = 844 / 10 ∧
      (parse_nmea gps_zero
        (bytes "$GPRMC,123519,A,4807.038,N,01131.000,E,022.4,084.4,230394,003.1,W*6A")).speed_knots.toRat =
        11744051 / 524288 ∧
      (11744051 / 524288 : ℚ) ≠ 224 / 10 ∧
      (parse_nmea gps_zero
        (bytes "$GPRMC,123519,A,4807.038,N,01131.000,E,022.4,084.4,230394,003.1,W*6A")).course.toRat =
        11062477 / 131072 ∧
      (11062477 / 131072 : ℚ) ≠ 844 / 10 ∧
      splitComma (bytes "$GPRMC,123519,A,4807.038,N,01131.000,E,1e39,084.4,230394,003.1,W*6A") =
        [bytes "$GPRMC", bytes "123519", bytes "A", bytes "4807.038", bytes "N",
          bytes "01131.000", bytes "E", bytes "1e39", bytes "084.4", bytes "230394",
          bytes "003.1", bytes "W*6A"] ∧
      (parse_nmea gps_zero
        (bytes "$GPRMC,123519,A,4807.038,N,01131.000,E,1e39,084.4,230394,003.1,W*6A")).speed_knots =
        FloatVal.inf false := by
  have hsp : (parse_nmea gps_zero
      (bytes "$GPRMC,123519,A,4807.038,N,01131.000,E,022.4,084.4,230394,003.1,W*6A")).speed_knots =
      FloatVal.finite false 11744051 (-((19 : Nat) : Int)) := by
    rw [parse_nmea_eq]; decide
  have hco : (parse_nmea gps_zero
      (bytes "$GPRMC,123519,A,4807.038,N,01131.000,E,022.4,084.4,230394,003.1,W*6A")).course =
      FloatVal.finite false 11062477 (-((17 : Nat) : Int)) := by
    rw [parse_nmea_eq]; decide
  have hinf : (parse_nmea gps_zero
      (bytes "$GPRMC,123519,A,4807.038,N,01131.000,E,1e39,084.4,230394,003.1,W*6A")).speed_knots =
      FloatVal.inf false := by
    rw [parse_nmea_eq]; decide
  refine ⟨by decide, by decide, ?_, by decide, ?_, ?_, by norm_num, ?_, by norm_num, by decide,
    hinf⟩
  · rw [decimalValue_eq (bytes "022.4") 224 1 (by decide) (by decide) (by decide)]
    norm_num
  · rw [decimalValue_eq (bytes "084.4") 844 1 (by decide) (by decide) (by decide)]
    norm_num
  · rw [hsp, toRat_finite_neg_exp]
    norm_num
  · rw [hco, toRat_finite_neg_exp]
    norm_num

/-- C6 as stated fails: the status field `AB` is not `A`, yet valid, false before, is true
after `parse_nmea`, because only the first character of the token is compared. -/
theorem rmc_status_first_char_only :
    GPRMC <+: bytes "$GPRMC,123519,AB," ∧
      (splitComma (bytes "$GPRMC,123519,AB,"))[2]? = some (bytes "AB") ∧
      bytes "AB" ≠ bytes "A" ∧ gps_zero.valid = false ∧
      (parse_nmea gps_zero (bytes "$GPRMC,123519,AB,")).valid = true := by
  refine ⟨⟨bytes ",123519,AB,", by decide⟩, by decide, by decide, rfl, ?_⟩
  rw [parse_nmea_eq]
  decide

/-- C6, amended. For every record and every sentence (at most 255 bytes, no NUL) that starts
with `$GPRMC` or `$GNRMC`, whose field 1 is not empty and whose status field, field 2, is not
empty and does not begin with `A`: valid is false after `parse_nmea`. -/
theorem rmc_status_clears_valid (g : gps_data) (s f0 f1 f2 : List Nat)
    (rest : List (List Nat)) (hstart : GPRMC <+: s ∨ GNRMC <+: s) (hlen : s.length ≤ 255)
    (hnul : ∀ b ∈ s, b ≠ 0) (hs : splitComma s = f0 :: f1 :: f2 :: rest) (h1 : f1 ≠ [])
    (h2 : f2 ≠ []) (hA : f2.head? ≠ some 65) : (parse_nmea g s).valid = false := by
  have hkind : sentence_kind ((cstr s).take 255) = SentenceKind.rmc :=
    (sentence_kind_rmc_iff s).mpr hstart.symm
  have h0 : f0 ≠ [] := by
    rcases hstart with h | h
    · exact first_field_ne_nil s _ f0 _ h hs
    · exact first_field_ne_nil s _ f0 _ h hs
  have n2 : ∀ b ∈ f2, b ≠ 0 :=
    fun b hb => hnul b (mem_splitComma s f2 (by rw [hs]; simp) b hb)
  have key := token_loop_prefix gps_data.valid rmc_case 10 s f0 [f1] f2 rest g
    (by simpa using hs) h0 (by simp [h1]) h2 (by simp)
    (fun g1 i tok hi => rmc_case_valid g1 i tok (by simpa using hi))
  rw [parse_nmea_eq, hkind, parse_text s hlen hnul]
  simp only []
  rw [key]
  simp only [List.cons_append, List.nil_append, apply_fields, rmc_case]
  cases f2 with
  | nil => exact absurd rfl h2
  | cons c r =>
      have hc0 : c ≠ 0 := n2 c (by simp)
      have hc : c ≠ 65 := by
        intro h
        apply hA
        simp [h]
      simp [charAt, cstr, hc0, hc]

/-- C6 amended, at the sample record, whose valid is true, and the sentence of the
specification with status `V`. -/
theorem rmc_status_clears_valid_witness :
    gps_sample.valid = true ∧
      (parse_nmea gps_sample (bytes "$GPRMC,123519,V,,,,,,,,,,")).valid = false :=
  ⟨rfl, rmc_status_clears_valid gps_sample (bytes "$GPRMC,123519,V,,,,,,,,,,")
    (bytes "$GPRMC") (bytes "123519") (bytes "V") [[], [], [], [], [], [], [], [], [], []]
    (Or.inl ⟨bytes ",123519,V,,,,,,,,,,", by decide⟩) (by decide) (by decide) (by decide)
    (by decide) (by decide) (by decide)⟩

/-! ## Truncated sentences and empty fields -/

/-- The handling of field `i` of a GGA sentence writes no slot but the one of index `i`. -/
theorem gga_case_frame (g : gps_data) (i : Nat) (tok : List Nat) :
    (i ≠ 1 → (gga_case g i tok).time = g.time) ∧
    (i ≠ 2 → (gga_case g i tok).latitude = g.latitude) ∧
    (i ≠ 3 → (gga_case g i tok).lat_dir = g.lat_dir) ∧
    (i ≠ 4 → (gga_case g i tok).longitude = g.longitude) ∧
    (i ≠ 5 → (gga_case g i tok).lon_dir = g.lon_dir) ∧
    (i ≠ 6 → (gga_case g i tok).fix_quality = g.fix_quality) ∧
    (i ≠ 7 → (gga_case g i tok).satellites = g.satellites) ∧
    (i ≠ 8 → (gga_case g i tok).hdop = g.hdop) ∧
    (i ≠ 9 → (gga_case g i tok).altitude = g.altitude) ∧
    (gga_case g i tok).valid = g.valid ∧
    (gga_case g i tok).speed_knots = g.speed_knots ∧
    (gga_case g i tok).course = g.course := by
  match i with
  | 0 => simp [gga_case]
  | 1 =>
      simp only [gga_case]
      split <;> simp
  | 2 => simp [gga_case]
  | 3 => simp [gga_case]
  | 4 => simp [gga_case]
  | 5 => simp [gga_case]
  | 6 => simp [gga_case]
  | 7 => simp [gga_case]
  | 8 => simp [gga_case]
  | 9 => simp [gga_case]
  | n + 10 =>
      rw [gga_case_noop g (n + 10) tok (by omega)]
      simp

/-- A slot whose index lies beyond the fields handled keeps its value. -/
theorem apply_gga_frame {α : Type} (proj : gps_data → α) (j : Nat)
    (hj : ∀ (g1 : gps_data) (i : Nat) (tok : List Nat), i ≠ j →
      proj (gga_case g1 i tok) = proj g1)
    (g : gps_data) (fs : List (List Nat)) (hlen : fs.length < j) :
    proj (apply_fields gga_case g 1 fs) = proj g :=
  apply_fields_frame proj gga_case fs g 1 (fun g1 i tok _ h2 => hj g1 i tok (by omega))

/-- C8. Truncated sentence: a GGA sentence (at most 255 bytes, no NUL) that ends after field
`k < 9`, its fields 1 to `k` non-empty, has exactly the handling of the fields 1 to `k`
applied to the record, each at its own index, and every slot of an index above `k`, as well
as valid, speed_knots and course, keeps its prior value. -/
theorem gga_truncated (g : gps_data) (s f0 : List Nat) (fs : List (List Nat))
    (hstart : GPGGA <+: s ∨ GNGGA <+: s) (hlen : s.length ≤ 255) (hnul : ∀ b ∈ s, b ≠ 0)
    (hs : splitComma s = f0 :: fs) (hfs : ∀ f ∈ fs, f ≠ []) (hk : fs.length < 9) :
    parse_nmea g s = apply_fields gga_case g 1 fs ∧
    (fs.length < 1 → (parse_nmea g s).time = g.time) ∧
    (fs.length < 2 → (parse_nmea g s).latitude = g.latitude) ∧
    (fs.length < 3 → (parse_nmea g s).lat_dir = g.lat_dir) ∧
    (fs.length < 4 → (parse_nmea g s).longitude = g.longitude) ∧
    (fs.length < 5 → (parse_nmea g s).lon_dir = g.lon_dir) ∧
    (fs.length < 6 → (parse_nmea g s).fix_quality = g.fix_quality) ∧
    (fs.length < 7 → (parse_nmea g s).satellites = g.satellites) ∧
    (fs.length < 8 → (parse_nmea g s).hdop = g.hdop) ∧
    (parse_nmea g s).altitude = g.altitude ∧
    (parse_nmea g s).valid = g.valid ∧
    (parse_nmea g s).speed_knots = g.speed_knots ∧
    (parse_nmea g s).course = g.course := by
  have hkind : sentence_kind ((cstr s).take 255) = SentenceKind.gga :=
    (sentence_kind_gga_iff s).mpr hstart.symm
  have h0 : f0 ≠ [] := by
    rcases hstart with h | h
    · exact first_field_ne_nil s _ f0 _ h hs
    · exact first_field_ne_nil s _ f0 _ h hs
  have hres : parse_nmea g s = apply_fields gga_case g 1 fs := by
    rw [parse_nmea_eq, hkind, parse_text s hlen hnul]
    simp only []
    rw [token_loop_all_fields gga_case 15 s f0 fs g hs h0 hfs (by omega)]
    rfl
  rw [hres]
  refine ⟨rfl, ?_, ?_, ?_, ?_, ?_, ?_, ?_, ?_, ?_, ?_, ?_, ?_⟩
  · exact apply_gga_frame gps_data.time 1 (fun g1 i tok => (gga_case_frame g1 i tok).1) g fs
  · exact apply_gga_frame gps_data.latitude 2
      (fun g1 i tok => (gga_case_frame g1 i tok).2.1) g fs
  · exact apply_gga_frame gps_data.lat_dir 3
      (fun g1 i tok => (gga_case_frame g1 i tok).2.2.1) g fs
  · exact apply_gga_frame gps_data.longitude 4
      (fun g1 i tok => (gga_case_frame g1 i tok).2.2.2.1) g fs
  · exact apply_gga_frame gps_data.lon_dir 5
      (fun g1 i tok => (gga_case_frame g1 i tok).2.2.2.2.1) g fs
  · exact apply_gga_frame gps_data.fix_quality 6
      (fun g1 i tok => (gga_case_frame g1 i tok).2.2.2.2.2.1) g fs
  · exact apply_gga_frame gps_data.satellites 7
      (fun g1 i tok => (gga_case_frame g1 i tok).2.2.2.2.2.2.1) g fs
  · exact apply_gga_frame gps_data.hdop 8
      (fun g1 i tok => (gga_case_frame g1 i tok).2.2.2.2.2.2.2.1) g fs
  · exact apply_gga_frame gps_data.altitude 9
      (fun g1 i tok => (gga_case_frame g1 i tok).2.2.2.2.2.2.2.2.1) g fs hk
  · exact apply_fields_frame gps_data.valid gga_case fs g 1
      (fun g1 i tok _ _ => (gga_case_frame g1 i tok).2.2.2.2.2.2.2.2.2.1)
  · exact apply_fields_frame gps_data.speed_knots gga_case fs g 1
      (fun g1 i tok _ _ => (gga_case_frame g1 i tok).2.2.2.2.2.2.2.2.2.2.1)
  · exact apply_fields_frame gps_data.course gga_case fs g 1
      (fun g1 i tok _ _ => (gga_case_frame g1 i tok).2.2.2.2.2.2.2.2.2.2.2)

/-- C8, at the sample record and a GGA sentence that ends after field 4: time, latitude,
lat_dir and longitude are those of the sentence; lon_dir, fix_quality, satellites, hdop and
altitude are those of the sample record. -/
theorem gga_truncated_witness :
    cstr (parse_nmea gps_sample (bytes "$GPGGA,123519,4807.038,N,01131.000")).time =
        bytes "12:35:19" ∧
      cstr (parse_nmea gps_sample (bytes "$GPGGA,123519,4807.038,N,01131.000")).latitude =
        bytes "4807.038" ∧
      (parse_nmea gps_sample (bytes "$GPGGA,123519,4807.038,N,01131.000")).lat_dir = 78 ∧
      cstr (parse_nmea gps_sample (bytes "$GPGGA,123519,4807.038,N,01131.000")).longitude =
        bytes "01131.000" ∧
      (parse_nmea gps_sample (bytes "$GPGGA,123519,4807.038,N,01131.000")).lon_dir = 87 ∧
      (parse_nmea gps_sample (bytes "$GPGGA,123519,4807.038,N,01131.000")).fix_quality = 2 ∧
      (parse_nmea gps_sample (bytes "$GPGGA,123519,4807.038,N,01131.000")).satellites = 5 ∧
      (parse_nmea gps_sample (bytes "$GPGGA,123519,4807.038,N,01131.000")).hdop = 3 / 2 ∧
      (parse_nmea gps_sample (bytes "$GPGGA,123519,4807.038,N,01131.000")).altitude = 100 := by
  obtain ⟨hres, _, _, _, _, e5, e6, e7, e8, e9, _⟩ :=
    gga_truncated gps_sample (bytes "$GPGGA,123519,4807.038,N,01131.000") (bytes "$GPGGA")
      [bytes "123519", bytes "4807.038", bytes "N", bytes "01131.000"]
      (Or.inl ⟨bytes ",123519,4807.038,N,01131.000", by decide⟩) (by decide) (by decide)
      (by decide) (by decide) (by decide)
  refine ⟨?_, ?_, ?_, ?_, e5 (by decide), e6 (by decide), e7 (by decide), e8 (by decide), e9⟩
  · rw [hres]; decide
  · rw [hres]; decide
  · rw [hres]; decide
  · rw [hres]; decide

/-- C5 fails on the code, GGA: in a sentence with an empty field 1, field 2 is `4807.038`
and field 3 is `N`, but the latitude slot receives `N` and the time slot is built from the
latitude text. -/
theorem gga_empty_field_shifts :
    (splitComma (bytes "$GPGGA,,4807.038,N,01131.000,E,1,08,0.9,545.4,M,,,,*"))[1]? = some [] ∧
      (splitComma (bytes "$GPGGA,,4807.038,N,01131.000,E,1,08,0.9,545.4,M,,,,*"))[2]? =
        some (bytes "4807.038") ∧
      (splitComma (bytes "$GPGGA,,4807.038,N,01131.000,E,1,08,0.9,545.4,M,,,,*"))[3]? =
        some (bytes "N") ∧
      cstr (parse_nmea gps_zero
        (bytes "$GPGGA,,4807.038,N,01131.000,E,1,08,0.9,545.4,M,,,,*")).latitude = bytes "N" ∧
      cstr (parse_nmea gps_zero
        (bytes "$GPGGA,,4807.038,N,01131.000,E,1,08,0.9,545.4,M,,,,*")).time =
        bytes "48:07:.0" := by
  refine ⟨by decide, by decide, by decide, ?_, ?_⟩
  · rw [parse_nmea_eq]; decide
  · rw [parse_nmea_eq]; decide

/-- C5 fails on the code, RMC: in a sentence with an empty field 7 (speed) and the course
`084.4` in field 8, the speed slot receives the course: the `float` 84.4, which is the
`float` quotient of 844 by 10 and the value that `atof` of `084.4` is stored as. -/
theorem rmc_empty_field_shifts :
    (splitComma
        (bytes "$GPRMC,123519,A,4807.038,N,01131.000,E,,084.4,230394,003.1,W*6A"))[7]? =
        some [] ∧
      (splitComma
        (bytes "$GPRMC,123519,A,4807.038,N,01131.000,E,,084.4,230394,003.1,W*6A"))[8]? =
        some (bytes "084.4") ∧
      (parse_nmea gps_zero
        (bytes "$GPRMC,123519,A,4807.038,N,01131.000,E,,084.4,230394,003.1,W*6A")).speed_knots =
        844 / 10 ∧
      toFloat (atof (bytes "084.4")) = 844 / 10 ∧
      (844 / 10 : FloatVal) = FloatVal.finite false 11062477 (-17) := by
  refine ⟨by decide, by decide, ?_, by decide, by decide⟩
  rw [parse_nmea_eq]
  decide

/-! ## Classification -/

theorem sentence_kind_parse_buf (s : List Nat) :
    sentence_kind (parse_buf s) = sentence_kind ((cstr s).take 255) := by
  rw [← sentence_kind_cstr, cstr_parse_buf]

/-- C9 as stated fails: the first field of `$GPGGAX,123519` is `$GPGGAX`, none of the four
identifiers, yet the sentence is handled as GGA and the time of the record changes. -/
theorem longer_first_field_is_parsed :
    (splitComma (bytes "$GPGGAX,123519"))[0]? = some (bytes "$GPGGAX") ∧
      bytes "$GPGGAX" ≠ GPGGA ∧ bytes "$GPGGAX" ≠ GNGGA ∧
      bytes "$GPGGAX" ≠ GPRMC ∧ bytes "$GPGGAX" ≠ GNRMC ∧
      cstr gps_zero.time = [] ∧
      cstr (parse_nmea gps_zero (bytes "$GPGGAX,123519")).time = bytes "12:35:19" := by
  refine ⟨by decide, by decide, by decide, by decide, by decide, by decide, ?_⟩
  rw [parse_nmea_eq]
  decide

/-- C9, amended. Classification is by the start of the sentence: `parse_nmea` takes its GGA
branch exactly when the sentence starts with `$GPGGA` or `$GNGGA`, its RMC branch exactly when
the sentence starts with `$GPRMC` or `$GNRMC`, and leaves the record as it is when the
sentence starts with none of the four. -/
theorem classification_by_start (g : gps_data) (s : List Nat) :
    (sentence_kind (parse_buf s) = SentenceKind.gga ↔ (GPGGA <+: s ∨ GNGGA <+: s)) ∧
    (sentence_kind (parse_buf s) = SentenceKind.rmc ↔ (GPRMC <+: s ∨ GNRMC <+: s)) ∧
    (¬ GPGGA <+: s → ¬ GNGGA <+: s → ¬ GPRMC <+: s → ¬ GNRMC <+: s → parse_nmea g s = g) := by
  refine ⟨?_, ?_, ?_⟩
  · rw [sentence_kind_parse_buf, sentence_kind_gga_iff]
    exact Or.comm
  · rw [sentence_kind_parse_buf, sentence_kind_rmc_iff]
    exact Or.comm
  · intro h1 h2 h3 h4
    exact parse_nmea_other g s h2 h1 h4 h3

/-- C9 amended, at `$GPGGAX,123519`, which is taken as GGA, and at `$GPGSV,3,1,11`, which
leaves the sample record as it is. -/
theorem classification_by_start_witness :
    sentence_kind (parse_buf (bytes "$GPGGAX,123519")) = SentenceKind.gga ∧
      parse_nmea gps_sample (bytes "$GPGSV,3,1,11") = gps_sample :=
  ⟨(classification_by_start gps_sample (bytes "$GPGGAX,123519")).1.mpr
      (Or.inl ⟨bytes "X,123519", by decide⟩),
    (classification_by_start gps_sample (bytes "$GPGSV,3,1,11")).2.2 (by decide) (by decide)
      (by decide) (by decide)⟩

/-- C10. Unrecognized sentences are skipped without effect: for every record and every line
that does not begin with any of `$GNGGA`, `$GPGGA`, `$GNRMC`, `$GPRMC`, `parse_nmea` returns
the record unchanged. -/
theorem unrecognized_is_skipped (g : gps_data) (s : List Nat) (h1 : ¬ GNGGA <+: s)
    (h2 : ¬ GPGGA <+: s) (h3 : ¬ GNRMC <+: s) (h4 : ¬ GPRMC <+: s) : parse_nmea g s = g :=
  parse_nmea_other g s h1 h2 h3 h4

/-- C10, at the sample record: the empty line and a GSV sentence leave it unchanged. -/
theorem unrecognized_is_skipped_witness :
    parse_nmea gps_sample [] = gps_sample ∧
      parse_nmea gps_sample (bytes "$GPGSV,3,1,11,03,03,111,00") = gps_sample :=
  ⟨unrecognized_is_skipped gps_sample [] (by decide) (by decide) (by decide) (by decide),
    unrecognized_is_skipped gps_sample (bytes "$GPGSV,3,1,11,03,03,111,00") (by decide)
      (by decide) (by decide) (by decide)⟩

/-! ## The shape of the record is kept -/

/-- A property of the record that the body keeps is kept by the loop. -/
theorem token_loop_invariant (P : gps_data → Prop)
    (body : gps_data → Nat → List Nat → gps_data)
    (hbody : ∀ (g : gps_data) (i : Nat) (tok : List Nat), P g → P (body g i tok)) (n : Nat) :
    ∀ (field : Nat) (tok : Option (List Nat)) (sp : List Nat) (g : gps_data), P g →
      P (token_loop body n field tok sp g) := by
  induction n with
  | zero => intro field tok sp g hg; exact hg
  | succ n ih =>
      intro field tok sp g hg
      cases tok with
      | none => exact hg
      | some t =>
          rw [token_loop]
          exact ih _ _ _ _ (hbody g field t hg)

theorem strncpy_shape (dest tok : List Nat) (hd : dest.drop 15 = [0]) :
    (strncpy dest tok (16 - 1)).length = 16 ∧ (strncpy dest tok (16 - 1)).drop 15 = [0] := by
  have hlen : ((cstr tok).take (16 - 1) ++
      List.replicate (16 - 1 - (cstr tok).length) 0).length = 15 := by
    simp only [List.length_append, List.length_take, List.length_replicate]
    omega
  unfold strncpy
  constructor
  · rw [List.length_append, hlen, hd]
    rfl
  · rw [hd, List.drop_left' hlen]

theorem gga_case_wf (g : gps_data) (i : Nat) (tok : List Nat) (hg : g.wf) :
    (gga_case g i tok).wf := by
  obtain ⟨t1, l1, o1, l2, o2⟩ := hg
  have hlat := strncpy_shape g.latitude tok l2
  have hlon := strncpy_shape g.longitude tok o2
  match i with
  | 0 => exact ⟨t1, l1, o1, l2, o2⟩
  | 1 =>
      simp only [gga_case]
      split
      · refine ⟨?_, l1, o1, l2, o2⟩
        simp only [snprintf_time, List.length_append, List.length_cons, List.length_nil,
          List.length_drop, t1]
      · exact ⟨t1, l1, o1, l2, o2⟩
  | 2 => exact ⟨t1, hlat.1, o1, hlat.2, o2⟩
  | 3 => exact ⟨t1, l1, o1, l2, o2⟩
  | 4 => exact ⟨t1, l1, hlon.1, l2, hlon.2⟩
  | 5 => exact ⟨t1, l1, o1, l2, o2⟩
  | 6 => exact ⟨t1, l1, o1, l2, o2⟩
  | 7 => exact ⟨t1, l1, o1, l2, o2⟩
  | 8 => exact ⟨t1, l1, o1, l2, o2⟩
  | 9 => exact ⟨t1, l1, o1, l2, o2⟩
  | n + 10 => exact ⟨t1, l1, o1, l2, o2⟩

theorem rmc_case_wf (g : gps_data) (i : Nat) (tok : List Nat) (hg : g.wf) :
    (rmc_case g i tok).wf := by
  unfold rmc_case
  split <;> exact hg

/-- The record keeps its shape under `parse_nmea`: the arrays keep their 16 bytes and
the last byte of `latitude` and of `longitude` stays NUL. -/
theorem parse_nmea_wf (g : gps_data) (s : List Nat) (hg : g.wf) : (parse_nmea g s).wf := by
  unfold parse_nmea
  simp only []
  split
  · exact token_loop_invariant gps_data.wf gga_case gga_case_wf 15 _ _ _ g hg
  · exact token_loop_invariant gps_data.wf rmc_case rmc_case_wf 10 _ _ _ g hg
  · exact hg

/-! ## Coordinate conversion -/

theorem truncToZero_of_bounds (q : ℚ) (n : Int) (h0 : 0 ≤ q) (h1 : (n : ℚ) ≤ q)
    (h2 : q < (n : ℚ) + 1) : truncToZero q = n := by
  unfold truncToZero
  rw [if_pos h0]
  exact Int.floor_eq_iff.mpr ⟨h1, h2⟩

/-- The conversion written out: 0 for a text of fewer than 4 characters, and otherwise, with
`V` the `float` of the text and `D` the cast `(int)` of `V / 100`, the `float` expression
`D + (V - D * 100) / 60`. -/
theorem nmea_to_degrees_eq (s : List Nat) (flag : Bool) :
    nmea_to_degrees float32 s flag =
      if strlen s < 4 then 0
      else ofInt binary32 (toInt (toFloat (atof s) / 100)) +
        (toFloat (atof s) - ofInt binary32 (toInt (toFloat (atof s) / 100)) * 100) / 60 := by
  unfold nmea_to_degrees
  by_cases h : strlen s < 4
  · rw [if_pos h, if_pos h]
    rfl
  · rw [if_neg h, if_neg h]
    cases flag <;> rfl

theorem degrees_4807_038 (flag : Bool) :
    nmea_to_degrees float32 (bytes "4807.038") flag =
      FloatVal.finite false 6306831 (-((17 : Nat) : Int)) := by
  cases flag <;> decide

theorem degrees_01131_000 (flag : Bool) :
    nmea_to_degrees float32 (bytes "01131.000") flag =
      FloatVal.finite false 3019025 (-((18 : Nat) : Int)) := by
  cases flag <;> decide

set_option maxRecDepth 8000 in
/-- Values of `nmea_to_degrees` at some texts, as the 32 bits of the `float`: a coordinate
behind white space, a negative one, a hexadecimal number, a number whose quotient by 100 lies
outside `int` (the cast gives `INT_MIN`), an infinity and a NaN. -/
theorem degrees_examples :
    bits32 (nmea_to_degrees float32 (bytes "  4807.038") false) = 0x4240781e ∧
      bits32 (nmea_to_degrees float32 (bytes "-4807.038") false) = 0xc240781e ∧
      bits32 (nmea_to_degrees float32 (bytes "0x1000") true) = 0x42266666 ∧
      bits32 (nmea_to_degrees float32 (bytes "1e12") true) = 0x5086d7cf ∧
      nmea_to_degrees float32 (bytes "infinityx") false = FloatVal.inf false ∧
      nmea_to_degrees float32 (bytes "nan(abc)") false = FloatVal.nan := by
  decide

/-- The closed formula at a value `V` whose hundreds are `D`. -/
theorem closedFormula_eq (V : ℚ) (D : Nat) (h1 : 100 * (D : ℚ) ≤ V) (h2 : V < 100 * (D : ℚ) + 100) :
    closedFormula V = (D : ℚ) + (V - 100 * (D : ℚ)) / 60 := by
  have hD0 : (0 : ℚ) ≤ D := by positivity
  have ht : truncToZero (V / 100) = (D : Int) :=
    truncToZero_of_bounds _ D (by linarith) (by push_cast; linarith) (by push_cast; linarith)
  unfold closedFormula
  rw [ht]
  push_cast
  ring

/-- The conversion of a `float` coordinate `c` whose hundreds are `D`: the result is within
`2 ^ (-15) + 2 ^ (-24) + 2 ^ (-18) / 60` of `D + (c - 100 * D) / 60`. -/
theorem degrees_of_float (c : FloatVal) (rc : ℚ) (D : Nat) (hc : c.isFinite false rc)
    (hD : D ≤ 654) (h1 : 100 * (D : ℚ) ≤ rc) (h2 : rc ≤ 100 * (D : ℚ) + 99995 / 1000) :
    ∃ r, (ofInt binary32 (toInt (c / 100)) + (c - ofInt binary32 (toInt (c / 100)) * 100) / 60 :
        FloatVal).isFinite false r ∧
      |r - ((D : ℚ) + (rc - 100 * (D : ℚ)) / 60)| ≤ 31 / 1000000 := by
  have hDq : (D : ℚ) ≤ 654 := by exact_mod_cast hD
  have hD0 : (0 : ℚ) ≤ D := by positivity
  have e32 : ((binary32.prec : Nat) : Int) = 24 := rfl
  -- the constants 100 and 60
  have h100 : (100 : FloatVal).isFinite false 100 := by
    have := ofInt_exact binary32 100 6 (by norm_num) (by decide) (by decide) (by decide)
    exact_mod_cast this
  have h60 : (60 : FloatVal).isFinite false 60 := by
    have := ofInt_exact binary32 60 6 (by norm_num) (by decide) (by decide) (by decide)
    exact_mod_cast this
  -- the quotient c / 100 and its integer part
  obtain ⟨q, hq, hq1, hq2⟩ := fdiv_near binary32 c 100 false false rc 100 hc h100
    (by norm_num) 9 (by rw [div_lt_iff₀ (by norm_num)]; norm_num; linarith) (by decide)
    (by decide)
  have hq3 := (hq2 (by decide) D).1 (by rw [le_div_iff₀ (by norm_num)]; linarith)
  rw [e32] at hq1
  have hq4 : q < (D : ℚ) + 1 := by
    have := (abs_le.mp hq1).2
    have h5 : rc / 100 ≤ (D : ℚ) + 99995 / 100000 := by
      rw [div_le_iff₀ (by norm_num)]; linarith
    have h6 : (2 : ℚ) ^ ((9 : Int) - 24) = 1 / 32768 := by norm_num
    rw [h6] at this
    linarith
  have hint : toInt (c / 100) = (D : Int) :=
    toInt_floor (c / 100) q hq D hq3 hq4 (by omega)
  rw [hint]
  -- the degrees as a float, and the degrees times 100
  have hDf : (ofInt binary32 (D : Int)).isFinite false D :=
    ofInt_exact binary32 D 9 (by norm_num; linarith) (by decide) (by decide) (by decide)
  obtain ⟨t, ht, _, ht2⟩ := fmul_near binary32 (ofInt binary32 (D : Int)) 100 false false D 100
    hDf h100 16 (by norm_num; linarith) (by decide) (by decide)
  have ht3 : t = (D : ℚ) * 100 := by
    have g := ht2 (by decide) (D * 100)
    push_cast at g
    exact le_antisymm (g.2 le_rfl) (g.1 le_rfl)
  -- the minutes
  obtain ⟨m, hm, hm1, _⟩ := fsub_near binary32 c (ofInt binary32 (D : Int) * 100) rc t hc ht
    (by rw [ht3]; linarith) 6 (by rw [ht3]; norm_num; linarith) (by decide) (by decide)
  rw [e32, ht3] at hm1
  have hm0 := isFinite_nonneg _ _ _ hm
  have hm2 := abs_le.mp hm1
  have h18 : (2 : ℚ) ^ ((6 : Int) - 24) = 1 / 262144 := by norm_num
  rw [h18] at hm2
  -- the minutes over 60
  obtain ⟨r1, hr1, hr2, _⟩ := fdiv_near binary32 (c - ofInt binary32 (D : Int) * 100) 60 false
    false m 60 hm h60 (by norm_num) 0
    (by rw [div_lt_iff₀ (by norm_num)]; norm_num; linarith) (by decide) (by decide)
  rw [e32] at hr2
  have hr0 := isFinite_nonneg _ _ _ hr1
  have hr3 := abs_le.mp hr2
  have h24 : (2 : ℚ) ^ ((0 : Int) - 24) = 1 / 16777216 := by norm_num
  rw [h24] at hr3
  have hm60 : m / 60 ≤ 2 - 1 / 4 := by
    rw [div_le_iff₀ (by norm_num)]; linarith
  -- the sum
  obtain ⟨r, hr, hr4, _⟩ := fadd_near binary32 (ofInt binary32 (D : Int))
    ((c - ofInt binary32 (D : Int) * 100) / 60) D r1 hDf hr1 9
    (by norm_num; linarith) (by decide) (by decide)
  rw [e32] at hr4
  have hr5 := abs_le.mp hr4
  have h15 : (2 : ℚ) ^ ((9 : Int) - 24) = 1 / 32768 := by norm_num
  rw [h15] at hr5
  refine ⟨r, hr, ?_⟩
  have hdiv : m / 60 - (rc - 100 * (D : ℚ)) / 60 = (m - (rc - (D : ℚ) * 100)) / 60 := by ring
  rw [abs_le]
  constructor
  · have : -(1 / 262144 : ℚ) / 60 ≤ m / 60 - (rc - 100 * (D : ℚ)) / 60 := by
      rw [hdiv]
      exact div_le_div_of_nonneg_right hm2.1 (by norm_num)
    linarith [hr5.1, hr3.1]
  · have : m / 60 - (rc - 100 * (D : ℚ)) / 60 ≤ (1 / 262144 : ℚ) / 60 := by
      rw [hdiv]
      exact div_le_div_of_nonneg_right hm2.2 (by norm_num)
    linarith [hr5.2, hr3.2]

/-- The conversion of a coordinate written as a decimal number without sign, of value
`V = 100 * D + M` with `D ≤ 654` and `0 ≤ M ≤ 99.99`: the result is finite and within `1e-4` of
the closed formula, which is `D + M / 60`. -/
theorem nmea_to_degrees_near (s : List Nat) (flag : Bool) (D : Nat)
    (hdec : isDecimal s = true) (hsign : isNegative s = false) (hlen : 4 ≤ strlen s)
    (hD : D ≤ 654) (h1 : 100 * (D : ℚ) ≤ decimalValue s)
    (h2 : decimalValue s ≤ 100 * (D : ℚ) + 9999 / 100) :
    closedFormula (decimalValue s) = (D : ℚ) + (decimalValue s - 100 * (D : ℚ)) / 60 ∧
      (∃ r, (nmea_to_degrees float32 s flag).isFinite false r) ∧
      |(nmea_to_degrees float32 s flag).toRat - closedFormula (decimalValue s)| ≤ 1 / 10000 := by
  have hDq : (D : ℚ) ≤ 654 := by exact_mod_cast hD
  have hD0 : (0 : ℚ) ≤ D := by positivity
  have hV0 : 0 ≤ decimalValue s := by linarith
  have hcf := closedFormula_eq (decimalValue s) D h1 (by linarith)
  have hval := abs_decimalValue s
  rw [abs_of_nonneg hV0] at hval
  have hden : 1 ≤ 10 ^ decimalPlaces s := Nat.one_le_pow _ _ (by norm_num)
  -- the double
  obtain ⟨y, hy, hy1, hy2⟩ := roundFloat_near binary64 false (numeral (decimalDigits s))
    (10 ^ decimalPlaces s) hden (decimalValue s) hval 15 (by norm_num; linarith) (by decide)
    (by decide)
  have hy3 := (hy2 (by decide) (100 * D)).1 (by push_cast; linarith)
  push_cast at hy3
  have e64 : (2 : ℚ) ^ ((15 : Int) - ((binary64.prec : Nat) : Int)) ≤ 1 / 100000000000 := by
    norm_num [binary64]
  have hy4 := abs_le.mp (le_trans hy1 e64)
  have hatof : atof s = decimalDouble s := atof_of_isDecimal s hdec
  have hdd : decimalDouble s =
      roundFloat binary64 false (numeral (decimalDigits s)) (10 ^ decimalPlaces s) := by
    unfold decimalDouble
    rw [hsign]
  -- the float
  obtain ⟨c, hc, hc1, hc2⟩ := toFloat_near (atof s) false y (by rw [hatof, hdd]; exact hy) 15
    (by norm_num; linarith) (by decide) (by decide)
  have hc3 := (hc2 (by decide) (100 * D)).1 (by push_cast; linarith)
  push_cast at hc3
  have e32 : (2 : ℚ) ^ ((15 : Int) - 24) = 1 / 512 := by norm_num
  rw [e32] at hc1
  have hc4 := abs_le.mp hc1
  -- the computation on the float
  obtain ⟨r, hr, hr1⟩ := degrees_of_float (toFloat (atof s)) c D hc hD hc3 (by linarith)
  have hr2 := abs_le.mp hr1
  have heq : nmea_to_degrees float32 s flag =
      ofInt binary32 (toInt (toFloat (atof s) / 100)) +
        (toFloat (atof s) - ofInt binary32 (toInt (toFloat (atof s) / 100)) * 100) / 60 := by
    rw [nmea_to_degrees_eq, if_neg (by omega)]
  rw [heq]
  refine ⟨hcf, ⟨r, hr⟩, ?_⟩
  rw [toRat_of_isFinite _ _ _ hr, hcf]
  simp only [Bool.false_eq_true, if_false, one_mul]
  rw [abs_le]
  constructor <;> linarith

/-- C11, amended. For every text `s`, `nmea_to_degrees` in the arithmetic of `float` gives 0
when `s` has fewer than 4 characters; otherwise, with `V` the `float` that `atof` of `s`
converts to, which for a decimal number is its value rounded to `double` and then to `float`,
and `D` the cast `(int)` of the `float` quotient `V / 100`, it gives `D + (V - D * 100) / 60`
with every operation rounded to `float`.  When `s` is a decimal number without minus sign, of
at least 4 characters and of the value `V = 100 * D + M` with a natural number `D ≤ 654` and
`0 ≤ M ≤ 99.99`, the closed formula is `D + M / 60` and the result is finite and within `1e-4`
of it.  The result for `4807.038` is within `1e-4` of 48.1173 and the result for `01131.000`
is within `1e-4` of 11.5167. -/
theorem nmea_to_degrees_reference (s : List Nat) (flag : Bool) :
    (strlen s < 4 → nmea_to_degrees float32 s flag = 0) ∧
    (4 ≤ strlen s → nmea_to_degrees float32 s flag =
      ofInt binary32 (toInt (toFloat (atof s) / 100)) +
        (toFloat (atof s) - ofInt binary32 (toInt (toFloat (atof s) / 100)) * 100) / 60) ∧
    (isDecimal s = true → toFloat (atof s) = toFloat (decimalDouble s)) ∧
    (∀ D : Nat, isDecimal s = true → isNegative s = false → 4 ≤ strlen s → D ≤ 654 →
      100 * (D : ℚ) ≤ decimalValue s → decimalValue s ≤ 100 * (D : ℚ) + 9999 / 100 →
      closedFormula (decimalValue s) = (D : ℚ) + (decimalValue s - 100 * (D : ℚ)) / 60 ∧
        (∃ r, (nmea_to_degrees float32 s flag).isFinite false r) ∧
        |(nmea_to_degrees float32 s flag).toRat - closedFormula (decimalValue s)| ≤
          1 / 10000) ∧
    |(nmea_to_degrees float32 (bytes "4807.038") false).toRat - 481173 / 10000| ≤ 1 / 10000 ∧
    |(nmea_to_degrees float32 (bytes "01131.000") true).toRat - 115167 / 10000| ≤
      1 / 10000 := by
  refine ⟨fun h => ?_, fun h => ?_, fun h => congrArg toFloat (atof_of_isDecimal s h),
    fun D hdec hsign hlen hD h1 h2 => nmea_to_degrees_near s flag D hdec hsign hlen hD h1 h2,
    ?_, ?_⟩
  · rw [nmea_to_degrees_eq, if_pos h]
  · rw [nmea_to_degrees_eq, if_neg (by omega)]
  · rw [degrees_4807_038, toRat_finite_neg_exp, abs_le]
    constructor <;> norm_num
  · rw [degrees_01131_000, toRat_finite_neg_exp, abs_le]
    constructor <;> norm_num

/-- C11 amended, at the texts of the specification: `123` gives 0, `4807.038` gives the
`float` with the bits `0x4240781e`, which is `6306831 / 2 ^ 17`, and `01131.000` gives the
`float` with the bits `0x41384444`, which is `3019025 / 2 ^ 18`; the closed formula gives
`48 + 7.038 / 60` and `11 + 31 / 60` for them, and the results are within `1e-4` of these. -/
theorem nmea_to_degrees_reference_witness :
    nmea_to_degrees float32 (bytes "123") true = 0 ∧
      nmea_to_degrees float32 (bytes "4807.038") false = FloatVal.finite false 6306831 (-17) ∧
      bits32 (nmea_to_degrees float32 (bytes "4807.038") false) = 0x4240781e ∧
      nmea_to_degrees float32 (bytes "01131.000") true = FloatVal.finite false 3019025 (-18) ∧
      bits32 (nmea_to_degrees float32 (bytes "01131.000") true) = 0x41384444 ∧
      closedFormula (4807038 / 1000) = 48 + (7038 / 1000) / 60 ∧
      |(nmea_to_degrees float32 (bytes "4807.038") false).toRat -
        closedFormula (4807038 / 1000)| ≤ 1 / 10000 ∧
      closedFormula (1131000 / 1000) = 11 + 31 / 60 ∧
      |(nmea_to_degrees float32 (bytes "01131.000") true).toRat -
        closedFormula (1131000 / 1000)| ≤ 1 / 10000 := by
  have w1 : decimalValue (bytes "4807.038") = 4807038 / 1000 := by
    rw [decimalValue_eq (bytes "4807.038") 4807038 3 (by decide) (by decide) (by decide)]
    norm_num
  have w2 : decimalValue (bytes "01131.000") = 1131000 / 1000 := by
    rw [decimalValue_eq (bytes "01131.000") 1131000 3 (by decide) (by decide) (by decide)]
    norm_num
  have h1 := (nmea_to_degrees_reference (bytes "4807.038") false).2.1 (by decide)
  have h2 := (nmea_to_degrees_reference (bytes "01131.000") true).2.1 (by decide)
  obtain ⟨c1, _, a1⟩ := (nmea_to_degrees_reference (bytes "4807.038") false).2.2.2.1 48
    (by decide) (by decide) (by decide) (by decide) (by rw [w1]; norm_num) (by rw [w1]; norm_num)
  obtain ⟨c2, _, a2⟩ := (nmea_to_degrees_reference (bytes "01131.000") true).2.2.2.1 11
    (by decide) (by decide) (by decide) (by decide) (by rw [w2]; norm_num) (by rw [w2]; norm_num)
  rw [w1] at c1 a1
  rw [w2] at c2 a2
  refine ⟨(nmea_to_degrees_reference (bytes "123") true).1 (by decide), h1.trans (by decide), ?_,
    h2.trans (by decide), ?_, ?_, a1, ?_, a2⟩
  · rw [h1]; decide
  · rw [h2]; decide
  · rw [c1]; norm_num
  · rw [c2]; norm_num

/-- C11 as stated fails.  The text `4799.9999` is a decimal number of 9 characters with the
value `V = 4799.9999`; `V / 100` truncated toward zero is 47, and the closed formula gives
`47 + 99.9999 / 60 = 48.666665`.  The `float` next to `V` is 4800, and `nmea_to_degrees` gives
the `float` 48, with either flag. -/
theorem closed_formula_fails :
    strlen (bytes "4799.9999") = 9 ∧ isDecimal (bytes "4799.9999") = true ∧
      decimalValue (bytes "4799.9999") = 47999999 / 10000 ∧
      truncToZero ((47999999 / 10000 : ℚ) / 100) = 47 ∧
      closedFormula (47999999 / 10000) = 9733333 / 200000 ∧
      toFloat (atof (bytes "4799.9999")) = 4800 ∧
      nmea_to_degrees float32 (bytes "4799.9999") false = 48 ∧
      nmea_to_degrees float32 (bytes "4799.9999") true = 48 ∧
      (48 : FloatVal).toRat = 48 ∧
      (48 : ℚ) ≠ 9733333 / 200000 := by
  have ht : truncToZero ((47999999 / 10000 : ℚ) / 100) = 47 :=
    truncToZero_of_bounds _ 47 (by norm_num) (by norm_num) (by norm_num)
  have h48 : (48 : FloatVal) = FloatVal.finite false 3 ((4 : Nat) : Int) := by decide
  refine ⟨by decide, by decide, ?_, ht, ?_, by decide, by decide, by decide, ?_, by norm_num⟩
  · rw [decimalValue_eq (bytes "4799.9999") 47999999 4 (by decide) (by decide) (by decide)]
    norm_num
  · unfold closedFormula
    rw [ht]
    norm_num
  · rw [h48, toRat_finite_pos_exp]
    norm_num

/-- C19. The longitude flag does not change the conversion, whatever the arithmetic of
`float`: both branches of `if (is_longitude)` compute the same value. -/
theorem longitude_flag_irrelevant {F : Type} (ops : FloatOps F) (s : List Nat) :
    nmea_to_degrees ops s true = nmea_to_degrees ops s false := by
  unfold nmea_to_degrees
  by_cases h : strlen s < 4
  · rw [if_pos h, if_pos h]
  · rw [if_neg h, if_neg h]
    rfl

/-! ## Completed lines, the sentence counter and the report -/

/-- From cursor 0, a sentence followed by a terminator is completed as a line and handed
to `handle_line`; the cursor is 0 again. -/
theorem rx_loop_sentence (s : State) (hw : s.wf) (hp : s.gps_rx_buf_pos = 0) (snt : List Nat)
    (hsnt : isSentence snt) (t : Nat) (ht : isTerminator t) :
    ∃ s1, rx_loop s (snt ++ [t]) = some s1 ∧ s1.wf ∧ s1.gps_rx_buf_pos = 0 ∧
      s1.rest = (handle_line { s with gps_rx_buf := snt, lines := s.lines ++ [snt] }).rest := by
  obtain ⟨hne, hfit, hb⟩ := hsnt
  obtain ⟨s1, h1, hw1, hp1, hr1⟩ := rx_loop_run_term s hw snt (fun b hb1 => (hb b hb1).1) t ht
  have hc : s.content = [] := by simp [State.content, hp]
  have hacc : snt.foldl accumulate s.content = snt := by
    rw [hc, foldl_accumulate_fit]
    · simp
    · simpa [GPS_RX_BUF_SIZE] using hfit
  have hnil : ¬ snt = [] := by
    intro h
    rw [h] at hne
    simp at hne
  have hcs : cstr snt = snt := cstr_of_no_nul snt (fun b hb1 => (hb b hb1).2)
  rw [hacc, if_neg hnil, hcs] at hr1
  exact ⟨s1, h1, hw1, hp1, hr1⟩

/-- The counter and the number of reports after a line that passes the filter. -/
theorem rx_loop_wanted (s : State) (hw : s.wf) (hp : s.gps_rx_buf_pos = 0) (snt : List Nat)
    (hsnt : isSentence snt) (hwant : wanted snt = true) (t : Nat) (ht : isTerminator t)
    (hc : s.sentence_count < 10) :
    ∃ s1, rx_loop s (snt ++ [t]) = some s1 ∧ s1.wf ∧ s1.gps_rx_buf_pos = 0 ∧
      s1.sentence_count = (s.sentence_count + 1) % 10 ∧
      s1.renders = s.renders + (s.sentence_count + 1) / 10 := by
  obtain ⟨s1, h1, hw1, hp1, hr1⟩ := rx_loop_sentence s hw hp snt hsnt t ht
  have hcs : cstr snt = snt := cstr_of_no_nul snt (fun b hb1 => (hsnt.2.2 b hb1).2)
  rw [handle_line_rest] at hr1
  simp only [hcs, hwant, if_true, State.rest, Prod.mk.injEq] at hr1
  obtain ⟨e1, _, e3, _, _⟩ := hr1
  have hmod : (s.sentence_count + 1) % 2 ^ 32 = s.sentence_count + 1 :=
    Nat.mod_eq_of_lt (by omega)
  rw [hmod] at e1 e3
  refine ⟨s1, h1, hw1, hp1, ?_, ?_⟩
  · rw [e1]
    split <;> omega
  · rw [e3]
    split <;> omega

theorem stream_cons (l : List Nat) (t : Nat) (r : List (List Nat × Nat)) :
    stream ((l, t) :: r) = (l ++ [t]) ++ stream r := by
  simp [stream]

/-- From a counter `c < 10`, `k` lines that pass the filter leave the counter at
`(c + k) % 10` after `(c + k) / 10` reports. -/
theorem rx_loop_cadence (ss : List (List Nat × Nat)) :
    ∀ (s : State), s.wf → s.gps_rx_buf_pos = 0 → s.sentence_count < 10 →
      (∀ p ∈ ss, isSentence p.1 ∧ wanted p.1 = true ∧ isTerminator p.2) →
      ∃ s1, rx_loop s (stream ss) = some s1 ∧ s1.wf ∧ s1.gps_rx_buf_pos = 0 ∧
        s1.sentence_count = (s.sentence_count + ss.length) % 10 ∧
        s1.renders = s.renders + (s.sentence_count + ss.length) / 10 := by
  induction ss with
  | nil =>
      intro s hw hp hc _
      refine ⟨s, rfl, hw, hp, ?_, ?_⟩
      · simp only [List.length_nil]; omega
      · simp only [List.length_nil]; omega
  | cons p ss ih =>
      intro s hw hp hc hall
      obtain ⟨l, t⟩ := p
      obtain ⟨hl, hwant, ht⟩ := hall (l, t) (by simp)
      obtain ⟨s1, h1, hw1, hp1, hc1, hr1⟩ := rx_loop_wanted s hw hp l hl hwant t ht hc
      obtain ⟨s2, h2, hw2, hp2, hc2, hr2⟩ := ih s1 hw1 hp1 (by rw [hc1]; omega)
        (fun q hq => hall q (by simp [hq]))
      refine ⟨s2, ?_, hw2, hp2, ?_, ?_⟩
      · rw [stream_cons, rx_loop_append, h1]
        simpa using h2
      · rw [hc2, hc1]
        simp only [List.length_cons]
        omega
      · rw [hr2, hr1, hc1]
        simp only [List.length_cons]
        omega

theorem wanted_of_starts (l p : List Nat) (hp : cstr p = p) (hl : cstr l = l) (h : p <+: l) :
    (strstr l p).isSome = true := by
  have : strstr l p = some 0 := by
    rw [strstr_zero_iff, hp, hl]
    exact h
  rw [this]
  rfl

/-- A recognized sentence passes the filter of the receive loop. -/
theorem wanted_of_recognized (l : List Nat) (hl : cstr l = l) (h : recognized l) :
    wanted l = true := by
  unfold wanted
  rcases h with h | h | h | h
  · simp [wanted_of_starts l GNGGA cstr_GNGGA hl h]
  · simp [wanted_of_starts l GPGGA cstr_GPGGA hl h]
  · simp [wanted_of_starts l GNRMC cstr_GNRMC hl h]
  · simp [wanted_of_starts l GPRMC cstr_GPRMC hl h]

/-- C12. Report cadence: from a state with an empty line buffer and sentence counter 0, `k`
consecutive recognized sentences, each followed by a terminator, call `print_gps_info`
exactly `k / 10` times and leave the counter at `k % 10`; as this holds for every `k`, the
calls happen while the 10th, 20th, ... sentence is handled. -/
theorem report_cadence (s : State) (hw : s.wf) (hp : s.gps_rx_buf_pos = 0)
    (hc : s.sentence_count = 0) (ss : List (List Nat × Nat))
    (hss : ∀ p ∈ ss, isSentence p.1 ∧ recognized p.1 ∧ isTerminator p.2) :
    ∃ s1, rx_loop s (stream ss) = some s1 ∧ s1.renders = s.renders + ss.length / 10 ∧
      s1.sentence_count = ss.length % 10 := by
  obtain ⟨s1, h1, _, _, hc1, hr1⟩ := rx_loop_cadence ss s hw hp (by omega)
    (fun p hp1 => ⟨(hss p hp1).1,
      wanted_of_recognized p.1
        (cstr_of_no_nul p.1 (fun b hb => ((hss p hp1).1.2.2 b hb).2)) (hss p hp1).2.1,
      (hss p hp1).2.2⟩)
  rw [hc, Nat.zero_add] at hc1 hr1
  exact ⟨s1, h1, hr1, hc1⟩

theorem gga_line_ok :
    isSentence (bytes "$GPGGA,123519") ∧ recognized (bytes "$GPGGA,123519") ∧
      isTerminator 10 := by
  unfold isSentence recognized
  decide

/-- C12, at the initial state: ten sentences `$GPGGA,123519` call `print_gps_info` once, nine
never. -/
theorem report_cadence_witness :
    (∃ s1, rx_loop State.init (stream (List.replicate 10 (bytes "$GPGGA,123519", 10))) =
        some s1 ∧ s1.renders = 1 ∧ s1.sentence_count = 0) ∧
      (∃ s1, rx_loop State.init (stream (List.replicate 9 (bytes "$GPGGA,123519", 10))) =
        some s1 ∧ s1.renders = 0 ∧ s1.sentence_count = 9) := by
  constructor
  · obtain ⟨s1, h1, hr, hc⟩ := report_cadence State.init init_wf rfl rfl
      (List.replicate 10 (bytes "$GPGGA,123519", 10))
      (fun p hp => by rw [List.eq_of_mem_replicate hp]; exact gga_line_ok)
    refine ⟨s1, h1, ?_, ?_⟩
    · rw [hr, List.length_replicate]; rfl
    · rw [hc, List.length_replicate]
  · obtain ⟨s1, h1, hr, hc⟩ := report_cadence State.init init_wf rfl rfl
      (List.replicate 9 (bytes "$GPGGA,123519", 10))
      (fun p hp => by rw [List.eq_of_mem_replicate hp]; exact gga_line_ok)
    refine ⟨s1, h1, ?_, ?_⟩
    · rw [hr, List.length_replicate]; rfl
    · rw [hc, List.length_replicate]

/-- C13 as stated fails: the line `x$GPGGA,123519` is not classified by `parse_nmea` (it
takes neither branch and the record stays as it is), yet the receive loop passes it to
`parse_nmea` and advances the sentence counter from 0 to 1. -/
theorem unclassified_line_is_counted :
    sentence_kind (parse_buf (bytes "x$GPGGA,123519")) = SentenceKind.other ∧
      ∃ s1, rx_loop State.init (bytes "x$GPGGA,123519" ++ [10]) = some s1 ∧
        State.init.sentence_count = 0 ∧ s1.sentence_count = 1 ∧
        s1.parsed = [bytes "x$GPGGA,123519"] ∧
        s1.current_gps = State.init.current_gps := by
  constructor
  · rw [sentence_kind_parse_buf]
    decide
  · have hsen : isSentence (bytes "x$GPGGA,123519") := by
      unfold isSentence
      decide
    obtain ⟨s1, h1, _, _, hr1⟩ :=
      rx_loop_sentence State.init init_wf rfl (bytes "x$GPGGA,123519") hsen 10 (Or.inl rfl)
    have hcs : cstr (bytes "x$GPGGA,123519") = bytes "x$GPGGA,123519" := by decide
    have hwant : wanted (bytes "x$GPGGA,123519") = true := by decide
    have hparse : parse_nmea gps_zero (bytes "x$GPGGA,123519") = gps_zero :=
      parse_nmea_other _ _ (by decide) (by decide) (by decide) (by decide)
    rw [handle_line_rest] at hr1
    simp only [hcs, hwant, if_true, State.rest, Prod.mk.injEq] at hr1
    obtain ⟨e1, e2, _, _, e5⟩ := hr1
    refine ⟨s1, h1, rfl, ?_, ?_, ?_⟩
    · rw [e1]; decide
    · rw [e5]; rfl
    · rw [e2]; exact hparse

/-! ## Terminators and the content of a line -/

theorem handle_line_lines (s : State) : (handle_line s).lines = s.lines := by
  have h := handle_line_rest s
  by_cases hwant : wanted (cstr s.gps_rx_buf) = true
  · rw [if_pos hwant] at h
    simp only [State.rest, Prod.mk.injEq] at h
    exact h.2.2.2.1
  · rw [if_neg hwant] at h
    simp only [State.rest, Prod.mk.injEq] at h
    exact h.2.2.2.1

/-- The receive loop treats CR and LF alike. -/
theorem rx_byte_cr_lf (s : State) : rx_byte s 13 = rx_byte s 10 := by
  simp [rx_byte]

/-- A byte adds a line to the record of completed lines only if it is a terminator that
meets a cursor above 0. -/
theorem line_needs_terminator (s : State) (c : Nat) (s1 : State) (h : rx_byte s c = some s1)
    (hl : s1.lines ≠ s.lines) : isTerminator c ∧ 0 < s.gps_rx_buf_pos := by
  by_contra hcon
  have hcon1 : ¬ ((c = 10 ∨ c = 13) ∧ 0 < s.gps_rx_buf_pos) := hcon
  apply hl
  unfold rx_byte at h
  rw [if_neg hcon1] at h
  by_cases hd : c ≠ 13 ∧ c ≠ 10
  · rw [if_pos hd] at h
    by_cases hlt : s.gps_rx_buf_pos < GPS_RX_BUF_SIZE - 1
    · rw [if_pos hlt] at h
      cases hst : store s.gps_rx_buf s.gps_rx_buf_pos c with
      | none => rw [hst] at h; cases h
      | some buf =>
          rw [hst] at h
          cases h
          rfl
    · rw [if_neg hlt] at h
      cases h
      rfl
  · rw [if_neg hd] at h
    cases h
    rfl

/-- C14. Terminators on an empty buffer are ignored: at cursor 0 a CR or LF leaves the whole
state as it is (no line, no call of the parser or the formatter, cursor, counter and record
unchanged); a byte completes a line only if it is a terminator that arrives at a cursor above
0; and a sentence `snt` followed by CR LF, by LF or by CR leads to one and the same state, in
which the one line `snt` has been added. -/
theorem terminator_on_empty_buffer :
    (∀ (s : State) (t : Nat), s.gps_rx_buf_pos = 0 → isTerminator t → rx_byte s t = some s) ∧
    (∀ (s : State) (c : Nat) (s1 : State), rx_byte s c = some s1 → s1.lines ≠ s.lines →
      isTerminator c ∧ 0 < s.gps_rx_buf_pos) ∧
    (∀ (s : State) (snt : List Nat), s.wf → s.gps_rx_buf_pos = 0 → isSentence snt →
      ∃ s1, rx_loop s (snt ++ [13, 10]) = some s1 ∧ rx_loop s (snt ++ [10]) = some s1 ∧
        rx_loop s (snt ++ [13]) = some s1 ∧ s1.lines = s.lines ++ [snt]) := by
  refine ⟨rx_byte_term_empty, line_needs_terminator, ?_⟩
  intro s snt hw hp hsnt
  obtain ⟨s1, h1, _, hp1, hr1⟩ := rx_loop_sentence s hw hp snt hsnt 13 (Or.inr rfl)
  have hlf : rx_loop s (snt ++ [10]) = some s1 := by
    rw [rx_loop_append] at h1 ⊢
    cases hrun : rx_loop s snt with
    | none => rw [hrun] at h1; simp at h1
    | some u =>
        rw [hrun] at h1
        simp only [Option.some_bind, rx_loop] at h1 ⊢
        rw [← rx_byte_cr_lf]
        exact h1
  refine ⟨s1, ?_, hlf, h1, ?_⟩
  · have happ : snt ++ [13, 10] = (snt ++ [13]) ++ [10] := by simp
    rw [happ, rx_loop_append, h1]
    simp only [Option.some_bind, rx_loop]
    rw [rx_byte_term_empty s1 10 hp1 (Or.inl rfl)]
  · simp only [State.rest, Prod.mk.injEq] at hr1
    rw [hr1.2.2.2.1, handle_line_lines]

/-- C14, at the initial state: LF and CR leave it as it is, and `$GPGGA,123519` followed by
CR LF, by LF or by CR gives one state with the one line `$GPGGA,123519`. -/
theorem terminator_on_empty_buffer_witness :
    rx_byte State.init 10 = some State.init ∧ rx_byte State.init 13 = some State.init ∧
      ∃ s1, rx_loop State.init (bytes "$GPGGA,123519" ++ [13, 10]) = some s1 ∧
        rx_loop State.init (bytes "$GPGGA,123519" ++ [10]) = some s1 ∧
        rx_loop State.init (bytes "$GPGGA,123519" ++ [13]) = some s1 ∧
        s1.lines = State.init.lines ++ [bytes "$GPGGA,123519"] :=
  ⟨terminator_on_empty_buffer.1 State.init 10 rfl (Or.inl rfl),
    terminator_on_empty_buffer.1 State.init 13 rfl (Or.inr rfl),
    terminator_on_empty_buffer.2.2 State.init (bytes "$GPGGA,123519") init_wf rfl
      gga_line_ok.1⟩

/-- C20. Exact content of an emitted line: from cursor 0, a run of `n ≥ 1` bytes, none a
terminator or NUL, followed by a terminator completes a line if and only if `n % 256` is not
0, and that line is the last `n % 256` bytes of the run; so a run of at most 255 bytes is
completed unchanged and a run of exactly 256 bytes completes no line.  The cursor is 0 after
the terminator in every case. -/
theorem emitted_line_exact (s : State) (hw : s.wf) (hp : s.gps_rx_buf_pos = 0)
    (run : List Nat) (hrun : ∀ b ∈ run, ¬ isTerminator b ∧ b ≠ 0) (_hn : 1 ≤ run.length)
    (t : Nat) (ht : isTerminator t) :
    ∃ s1, rx_loop s (run ++ [t]) = some s1 ∧ s1.gps_rx_buf_pos = 0 ∧
      s1.lines = (if run.length % 256 = 0 then s.lines
        else s.lines ++ [run.drop (run.length - run.length % 256)]) ∧
      (run.drop (run.length - run.length % 256)).length = run.length % 256 ∧
      (run.length ≤ 255 → s1.lines = s.lines ++ [run]) ∧
      (run.length = 256 → s1.lines = s.lines) := by
  obtain ⟨s1, h1, _, hp1, hr1⟩ := rx_loop_run_term s hw run (fun b hb => (hrun b hb).1) t ht
  have hc : s.content = [] := by simp [State.content, hp]
  have hidx : 256 * (run.length / 256) = run.length - run.length % 256 := by omega
  rw [hc, foldl_accumulate_nil, hidx] at hr1
  have hlen : (run.drop (run.length - run.length % 256)).length = run.length % 256 := by
    simp only [List.length_drop]
    omega
  have hcs : cstr (run.drop (run.length - run.length % 256)) =
      run.drop (run.length - run.length % 256) :=
    cstr_of_no_nul _ (fun b hb => (hrun b (List.mem_of_mem_drop hb)).2)
  have hlines : s1.lines = (if run.length % 256 = 0 then s.lines
      else s.lines ++ [run.drop (run.length - run.length % 256)]) := by
    by_cases hz : run.length % 256 = 0
    · have hnil : run.drop (run.length - run.length % 256) = [] :=
        List.length_eq_zero.mp (hlen.trans hz)
      rw [if_pos hnil] at hr1
      rw [if_pos hz]
      simp only [State.rest, Prod.mk.injEq] at hr1
      exact hr1.2.2.2.1
    · have hnil : ¬ run.drop (run.length - run.length % 256) = [] := by
        intro h
        rw [h] at hlen
        exact hz hlen.symm
      rw [if_neg hnil, hcs] at hr1
      rw [if_neg hz]
      simp only [State.rest, Prod.mk.injEq] at hr1
      rw [hr1.2.2.2.1, handle_line_lines]
  refine ⟨s1, h1, hp1, hlines, hlen, ?_, ?_⟩
  · intro hle
    have hm : run.length % 256 = run.length := Nat.mod_eq_of_lt (by omega)
    rw [hlines, hm, if_neg (by omega), Nat.sub_self, List.drop_zero]
  · intro heq
    rw [hlines, if_pos (by omega)]

theorem replicate_text (n : Nat) :
    ∀ b ∈ List.replicate n 120, ¬ isTerminator b ∧ b ≠ 0 := by
  intro b hb
  rw [List.eq_of_mem_replicate hb]
  decide

/-- C20, at the initial state: `$GPGGA,123519` and LF complete that line, and 256 bytes `x`
and LF complete no line; the cursor is 0 afterwards. -/
theorem emitted_line_exact_witness :
    (∃ s1, rx_loop State.init (bytes "$GPGGA,123519" ++ [10]) = some s1 ∧
      s1.gps_rx_buf_pos = 0 ∧ s1.lines = [bytes "$GPGGA,123519"]) ∧
    (∃ s1, rx_loop State.init (List.replicate 256 120 ++ [10]) = some s1 ∧
      s1.gps_rx_buf_pos = 0 ∧ s1.lines = []) := by
  constructor
  · obtain ⟨s1, h1, hp1, _, _, hle, _⟩ :=
      emitted_line_exact State.init init_wf rfl (bytes "$GPGGA,123519") gga_line_ok.1.2.2
        gga_line_ok.1.1 10 (Or.inl rfl)
    exact ⟨s1, h1, hp1, hle (by decide)⟩
  · obtain ⟨s1, h1, hp1, _, _, _, heq⟩ :=
      emitted_line_exact State.init init_wf rfl (List.replicate 256 120) (replicate_text 256)
        (by rw [List.length_replicate]; omega) 10 (Or.inl rfl)
    exact ⟨s1, h1, hp1, heq (List.length_replicate _ _)⟩

/-! ## Field groups -/

/-- The handling of a field of an RMC sentence writes none of the slots of the GGA group. -/
theorem rmc_case_frame (g : gps_data) (i : Nat) (tok : List Nat) :
    (rmc_case g i tok).time = g.time ∧
    (rmc_case g i tok).latitude = g.latitude ∧
    (rmc_case g i tok).lat_dir = g.lat_dir ∧
    (rmc_case g i tok).longitude = g.longitude ∧
    (rmc_case g i tok).lon_dir = g.lon_dir ∧
    (rmc_case g i tok).fix_quality = g.fix_quality ∧
    (rmc_case g i tok).satellites = g.satellites ∧
    (rmc_case g i tok).hdop = g.hdop ∧
    (rmc_case g i tok).altitude = g.altitude := by
  unfold rmc_case
  split <;> simp

theorem parse_nmea_gga (g : gps_data) (s : List Nat) (h : GPGGA <+: s ∨ GNGGA <+: s) :
    parse_nmea g s =
      token_loop gga_case 15 0 (strtok_r ((cstr s).take 255) [44]).1
        (strtok_r ((cstr s).take 255) [44]).2 g := by
  rw [parse_nmea_eq, (sentence_kind_gga_iff s).mpr h.symm]

theorem parse_nmea_rmc (g : gps_data) (s : List Nat) (h : GPRMC <+: s ∨ GNRMC <+: s) :
    parse_nmea g s =
      token_loop rmc_case 10 0 (strtok_r ((cstr s).take 255) [44]).1
        (strtok_r ((cstr s).take 255) [44]).2 g := by
  rw [parse_nmea_eq, (sentence_kind_rmc_iff s).mpr h.symm]

/-- C15. Field groups are updated independently per sentence type: parsing any GGA sentence
leaves valid, speed_knots and course unchanged, and parsing any RMC sentence leaves time,
latitude, lat_dir, longitude, lon_dir, fix_quality, satellites, hdop and altitude
unchanged. -/
theorem field_groups_independent (g : gps_data) (s : List Nat) :
    ((GPGGA <+: s ∨ GNGGA <+: s) →
      (parse_nmea g s).valid = g.valid ∧ (parse_nmea g s).speed_knots = g.speed_knots ∧
        (parse_nmea g s).course = g.course) ∧
    ((GPRMC <+: s ∨ GNRMC <+: s) →
      (parse_nmea g s).time = g.time ∧ (parse_nmea g s).latitude = g.latitude ∧
        (parse_nmea g s).lat_dir = g.lat_dir ∧ (parse_nmea g s).longitude = g.longitude ∧
        (parse_nmea g s).lon_dir = g.lon_dir ∧
        (parse_nmea g s).fix_quality = g.fix_quality ∧
        (parse_nmea g s).satellites = g.satellites ∧ (parse_nmea g s).hdop = g.hdop ∧
        (parse_nmea g s).altitude = g.altitude) := by
  constructor
  · intro h
    rw [parse_nmea_gga g s h]
    exact ⟨token_loop_frame gps_data.valid gga_case 0
        (fun g1 i tok _ => (gga_case_frame g1 i tok).2.2.2.2.2.2.2.2.2.1) 15 0 _ _ g
        (Nat.le_refl 0),
      token_loop_frame gps_data.speed_knots gga_case 0
        (fun g1 i tok _ => (gga_case_frame g1 i tok).2.2.2.2.2.2.2.2.2.2.1) 15 0 _ _ g
        (Nat.le_refl 0),
      token_loop_frame gps_data.course gga_case 0
        (fun g1 i tok _ => (gga_case_frame g1 i tok).2.2.2.2.2.2.2.2.2.2.2) 15 0 _ _ g
        (Nat.le_refl 0)⟩
  · intro h
    rw [parse_nmea_rmc g s h]
    exact ⟨token_loop_frame gps_data.time rmc_case 0
        (fun g1 i tok _ => (rmc_case_frame g1 i tok).1) 10 0 _ _ g (Nat.le_refl 0),
      token_loop_frame gps_data.latitude rmc_case 0
        (fun g1 i tok _ => (rmc_case_frame g1 i tok).2.1) 10 0 _ _ g (Nat.le_refl 0),
      token_loop_frame gps_data.lat_dir rmc_case 0
        (fun g1 i tok _ => (rmc_case_frame g1 i tok).2.2.1) 10 0 _ _ g (Nat.le_refl 0),
      token_loop_frame gps_data.longitude rmc_case 0
        (fun g1 i tok _ => (rmc_case_frame g1 i tok).2.2.2.1) 10 0 _ _ g (Nat.le_refl 0),
      token_loop_frame gps_data.lon_dir rmc_case 0
        (fun g1 i tok _ => (rmc_case_frame g1 i tok).2.2.2.2.1) 10 0 _ _ g (Nat.le_refl 0),
      token_loop_frame gps_data.fix_quality rmc_case 0
        (fun g1 i tok _ => (rmc_case_frame g1 i tok).2.2.2.2.2.1) 10 0 _ _ g (Nat.le_refl 0),
      token_loop_frame gps_data.satellites rmc_case 0
        (fun g1 i tok _ => (rmc_case_frame g1 i tok).2.2.2.2.2.2.1) 10 0 _ _ g (Nat.le_refl 0),
      token_loop_frame gps_data.hdop rmc_case 0
        (fun g1 i tok _ => (rmc_case_frame g1 i tok).2.2.2.2.2.2.2.1) 10 0 _ _ g
        (Nat.le_refl 0),
      token_loop_frame gps_data.altitude rmc_case 0
        (fun g1 i tok _ => (rmc_case_frame g1 i tok).2.2.2.2.2.2.2.2) 10 0 _ _ g
        (Nat.le_refl 0)⟩

/-- C15, at the sample record: the GGA sentence of the specification keeps valid, speed 7
and course 180, and its RMC sentence keeps fix quality 2, 5 satellites and lon_dir `W`. -/
theorem field_groups_independent_witness :
    ((parse_nmea gps_sample
        (bytes "$GPGGA,123519,4807.038,N,01131.000,E,1,08,0.9,545.4,M,,,,*")).valid = true ∧
      (parse_nmea gps_sample
        (bytes "$GPGGA,123519,4807.038,N,01131.000,E,1,08,0.9,545.4,M,,,,*")).speed_knots = 7 ∧
      (parse_nmea gps_sample
        (bytes "$GPGGA,123519,4807.038,N,01131.000,E,1,08,0.9,545.4,M,,,,*")).course = 180) ∧
    ((parse_nmea gps_sample (bytes "$GPRMC,123519,V,,,,,,,,,,")).fix_quality = 2 ∧
      (parse_nmea gps_sample (bytes "$GPRMC,123519,V,,,,,,,,,,")).satellites = 5 ∧
      (parse_nmea gps_sample (bytes "$GPRMC,123519,V,,,,,,,,,,")).lon_dir = 87) := by
  obtain ⟨a1, a2, a3⟩ :=
    (field_groups_independent gps_sample
      (bytes "$GPGGA,123519,4807.038,N,01131.000,E,1,08,0.9,545.4,M,,,,*")).1
      (Or.inl ⟨bytes ",123519,4807.038,N,01131.000,E,1,08,0.9,545.4,M,,,,*", by decide⟩)
  obtain ⟨_, _, _, _, b5, b6, b7, _, _⟩ :=
    (field_groups_independent gps_sample (bytes "$GPRMC,123519,V,,,,,,,,,,")).2
      (Or.inl ⟨bytes ",123519,V,,,,,,,,,,", by decide⟩)
  exact ⟨⟨a1, a2, a3⟩, b6, b7, b5⟩

/-! ## Time, coordinates and malformed numbers -/

/-- A GGA sentence, as the line buffer delivers it, whose fields `mid` and `last` after the
first are not empty: a component of the record that the later fields leave alone is the one
obtained by handling these fields, each at its own index. -/
theorem parse_gga_prefix {α : Type} (proj : gps_data → α) (g : gps_data) (s f0 : List Nat)
    (mid : List (List Nat)) (last : List Nat) (rest : List (List Nat))
    (hstart : GPGGA <+: s ∨ GNGGA <+: s) (hlen : s.length ≤ 255) (hnul : ∀ b ∈ s, b ≠ 0)
    (hs : splitComma s = f0 :: (mid ++ last :: rest)) (hmid : ∀ f ∈ mid, f ≠ [])
    (hlast : last ≠ []) (hb : mid.length + 1 < 15)
    (hbody : ∀ (g1 : gps_data) (i : Nat) (tok : List Nat), mid.length + 2 ≤ i →
      proj (gga_case g1 i tok) = proj g1) :
    proj (parse_nmea g s) = proj (apply_fields gga_case g 1 (mid ++ [last])) := by
  have h0 : f0 ≠ [] := by
    rcases hstart with h | h
    · exact first_field_ne_nil s _ f0 _ h hs
    · exact first_field_ne_nil s _ f0 _ h hs
  rw [parse_nmea_gga g s hstart, parse_text s hlen hnul,
    token_loop_prefix proj gga_case 15 s f0 mid last rest g hs h0 hmid hlast hb hbody]
  rfl

theorem field_no_nul (s : List Nat) (hnul : ∀ b ∈ s, b ≠ 0) (f : List Nat)
    (hf : f ∈ splitComma s) : ∀ b ∈ f, b ≠ 0 :=
  fun b hb => hnul b (mem_splitComma s f hf b hb)

/-- The time handling of a GGA sentence whose field 1 is not empty: with at least 6
characters in field 1 the time becomes `c0c1:c2c3:c4c5`, with fewer it stays as it was. -/
theorem gga_time_handling (g : gps_data) (s f0 f1 : List Nat) (rest : List (List Nat))
    (hstart : GPGGA <+: s ∨ GNGGA <+: s) (hlen : s.length ≤ 255) (hnul : ∀ b ∈ s, b ≠ 0)
    (hs : splitComma s = f0 :: f1 :: rest) (h1 : f1 ≠ []) :
    (6 ≤ f1.length → cstr (parse_nmea g s).time =
      f1.take 2 ++ [58] ++ (f1.drop 2).take 2 ++ [58] ++ (f1.drop 4).take 2) ∧
    (f1.length < 6 → (parse_nmea g s).time = g.time) := by
  have n1 : ∀ b ∈ f1, b ≠ 0 := field_no_nul s hnul f1 (by rw [hs]; simp)
  have key := parse_gga_prefix gps_data.time g s f0 [] f1 rest hstart hlen hnul
    (by simpa using hs) (by simp) h1 (by simp)
    (fun g1 i tok hi => (gga_case_frame g1 i tok).1 (by simp at hi; omega))
  have hstr : strlen f1 = f1.length := by rw [strlen, cstr_of_no_nul f1 n1]
  rw [key]
  simp only [List.nil_append, apply_fields, gga_case, hstr]
  constructor
  · intro h6
    rw [if_pos h6]
    exact cstr_snprintf_time _ _ n1 h6
  · intro h6
    rw [if_neg (by omega)]

/-- C16 fails on the code: in this GGA sentence field 1 is empty, so the time should stay
`23:59:58`, but the parser takes the latitude text for field 1 and the time becomes
`48:07:.0`. -/
theorem gga_empty_time_is_overwritten :
    GPGGA <+: bytes "$GPGGA,,4807.038,N,01131.000,E,1,08,0.9,545.4" ∧
      (splitComma (bytes "$GPGGA,,4807.038,N,01131.000,E,1,08,0.9,545.4"))[1]? = some [] ∧
      cstr gps_sample.time = bytes "23:59:58" ∧
      cstr (parse_nmea gps_sample (bytes "$GPGGA,,4807.038,N,01131.000,E,1,08,0.9,545.4")).time =
        bytes "48:07:.0" := by
  refine ⟨⟨bytes ",,4807.038,N,01131.000,E,1,08,0.9,545.4", by decide⟩, by decide, by decide, ?_⟩
  rw [parse_nmea_eq]
  decide

theorem cstr_strncpy (dest tok : List Nat) (hnn : ∀ b ∈ tok, b ≠ 0)
    (hd : dest.drop 15 = [0]) : cstr (strncpy dest tok (16 - 1)) = tok.take 15 := by
  by_cases hl : tok.length ≤ 15
  · rw [cstr_strncpy_fit dest tok hnn hl hd, List.take_of_length_le hl]
  · have hc : cstr tok = tok := cstr_of_no_nul tok hnn
    have hk : 16 - 1 - tok.length = 0 := by omega
    unfold strncpy
    rw [hc, hd, hk, List.replicate_zero, List.append_nil, cstr_append_nul]
    exact cstr_of_no_nul _ (fun b hb => hnn b (List.mem_of_mem_take hb))

/-- The C string of a 16 byte array whose last byte is NUL has at most 15 characters. -/
theorem cstr_length_le (a : List Nat) (hd : a.drop 15 = [0]) : (cstr a).length ≤ 15 := by
  have ha : a = a.take 15 ++ 0 :: [] := by
    rw [← hd, List.take_append_drop]
  rw [ha, cstr_append_nul]
  have hpre : cstr (a.take 15) <+: a.take 15 := List.takeWhile_prefix _
  have := hpre.length_le
  simp only [List.length_take] at this
  omega

/-- From the zero-initialized record, after any sequence of `parse_nmea` calls the latitude
and longitude texts end within their arrays: at most 15 characters before a NUL. -/
theorem coordinates_terminated (ss : List (List Nat)) :
    (ss.foldl parse_nmea gps_zero).wf ∧
      (cstr (ss.foldl parse_nmea gps_zero).latitude).length ≤ 15 ∧
      (cstr (ss.foldl parse_nmea gps_zero).longitude).length ≤ 15 := by
  have hwf : ∀ (l : List (List Nat)) (g : gps_data), g.wf → (l.foldl parse_nmea g).wf := by
    intro l
    induction l with
    | nil => intro g hg; exact hg
    | cons x xs ih => intro g hg; exact ih _ (parse_nmea_wf g x hg)
  have h := hwf ss gps_zero gps_zero_wf
  exact ⟨h, cstr_length_le _ h.2.2.2.1, cstr_length_le _ h.2.2.2.2⟩

/-- The bounded copy of the coordinates in a GGA sentence whose fields up to the coordinate
are not empty: the stored text is the field cut to 15 characters, whatever was stored. -/
theorem coordinates_bounded_copy (g : gps_data) (hg : g.wf) (s f0 f1 f2 : List Nat)
    (rest : List (List Nat)) (hstart : GPGGA <+: s ∨ GNGGA <+: s) (hlen : s.length ≤ 255)
    (hnul : ∀ b ∈ s, b ≠ 0) (hs : splitComma s = f0 :: f1 :: f2 :: rest) (h1 : f1 ≠ [])
    (h2 : f2 ≠ []) :
    cstr (parse_nmea g s).latitude = f2.take 15 ∧
    (∀ (f3 f4 : List Nat) (rest1 : List (List Nat)), rest = f3 :: f4 :: rest1 → f3 ≠ [] →
      f4 ≠ [] → cstr (parse_nmea g s).longitude = f4.take 15) := by
  have n2 : ∀ b ∈ f2, b ≠ 0 := field_no_nul s hnul f2 (by rw [hs]; simp)
  constructor
  · have key := parse_gga_prefix gps_data.latitude g s f0 [f1] f2 rest hstart hlen hnul
      (by simpa using hs) (by simp [h1]) h2 (by simp)
      (fun g1 i tok hi => (gga_case_frame g1 i tok).2.1 (by simp at hi; omega))
    rw [key]
    simp only [List.cons_append, List.nil_append, apply_fields, gga_case]
    split
    · exact cstr_strncpy _ _ n2 hg.2.2.2.1
    · exact cstr_strncpy _ _ n2 hg.2.2.2.1
  · intro f3 f4 rest1 hrest h3 h4
    subst hrest
    have n4 : ∀ b ∈ f4, b ≠ 0 := field_no_nul s hnul f4 (by rw [hs]; simp)
    have key := parse_gga_prefix gps_data.longitude g s f0 [f1, f2, f3] f4 rest1 hstart hlen
      hnul (by simpa using hs) (by simp [h1, h2, h3]) h4 (by simp)
      (fun g1 i tok hi => (gga_case_frame g1 i tok).2.2.2.1 (by simp at hi; omega))
    rw [key]
    simp only [List.cons_append, List.nil_append, apply_fields, gga_case]
    split
    · exact cstr_strncpy _ _ n4 hg.2.2.2.2
    · exact cstr_strncpy _ _ n4 hg.2.2.2.2

/-- C17 fails on the code.  In the GGA sentence a receiver sends before it has a fix, the
latitude and longitude fields are empty, so the stored texts should be empty; the parser
takes the later fields `0` and `99.99` for them.  In a GGA sentence without time, the
latitude field is `5130.000` and the longitude field `00007.000`, both of at most 15
characters; the parser stores `N` and `W`. -/
theorem gga_empty_coordinates_are_filled :
    (GPGGA <+: bytes "$GPGGA,123519,,,,,0,00,99.99,,,,,,*48" ∧
      (splitComma (bytes "$GPGGA,123519,,,,,0,00,99.99,,,,,,*48"))[2]? = some [] ∧
      (splitComma (bytes "$GPGGA,123519,,,,,0,00,99.99,,,,,,*48"))[4]? = some [] ∧
      cstr (parse_nmea gps_zero (bytes "$GPGGA,123519,,,,,0,00,99.99,,,,,,*48")).latitude =
        bytes "0" ∧
      cstr (parse_nmea gps_zero (bytes "$GPGGA,123519,,,,,0,00,99.99,,,,,,*48")).longitude =
        bytes "99.99") ∧
    (GPGGA <+: bytes "$GPGGA,,5130.000,N,00007.000,W,1,05" ∧
      (splitComma (bytes "$GPGGA,,5130.000,N,00007.000,W,1,05"))[2]? =
        some (bytes "5130.000") ∧
      (splitComma (bytes "$GPGGA,,5130.000,N,00007.000,W,1,05"))[4]? =
        some (bytes "00007.000") ∧
      cstr (parse_nmea gps_zero (bytes "$GPGGA,,5130.000,N,00007.000,W,1,05")).latitude =
        bytes "N" ∧
      cstr (parse_nmea gps_zero (bytes "$GPGGA,,5130.000,N,00007.000,W,1,05")).longitude =
        bytes "W") := by
  refine ⟨⟨⟨bytes ",123519,,,,,0,00,99.99,,,,,,*48", by decide⟩, by decide, by decide, ?_, ?_⟩,
    ⟨bytes ",,5130.000,N,00007.000,W,1,05", by decide⟩, by decide, by decide, ?_, ?_⟩
  · rw [parse_nmea_eq]; decide
  · rw [parse_nmea_eq]; decide
  · rw [parse_nmea_eq]; decide
  · rw [parse_nmea_eq]; decide

/-- C18 as stated fails: field 6 is `1x`, not a number, yet fix_quality, 2 before, becomes
1 and not 0, because `atoi` reads the digits at the start of the field; and with the words
`inf` and `nan` in fields 8 and 9, hdop becomes an infinity and altitude a NaN, because
`atof` reads these words. -/
theorem leading_digits_are_read :
    GPGGA <+: bytes "$GPGGA,123519,4807.038,N,01131.000,E,1x,08,0.9,545.4" ∧
      (splitComma (bytes "$GPGGA,123519,4807.038,N,01131.000,E,1x,08,0.9,545.4"))[6]? =
        some (bytes "1x") ∧
      (bytes "1x").all isdigit = false ∧
      gps_sample.fix_quality = 2 ∧
      (parse_nmea gps_sample
        (bytes "$GPGGA,123519,4807.038,N,01131.000,E,1x,08,0.9,545.4")).fix_quality = 1 ∧
      splitComma (bytes "$GPGGA,123519,4807.038,N,01131.000,E,1,08,inf,nan") =
        [bytes "$GPGGA", bytes "123519", bytes "4807.038", bytes "N", bytes "01131.000",
          bytes "E", bytes "1", bytes "08", bytes "inf", bytes "nan"] ∧
      (parse_nmea gps_sample
        (bytes "$GPGGA,123519,4807.038,N,01131.000,E,1,08,inf,nan")).hdop = FloatVal.inf false ∧
      (parse_nmea gps_sample
        (bytes "$GPGGA,123519,4807.038,N,01131.000,E,1,08,inf,nan")).altitude = FloatVal.nan := by
  refine ⟨⟨bytes ",123519,4807.038,N,01131.000,E,1x,08,0.9,545.4", by decide⟩, by decide,
    by decide, rfl, ?_, by decide, ?_, ?_⟩
  · rw [parse_nmea_eq]
    decide
  · rw [parse_nmea_eq]
    decide
  · rw [parse_nmea_eq]
    decide

/-- A list with an entry at index `k` is its first `k` entries, that entry, and the rest. -/
theorem split_at_index (fs : List (List Nat)) (k : Nat) (f : List Nat) (hk : fs[k]? = some f) :
    fs = fs.take k ++ f :: fs.drop (k + 1) ∧ (fs.take k).length = k ∧
      fs.take (k + 1) = fs.take k ++ [f] := by
  obtain ⟨hlt, hget⟩ := List.getElem?_eq_some_iff.mp hk
  have h1 : fs.drop k = f :: fs.drop (k + 1) := by
    rw [← hget]
    exact List.drop_eq_getElem_cons hlt
  refine ⟨?_, ?_, ?_⟩
  · rw [← h1, List.take_append_drop]
  · rw [List.length_take]; omega
  · rw [List.take_succ, hk]
    rfl

/-- A GGA sentence, as the line buffer delivers it, whose fields 1 to `k + 1` are not empty:
a slot that the fields behind them leave alone is the one obtained by handling the fields 1
to `k`, each at its own index, and then field `k + 1`, whatever follows it. -/
theorem parse_gga_field {α : Type} (proj : gps_data → α) (g : gps_data) (s f0 : List Nat)
    (fs : List (List Nat)) (k : Nat) (f : List Nat)
    (hstart : GPGGA <+: s ∨ GNGGA <+: s) (hlen : s.length ≤ 255) (hnul : ∀ b ∈ s, b ≠ 0)
    (hs : splitComma s = f0 :: fs) (hk : fs[k]? = some f)
    (hne : ∀ x ∈ fs.take (k + 1), x ≠ []) (hb : k + 1 < 15)
    (hbody : ∀ (g1 : gps_data) (i : Nat) (tok : List Nat), k + 2 ≤ i →
      proj (gga_case g1 i tok) = proj g1) :
    proj (parse_nmea g s) =
      proj (gga_case (apply_fields gga_case g 1 (fs.take k)) (k + 1) f) := by
  obtain ⟨hsplit, hlenk, htake⟩ := split_at_index fs k f hk
  rw [htake] at hne
  have key := parse_gga_prefix proj g s f0 (fs.take k) f (fs.drop (k + 1)) hstart hlen hnul
    (by rw [← hsplit]; exact hs) (fun x hx => hne x (List.mem_append_left _ hx))
    (hne f (by simp)) (by rw [hlenk]; exact hb)
    (fun g1 i tok hi => hbody g1 i tok (by rw [hlenk] at hi; exact hi))
  rw [key, apply_fields_append, hlenk, Nat.add_comm 1 k]

/-- C18, amended. In a GGA sentence (at most 255 bytes, no NUL) whose fields 1 to 6 are not
empty, fix_quality is `atoi` of field 6, and it is 0 when field 6 does not begin, behind
optional white space and an optional sign, with a decimal digit; the same holds for
satellites and field 7 when the fields 1 to 7 are not empty.  When the fields 1 to 8 are not
empty, hdop is the `float` of `atof` of field 8, and it is 0 when field 8 does not begin,
behind optional white space and an optional sign, with a decimal digit, a point and a decimal
digit, or the letters `inf` or `nan`; the same holds for altitude and field 9 when the fields
1 to 9 are not empty.  When the fields 1 to 9 are not empty, every one of them is handled by
its own mapping, whatever the numeric fields hold. -/
theorem malformed_number_defaults (g : gps_data) (s f0 : List Nat) (fs : List (List Nat))
    (hstart : GPGGA <+: s ∨ GNGGA <+: s) (hlen : s.length ≤ 255) (hnul : ∀ b ∈ s, b ≠ 0)
    (hs : splitComma s = f0 :: fs) :
    (∀ f, fs[5]? = some f → (∀ x ∈ fs.take 6, x ≠ []) →
      (parse_nmea g s).fix_quality = atoi f ∧
        (startsInteger f = false → (parse_nmea g s).fix_quality = 0)) ∧
    (∀ f, fs[6]? = some f → (∀ x ∈ fs.take 7, x ≠ []) →
      (parse_nmea g s).satellites = atoi f ∧
        (startsInteger f = false → (parse_nmea g s).satellites = 0)) ∧
    (∀ f, fs[7]? = some f → (∀ x ∈ fs.take 8, x ≠ []) →
      (parse_nmea g s).hdop = toFloat (atof f) ∧
        (startsNumber f = false → (parse_nmea g s).hdop = 0)) ∧
    (∀ f, fs[8]? = some f → (∀ x ∈ fs.take 9, x ≠ []) →
      (parse_nmea g s).altitude = toFloat (atof f) ∧
        (startsNumber f = false → (parse_nmea g s).altitude = 0)) ∧
    (9 ≤ fs.length → (∀ x ∈ fs.take 9, x ≠ []) →
      parse_nmea g s = apply_fields gga_case g 1 (fs.take 9)) := by
  have hnn : ∀ (k : Nat) (f : List Nat), fs[k]? = some f → ∀ b ∈ f, b ≠ 0 := by
    intro k f hk
    obtain ⟨hlt, hget⟩ := List.getElem?_eq_some_iff.mp hk
    exact field_no_nul s hnul f
      (by rw [hs, ← hget]; exact List.mem_cons_of_mem _ (List.getElem_mem hlt))
  refine ⟨fun f hk hne => ?_, fun f hk hne => ?_, fun f hk hne => ?_, fun f hk hne => ?_,
    fun h9 hne => ?_⟩
  · have e := parse_gga_field gps_data.fix_quality g s f0 fs 5 f hstart hlen hnul hs hk hne
      (by omega) (fun g1 i tok hi => (gga_case_frame g1 i tok).2.2.2.2.2.1 (by omega))
    have e1 : (parse_nmea g s).fix_quality = atoi f := e
    exact ⟨e1, fun h => e1.trans (atoi_of_not_startsInteger f (hnn 5 f hk) h)⟩
  · have e := parse_gga_field gps_data.satellites g s f0 fs 6 f hstart hlen hnul hs hk hne
      (by omega) (fun g1 i tok hi => (gga_case_frame g1 i tok).2.2.2.2.2.2.1 (by omega))
    have e1 : (parse_nmea g s).satellites = atoi f := e
    exact ⟨e1, fun h => e1.trans (atoi_of_not_startsInteger f (hnn 6 f hk) h)⟩
  · have e := parse_gga_field gps_data.hdop g s f0 fs 7 f hstart hlen hnul hs hk hne
      (by omega) (fun g1 i tok hi => (gga_case_frame g1 i tok).2.2.2.2.2.2.2.1 (by omega))
    have e1 : (parse_nmea g s).hdop = toFloat (atof f) := e
    refine ⟨e1, fun h => ?_⟩
    rw [e1, atof_of_not_startsNumber f (hnn 7 f hk) h]
    exact toFloat_zero
  · have e := parse_gga_field gps_data.altitude g s f0 fs 8 f hstart hlen hnul hs hk hne
      (by omega) (fun g1 i tok hi => (gga_case_frame g1 i tok).2.2.2.2.2.2.2.2.1 (by omega))
    have e1 : (parse_nmea g s).altitude = toFloat (atof f) := e
    refine ⟨e1, fun h => ?_⟩
    rw [e1, atof_of_not_startsNumber f (hnn 8 f hk) h]
    exact toFloat_zero
  · have hlt : 8 < fs.length := by omega
    have hk : fs[8]? = some fs[8] := List.getElem?_eq_getElem hlt
    have e := parse_gga_field id g s f0 fs 8 fs[8] hstart hlen hnul hs hk hne (by omega)
      (fun g1 i tok hi => gga_case_noop g1 i tok (by omega))
    obtain ⟨_, hlenk, htake⟩ := split_at_index fs 8 fs[8] hk
    have e1 : parse_nmea g s = gga_case (apply_fields gga_case g 1 (fs.take 8)) (8 + 1) fs[8] := e
    rw [e1, htake, apply_fields_append, hlenk]

/-- C18 amended, at the sample record.  In a GGA sentence with the letters `x`, `y`, `z`, `w`
in fields 6 to 9 the four numbers become 0 and the time and the latitude are still taken
from the sentence; in a GGA sentence that has `x` in field 6 and nothing in the fields
behind it, fix_quality becomes 0. -/
theorem malformed_number_defaults_witness :
    (parse_nmea gps_sample
        (bytes "$GPGGA,123519,4807.038,N,01131.000,E,x,y,z,w")).fix_quality = 0 ∧
      (parse_nmea gps_sample
        (bytes "$GPGGA,123519,4807.038,N,01131.000,E,x,y,z,w")).satellites = 0 ∧
      (parse_nmea gps_sample (bytes "$GPGGA,123519,4807.038,N,01131.000,E,x,y,z,w")).hdop = 0 ∧
      (parse_nmea gps_sample
        (bytes "$GPGGA,123519,4807.038,N,01131.000,E,x,y,z,w")).altitude = 0 ∧
      cstr (parse_nmea gps_sample
        (bytes "$GPGGA,123519,4807.038,N,01131.000,E,x,y,z,w")).time = bytes "12:35:19" ∧
      cstr (parse_nmea gps_sample
        (bytes "$GPGGA,123519,4807.038,N,01131.000,E,x,y,z,w")).latitude = bytes "4807.038" ∧
      (parse_nmea gps_sample
        (bytes "$GPGGA,123519,4807.038,N,01131.000,E,x,,,")).fix_quality = 0 := by
  obtain ⟨z6, z7, z8, z9, hres⟩ :=
    malformed_number_defaults gps_sample (bytes "$GPGGA,123519,4807.038,N,01131.000,E,x,y,z,w")
      (bytes "$GPGGA")
      [bytes "123519", bytes "4807.038", bytes "N", bytes "01131.000", bytes "E", bytes "x",
        bytes "y", bytes "z", bytes "w"]
      (Or.inl ⟨bytes ",123519,4807.038,N,01131.000,E,x,y,z,w", by decide⟩)
      (by decide) (by decide) (by decide)
  obtain ⟨y6, _⟩ :=
    malformed_number_defaults gps_sample (bytes "$GPGGA,123519,4807.038,N,01131.000,E,x,,,")
      (bytes "$GPGGA")
      [bytes "123519", bytes "4807.038", bytes "N", bytes "01131.000", bytes "E", bytes "x",
        [], [], []]
      (Or.inl ⟨bytes ",123519,4807.038,N,01131.000,E,x,,,", by decide⟩)
      (by decide) (by decide) (by decide)
  have hr := hres (by decide) (by decide)
  refine ⟨(z6 (bytes "x") (by decide) (by decide)).2 (by decide),
    (z7 (bytes "y") (by decide) (by decide)).2 (by decide),
    (z8 (bytes "z") (by decide) (by decide)).2 (by decide),
    (z9 (bytes "w") (by decide) (by decide)).2 (by decide), ?_, ?_,
    (y6 (bytes "x") (by decide) (by decide)).2 (by decide)⟩
  · rw [hr]; decide
  · rw [hr]; decide

/-! ## Which lines are counted -/

theorem strstrFrom_isSome_iff (needle hay : List Nat) :
    (strstrFrom needle hay).isSome = true ↔ needle <:+: hay := by
  induction hay with
  | nil =>
      unfold strstrFrom
      by_cases hp : needle.isPrefixOf [] = true
      · have h := List.isPrefixOf_iff_prefix.mp hp
        simp [hp, h.isInfix]
      · have hn : ¬ needle <+: [] := fun h => hp (List.isPrefixOf_iff_prefix.mpr h)
        rw [if_neg hp]
        simp only [List.prefix_nil] at hn
        simp [hn]
  | cons h t ih =>
      unfold strstrFrom
      by_cases hp : needle.isPrefixOf (h :: t) = true
      · have hpre := List.isPrefixOf_iff_prefix.mp hp
        simp [hp, hpre.isInfix]
      · have hn : ¬ needle <+: h :: t := fun hpre => hp (List.isPrefixOf_iff_prefix.mpr hpre)
        rw [if_neg hp, Option.isSome_map', ih, List.infix_cons_iff]
        simp [hn]

/-- The filter of the receive loop lets a line pass exactly when one of the four identifiers
occurs in it. -/
theorem wanted_iff_occurs (l : List Nat) (hl : cstr l = l) : wanted l = true ↔ occurs l := by
  unfold wanted occurs strstr
  simp only [Bool.or_eq_true, strstrFrom_isSome_iff, hl, cstr_GNGGA, cstr_GPGGA, cstr_GNRMC,
    cstr_GPRMC, or_assoc]

theorem occurs_of_recognized (l : List Nat) (h : recognized l) : occurs l := by
  rcases h with h | h | h | h
  · exact Or.inl h.isInfix
  · exact Or.inr (Or.inl h.isInfix)
  · exact Or.inr (Or.inr (Or.inl h.isInfix))
  · exact Or.inr (Or.inr (Or.inr h.isInfix))

theorem counter_moves (c : Nat) :
    (if 10 ≤ (c + 1) % 2 ^ 32 then 0 else (c + 1) % 2 ^ 32) ≠ c := by
  have h32 : (2 : Nat) ^ 32 = 4294967296 := by norm_num
  rw [h32]
  split <;> omega

/-- C13, amended. For every completed line (a terminator that meets a cursor above 0
completes the line `cstr s.content`), the receive loop advances the sentence counter if and
only if one of the four identifiers occurs somewhere in the line; such a line is passed to
`parse_nmea`, any other line changes neither counter, reports nor record; every line that
`parse_nmea` classifies as GGA or RMC is among the lines counted. -/
theorem counter_counts_filtered_lines (s : State) (hw : s.wf) (hp : 0 < s.gps_rx_buf_pos)
    (t : Nat) (ht : isTerminator t) :
    ∃ s1, rx_byte s t = some s1 ∧ s1.lines = s.lines ++ [cstr s.content] ∧
      (s1.sentence_count ≠ s.sentence_count ↔ occurs (cstr s.content)) ∧
      (occurs (cstr s.content) → s1.parsed = s.parsed ++ [cstr s.content]) ∧
      (¬ occurs (cstr s.content) →
        s1.parsed = s.parsed ∧ s1.renders = s.renders ∧ s1.current_gps = s.current_gps) ∧
      (recognized (cstr s.content) → occurs (cstr s.content)) := by
  obtain ⟨s1, h1, _, _, hr1⟩ := rx_byte_term s t hw hp ht
  have hiff := wanted_iff_occurs (cstr s.content) (cstr_cstr _)
  rw [handle_line_rest] at hr1
  simp only [cstr_cstr] at hr1
  by_cases hwant : wanted (cstr s.content) = true
  · have hocc : occurs (cstr s.content) := hiff.mp hwant
    rw [if_pos hwant] at hr1
    simp only [State.rest, Prod.mk.injEq] at hr1
    obtain ⟨e1, _, _, e4, e5⟩ := hr1
    refine ⟨s1, h1, e4, ?_, fun _ => e5, fun h => absurd hocc h, occurs_of_recognized _⟩
    constructor
    · intro _; exact hocc
    · intro _
      rw [e1]
      exact counter_moves _
  · have hocc : ¬ occurs (cstr s.content) := fun h => hwant (hiff.mpr h)
    rw [if_neg hwant] at hr1
    simp only [State.rest, Prod.mk.injEq] at hr1
    obtain ⟨e1, e2, e3, e4, e5⟩ := hr1
    refine ⟨s1, h1, e4, ?_, fun h => absurd h hocc, fun _ => ⟨e5, e3, e2⟩,
      occurs_of_recognized _⟩
    constructor
    · intro h; exact absurd e1 h
    · intro h; exact absurd h hocc

theorem sample_wf : State.sample.wf := by
  constructor
  · simp only [State.sample, List.length_append, List.length_replicate, GPS_RX_BUF_SIZE]
    decide
  · simp only [State.sample, GPS_RX_BUF_SIZE]
    decide

/-- C13 amended, at a state that holds `x$GPGGA`: LF completes this line, which the parser
does not classify, and the counter moves. -/
theorem counter_counts_filtered_lines_witness :
    sentence_kind (parse_buf (bytes "x$GPGGA")) = SentenceKind.other ∧
      ∃ s1, rx_byte State.sample 10 = some s1 ∧
        s1.lines = State.sample.lines ++ [bytes "x$GPGGA"] ∧
        s1.sentence_count ≠ State.sample.sentence_count := by
  constructor
  · rw [sentence_kind_parse_buf]
    decide
  · obtain ⟨s1, h1, hl, hiff, _⟩ :=
      counter_counts_filtered_lines State.sample sample_wf (by decide) 10 (Or.inl rfl)
    have hline : cstr State.sample.content = bytes "x$GPGGA" := by decide
    rw [hline] at hl hiff
    exact ⟨s1, h1, hl, hiff.mpr (Or.inr (Or.inl ⟨[120], [], by decide⟩))⟩

end Nmea
